import Mathlib

/-! Offset-addressed doubly linked list in shared memory (`src/list.hpp`).

The C++ class `List` keeps a fixed-capacity doubly linked list inside one
shared-memory region: a `ListData` header at byte offset 0 followed by
`blocks_count` records of type `NodeBlock`.  All links are byte offsets from
the start of the region; offset 0 is the null link.

Embedding.
* The region is a value of type `Shm`: the header fields plus a map from byte
  offset to the `NodeBlock` record that starts at this offset.  `getNode r off`
  is the node stored at offset `off`, as in the source
  (`m_data_ptr + offset`).  Accesses that would overlap two records, or the
  header, are outside every precondition of the class and are not given an
  aliasing semantics.
* `sizeof(ListData)` and `sizeof(NodeBlock)` are fixed by the ABI; they are
  the two fields of `Layout`.
* Offsets (`std::ptrdiff_t`) are natural numbers: the code only ever produces
  `sizeof(ListData) + iter * sizeof(NodeBlock)` and 0.  `size` is a
  `std::size_t`, so `size++` and `size--` are taken modulo `2 ^ 64`, and so is
  the sum in `getMmapSize`.
* The loop counter of `get_free_node_offset` is an `int`.  `scanFree` counts
  in the natural numbers, which is what the loop does as long as `++iter`
  does not pass `INT_MAX`, that is for `blocks_count ≤ INT_MAX`
  (`scanFreeInt_eq_scanFree`); statements that rest on the allocator finding
  a block carry this bound on the capacity.
* `assert` is live (no `NDEBUG`): an operation returns an `Outcome`, either
  `done r` (returned normally, region is `r`) or `aborted r` (an assertion
  fired while the region was `r`).
* `std::unique_lock(getListData()->listMutex);` builds a temporary guard that
  is released at the end of that statement.  The operations are first given
  as sequential functions without the mutex; `procStep` gives `push_back` once
  more as single steps of a process, with the guard, for interleavings.
* A handle (`Handle`) carries the base address of its mapping; the `Handle.*`
  operations repeat the source's pointer arithmetic and are shown equal to
  the functions on offsets.
-/

namespace ShmList

/-- The record `struct Node` of the source. -/
structure Node where
  next : Nat
  data : Int
  previous : Nat
  deriving DecidableEq

/-- The record `struct NodeBlock`: room for one node (`nd`) and the tag `taken`. -/
structure NodeBlock where
  nd : Node
  taken : Int
  deriving DecidableEq

/-- The header `struct ListData`, without the mutex. -/
structure ListData where
  head : Nat
  tail : Nat
  size : Nat
  blocks_count : Nat
  deriving DecidableEq

/-- The two ABI constants: `sizeof(ListData)` and `sizeof(NodeBlock)`. -/
structure Layout where
  headerSize : Nat
  slotSize : Nat
  deriving DecidableEq

/-- Both sizes are positive, as every `sizeof` is. -/
def Layout.ok (L : Layout) : Prop := 0 < L.headerSize ∧ 0 < L.slotSize

instance (L : Layout) : Decidable L.ok := by unfold Layout.ok; infer_instance

/-- Contents of the shared region: the header and the block stored at each byte offset. -/
structure Shm where
  hdr : ListData
  cells : Nat → NodeBlock

/-- Result of a call: returned normally, or stopped by an assertion. -/
inductive Outcome where
  | done (r : Shm)
  | aborted (r : Shm)

/-- Size of the mapping, `List::getMmapSize`: the sum is computed in `std::size_t`, hence
modulo `2 ^ 64`. -/
def getMmapSize (L : Layout) (size : Nat) : Nat :=
  (L.headerSize + L.slotSize * size) % 2 ^ 64

/-- Byte offset of `getBlocks()[iter].nd` from `m_data_ptr`. -/
def blockOffset (L : Layout) (iter : Nat) : Nat := L.headerSize + iter * L.slotSize

/-- The node at a byte offset, `List::getNode`. -/
def getNode (r : Shm) (offset : Nat) : Node := (r.cells offset).nd

/-- Store into the node at `offset`. -/
def Shm.setNode (r : Shm) (offset : Nat) (nd : Node) : Shm :=
  { r with cells := fun o => if o = offset then { r.cells o with nd := nd } else r.cells o }

/-- Assignment `getNode(offset)->next = v`. -/
def Shm.setNext (r : Shm) (offset v : Nat) : Shm :=
  r.setNode offset { getNode r offset with next := v }

/-- Assignment `getNode(offset)->previous = v`. -/
def Shm.setPrevious (r : Shm) (offset v : Nat) : Shm :=
  r.setNode offset { getNode r offset with previous := v }

/-- Assignment `getNode(offset)->data = v`. -/
def Shm.setData (r : Shm) (offset : Nat) (v : Int) : Shm :=
  r.setNode offset { getNode r offset with data := v }

/-- Assignment to the tag of the block at `offset`. -/
def Shm.setTaken (r : Shm) (offset : Nat) (v : Int) : Shm :=
  { r with cells := fun o => if o = offset then { r.cells o with taken := v } else r.cells o }

/-- Assignment `getListData()->head = v`. -/
def Shm.setHead (r : Shm) (v : Nat) : Shm := { r with hdr := { r.hdr with head := v } }

/-- Assignment `getListData()->tail = v`. -/
def Shm.setTail (r : Shm) (v : Nat) : Shm := { r with hdr := { r.hdr with tail := v } }

/-- Assignment `getListData()->size = v`. -/
def Shm.setSize (r : Shm) (v : Nat) : Shm := { r with hdr := { r.hdr with size := v } }

/-- Increment `size++` of a `std::size_t`. -/
def size_succ (s : Nat) : Nat := (s + 1) % 2 ^ 64

/-- Decrement `size--` of a `std::size_t`. -/
def size_pred (s : Nat) : Nat := (s + 2 ^ 64 - 1) % 2 ^ 64

/-- Largest value of the type `int`, the type of the loop counter `iter` of
`List::get_free_node_offset`. -/
def INT_MAX : Nat := 2 ^ 31 - 1

/-- The loop of `List::get_free_node_offset`, with `k` iterations left from index `iter`;
`none` is the `assert(0)` after the loop.  The counter is a natural number here; the source
declares it `int`, and the two agree while `iter + k ≤ INT_MAX`, so for every capacity
`blocks_count ≤ INT_MAX` (`scanFreeInt_eq_scanFree`). -/
def scanFree (L : Layout) (r : Shm) : Nat → Nat → Option (Shm × Nat)
  | 0, _ => none
  | k + 1, iter =>
    if (r.cells (blockOffset L iter)).taken = 0 then
      some (r.setTaken (blockOffset L iter) 1, blockOffset L iter)
    else scanFree L r k (iter + 1)

/-- First-fit allocation, `List::get_free_node_offset`. -/
def get_free_node_offset (L : Layout) (r : Shm) : Option (Shm × Nat) :=
  scanFree L r r.hdr.blocks_count 0

/-- The loop of `List::get_free_node_offset` with its counter kept within `int`: when block
`INT_MAX` is taken, `++iter` overflows.  That is undefined in C++; with a wrapping counter
`iter` becomes negative, its conversion to `std::size_t` in `iter < data->blocks_count` is
`2 ^ 64 - 2 ^ 31`, above the capacity of any region that can be mapped, so the loop ends and
`assert(0)` is reached; that is the result given here. -/
def scanFreeInt (L : Layout) (r : Shm) : Nat → Nat → Option (Shm × Nat)
  | 0, _ => none
  | k + 1, iter =>
    if (r.cells (blockOffset L iter)).taken = 0 then
      some (r.setTaken (blockOffset L iter) 1, blockOffset L iter)
    else if iter < INT_MAX then scanFreeInt L r k (iter + 1)
    else none

/-- Release of a block, `List::return_node`. -/
def return_node (r : Shm) (offset : Nat) : Shm := r.setTaken offset 0

/-- Insertion at the tail, `List::push_back`. -/
def push_back (L : Layout) (r : Shm) (n : Int) : Outcome :=
  if r.hdr.size = r.hdr.blocks_count then Outcome.aborted r
  else
    match get_free_node_offset L r with
    | none => Outcome.aborted r
    | some (r1, new_node_offset) =>
      let r2 := r1.setNode new_node_offset ⟨0, 0, 0⟩
      let r3 := r2.setData new_node_offset n
      let r4 := r3.setNext new_node_offset 0
      let r5 := r4.setPrevious new_node_offset 0
      let r6 :=
        if r5.hdr.head = 0 then r5.setHead new_node_offset
        else
          let r5a := r5.setPrevious new_node_offset r5.hdr.tail
          r5a.setNext r5a.hdr.tail new_node_offset
      let r7 := r6.setTail new_node_offset
      Outcome.done (r7.setSize (size_succ r7.hdr.size))

/-- Removal at the tail, `List::pop_back` (the source has no emptiness check). -/
def pop_back (r : Shm) : Shm :=
  let new_tail := (getNode r r.hdr.tail).previous
  let r1 := return_node r r.hdr.tail
  let r2 := if new_tail = 0 then r1.setHead 0 else r1.setNext new_tail 0
  let r3 := r2.setTail new_tail
  r3.setSize (size_pred r3.hdr.size)

/-- Removal at the head, `List::pop_front` (the source has no emptiness check). -/
def pop_front (r : Shm) : Shm :=
  let new_head := (getNode r r.hdr.head).next
  let r1 := return_node r r.hdr.head
  let r2 := if new_head = 0 then r1.setTail 0 else r1.setPrevious new_head 0
  let r3 := r2.setHead new_head
  r3.setSize (size_pred r3.hdr.size)

/-- The class `List::Iterator`: an offset and the address of the owning handle
(`m_list`, 0 for `nullptr`). -/
structure Iterator where
  m_node_offset : Nat
  m_list : Nat
  deriving DecidableEq

/-- Comparison `Iterator::operator==`. -/
def Iterator.eq (a other : Iterator) : Bool :=
  a.m_node_offset == other.m_node_offset && (a.m_node_offset == 0 || a.m_list == other.m_list)

/-- Comparison `Iterator::operator!=`. -/
def Iterator.ne (a other : Iterator) : Bool := !(a.eq other)

/-- Dereference `Iterator::operator*`, read through the region. -/
def Iterator.deref (r : Shm) (it : Iterator) : Int := (getNode r it.m_node_offset).data

/-- Pre-increment `Iterator::operator++()`. -/
def Iterator.incr (r : Shm) (it : Iterator) : Iterator :=
  { it with m_node_offset := (getNode r it.m_node_offset).next }

/-- The iterator `List::begin()` of the handle at address `this`. -/
def begin (this : Nat) (r : Shm) : Iterator := ⟨r.hdr.head, this⟩

/-- The iterator `List::end()`. -/
def end_ : Iterator := ⟨0, 0⟩

/-- First half of `List::swap_in_memory` after its assertion: the four neighbour links (or
`head`/`tail`) are redirected, reading the offsets captured before any write. -/
def swap_relink (r : Shm) (first_offset second_offset : Nat) : Shm :=
  let first_next_offset := (getNode r first_offset).next
  let second_next_offset := (getNode r second_offset).next
  let first_previous_offset := (getNode r first_offset).previous
  let second_previous_offset := (getNode r second_offset).previous
  let r1 :=
    if first_next_offset ≠ 0 then r.setPrevious first_next_offset second_offset
    else r.setTail second_offset
  let r2 :=
    if second_next_offset ≠ 0 then r1.setPrevious second_next_offset first_offset
    else r1.setTail first_offset
  let r3 :=
    if first_previous_offset ≠ 0 then r2.setNext first_previous_offset second_offset
    else r2.setHead second_offset
  if second_previous_offset ≠ 0 then r3.setNext second_previous_offset first_offset
  else r3.setHead first_offset

/-- Second half of `List::swap_in_memory` (`// swap all elements`): three `std::swap` calls on
the fields of the two nodes. -/
def swap_fields (r4 : Shm) (first_offset second_offset : Nat) : Shm :=
  let r5 := (r4.setNext first_offset (getNode r4 second_offset).next).setNext second_offset
    (getNode r4 first_offset).next
  let r6 := (r5.setData first_offset (getNode r5 second_offset).data).setData second_offset
    (getNode r5 first_offset).data
  (r6.setPrevious first_offset (getNode r6 second_offset).previous).setPrevious
    second_offset (getNode r6 first_offset).previous

/-- The statements of `List::swap_in_memory` after its assertion, on the offsets held by the
two iterators. -/
def swap_in_memory_body (r : Shm) (first_offset second_offset : Nat) : Shm :=
  swap_fields (swap_relink r first_offset second_offset) first_offset second_offset

/-- Exchange of two nodes, `List::swap_in_memory`: the assertion `first != second`, then the
body. -/
def swap_in_memory (r : Shm) (first second : Iterator) : Outcome :=
  if first.ne second = false then Outcome.aborted r
  else Outcome.done (swap_in_memory_body r first.m_node_offset second.m_node_offset)

/-- The loop `for (it = begin(); it != end(); ++it) yield *it`, allowed `fuel` advances;
`none` when the loop has not reached `end()` within them. -/
def rangeFor (r : Shm) : Nat → Iterator → Option (List Int)
  | 0, it => if it.ne end_ then none else some []
  | fuel + 1, it =>
    if it.ne end_ then (rangeFor r fuel (it.incr r)).map (fun vs => it.deref r :: vs)
    else some []

/-- The iterator after `k` applications of `operator++`. -/
def advance (r : Shm) : Nat → Iterator → Iterator
  | 0, it => it
  | k + 1, it => advance r k (it.incr r)

/-- Consecutive `push_back` calls, stopping at the first assertion failure. -/
def push_all (L : Layout) : Shm → List Int → Outcome
  | r, [] => Outcome.done r
  | r, v :: vs =>
    match push_back L r v with
    | Outcome.done r1 => push_all L r1 vs
    | Outcome.aborted r1 => Outcome.aborted r1

/-- A region right after creation: empty header recording capacity `c`, every block free. -/
def IsFresh (L : Layout) (c : Nat) (r : Shm) : Prop :=
  r.hdr.head = 0 ∧ r.hdr.tail = 0 ∧ r.hdr.size = 0 ∧ r.hdr.blocks_count = c ∧
    ∀ i < c, (r.cells (blockOffset L i)).taken = 0

instance (L : Layout) (c : Nat) (r : Shm) : Decidable (IsFresh L c r) := by
  unfold IsFresh; infer_instance

/-- The zero-filled region with an empty header of capacity `c`. -/
def zeroShm (c : Nat) : Shm := ⟨⟨0, 0, 0, c⟩, fun _ => ⟨⟨0, 0, 0⟩, 0⟩⟩

/-- Region carried by an outcome. -/
def Outcome.region : Outcome → Shm
  | Outcome.done r => r
  | Outcome.aborted r => r

/-- Whether the call returned normally. -/
def Outcome.isDone : Outcome → Bool
  | Outcome.done _ => true
  | Outcome.aborted _ => false

/-- A doubly linked segment: the offsets `l` are chained by `next` and `previous`, the first
node's `previous` is `p` and the last node's `next` is `q`. -/
def Seg (r : Shm) : Nat → List Nat → Nat → Prop
  | _, [], _ => True
  | p, o :: rest, q =>
    (getNode r o).previous = p ∧ (getNode r o).next = rest.head?.getD q ∧ Seg r o rest q

instance Seg.instDecidable (r : Shm) : (p : Nat) → (l : List Nat) → (q : Nat) →
    Decidable (Seg r p l q)
  | _, [], _ => isTrue trivial
  | p, o :: rest, q =>
    have _ := Seg.instDecidable r o rest q
    inferInstanceAs (Decidable ((getNode r o).previous = p ∧
      (getNode r o).next = rest.head?.getD q ∧ Seg r o rest q))

/-- Well-formed list whose chain, front to back, is `offs`: the header names the two ends and
the length, the capacity fits a `std::size_t`, the nodes are doubly linked from 0 to 0, the
offsets are distinct block offsets, and a block is tagged taken exactly when it is on the
chain. -/
def WF (L : Layout) (r : Shm) (offs : List Nat) : Prop :=
  r.hdr.head = offs.head?.getD 0 ∧ r.hdr.tail = offs.getLast?.getD 0 ∧
  r.hdr.size = offs.length ∧ r.hdr.blocks_count < 2 ^ 64 ∧
  Seg r 0 offs 0 ∧ offs.Nodup ∧
  (∀ o ∈ offs, ∃ i < r.hdr.blocks_count, o = blockOffset L i) ∧
  (∀ i < r.hdr.blocks_count, (r.cells (blockOffset L i)).taken ≠ 0 ↔ blockOffset L i ∈ offs)

instance (L : Layout) (r : Shm) (offs : List Nat) : Decidable (WF L r offs) := by
  unfold WF; infer_instance

/-- Payloads stored at the given offsets, in order. -/
def payloads (r : Shm) (offs : List Nat) : List Int := offs.map fun o => (getNode r o).data

/-- The offsets `a` and `b` exchanged, every other offset kept. -/
def exch (a b o : Nat) : Nat := if o = a then b else if o = b then a else o

/-- Offsets visited by following `next` from `o`, at most `fuel` of them. -/
def walk (r : Shm) : Nat → Nat → List Nat
  | 0, _ => []
  | fuel + 1, o => if o = 0 then [] else o :: walk r fuel (getNode r o).next

/-- Offsets of the nodes on the chain from `head`. -/
def offsets (r : Shm) : List Nat := walk r r.hdr.size r.hdr.head

/-- The loop `while (size != 0) { yield getNode(tail)->data; pop_back(); }`, at most `fuel`
rounds. -/
def drain_back : Nat → Shm → List Int
  | 0, _ => []
  | fuel + 1, r =>
    if r.hdr.size = 0 then [] else (getNode r r.hdr.tail).data :: drain_back fuel (pop_back r)

/-- States reachable from a fresh region of capacity `c` by the four mutating operations, each
used within its precondition. -/
inductive Reachable (L : Layout) (c : Nat) : Shm → Prop
  | fresh (r : Shm) : IsFresh L c r → Reachable L c r
  | push (r : Shm) (n : Int) : Reachable L c r → r.hdr.size < r.hdr.blocks_count →
      Reachable L c (push_back L r n).region
  | pop_back (r : Shm) : Reachable L c r → r.hdr.size ≠ 0 → Reachable L c (pop_back r)
  | pop_front (r : Shm) : Reachable L c r → r.hdr.size ≠ 0 → Reachable L c (pop_front r)
  | swap (r : Shm) (first second : Iterator) : Reachable L c r →
      first.m_node_offset ∈ offsets r → second.m_node_offset ∈ offsets r →
      first.m_node_offset ≠ second.m_node_offset →
      Reachable L c (swap_in_memory r first second).region

/-- Facts about the single nodes of a chain: links point back, and the ends are the nodes
without a neighbour. -/
structure Local (r : Shm) (offs : List Nat) : Prop where
  ne_zero : ∀ o ∈ offs, o ≠ 0
  next_mem : ∀ o ∈ offs, (getNode r o).next ≠ 0 →
    (getNode r o).next ∈ offs ∧ (getNode r (getNode r o).next).previous = o ∧
      (getNode r o).next ≠ o
  prev_mem : ∀ o ∈ offs, (getNode r o).previous ≠ 0 →
    (getNode r o).previous ∈ offs ∧ (getNode r (getNode r o).previous).next = o ∧
      (getNode r o).previous ≠ o
  next_zero : ∀ o ∈ offs, (getNode r o).next = 0 ↔ o = r.hdr.tail
  prev_zero : ∀ o ∈ offs, (getNode r o).previous = 0 ↔ o = r.hdr.head

/-- Sizes used in the examples: a 72-byte header and 28-byte blocks (the values of the
x86-64 Linux ABI). -/
def demoLayout : Layout := ⟨72, 28⟩

/-- The list built by `main`: capacity 40, then `push_back` of 5, 10 and 15. -/
def demoList : Shm := (push_all demoLayout (zeroShm 40) [5, 10, 15]).region

/-- The list of `main` after `swap_in_memory(list.begin(), ++list.begin())`. -/
def demoSwapped : Shm :=
  (swap_in_memory demoList (begin 1 demoList) ((begin 1 demoList).incr demoList)).region

/-- A full list of capacity 5 holding 1, 2, 3, 4, 5. -/
def fiveList : Shm := (push_all demoLayout (zeroShm 5) [1, 2, 3, 4, 5]).region

/-- The list `fiveList` after `swap_in_memory` on its second and fourth node. -/
def fiveSwapped : Shm := (swap_in_memory fiveList ⟨100, 1⟩ ⟨156, 1⟩).region

/-- A state reached on a capacity-3 list: `push_back(5)`, `push_back(10)`, `swap_in_memory` on
the two nodes, `pop_back()`. -/
def reachDemo : Shm :=
  pop_back (swap_in_memory
    (push_back demoLayout (push_back demoLayout (zeroShm 3) 5).region 10).region
    ⟨72, 1⟩ ⟨100, 1⟩).region

/-- Number of blocks of the block array that are tagged taken. -/
def countTaken (L : Layout) (r : Shm) : Nat :=
  ((List.range r.hdr.blocks_count).filter
    (fun i => decide ((r.cells (blockOffset L i)).taken ≠ 0))).length

/-- The handle, `class List`: the address at which this process has mapped the region
(`m_data_ptr`, 0 for `nullptr`) and the name given to `shm_open` (`m_shmget_name`). -/
structure Handle where
  m_data_ptr : Nat
  m_shmget_name : String
  deriving DecidableEq

/-- The creation call `List::newList(name, size)` on the path where `shm_open`, `ftruncate` and
`mmap` succeed.  `ptr` is the address returned by `mmap` and `prev` the content of the named
object as it is mapped: all zero when `shm_open` has just created the object, the old bytes
when an object of that name existed (`O_CREAT` without `O_EXCL`).  The call constructs the
header in place and records `blocks_count`; it writes nothing else. -/
def newList (name : String) (size : Nat) (ptr : Nat) (prev : Shm) : Handle × Shm :=
  (⟨ptr, "/" ++ name⟩, { prev with hdr := ⟨0, 0, 0, size⟩ })

/-- The attachment call `List::useList(name, size)` on the path where `shm_open` and `mmap`
succeed: the region is mapped at `ptr` and not written. -/
def useList (name : String) (_size : Nat) (ptr : Nat) (r : Shm) : Handle × Shm :=
  (⟨ptr, "/" ++ name⟩, r)

/-- The move constructor `List::List(List&& other)`: the new handle, and `other` afterwards. -/
def Handle.moveFrom (other : Handle) : Handle × Handle := (other, ⟨0, ""⟩)

/-- The system calls a destructor can make. -/
inductive Syscall where
  | munmap (addr length : Nat)
  | shm_unlink (name : String)
  deriving DecidableEq

/-- The destructor `List::~List`, as the system calls it makes, in order. -/
def Handle.destructor (L : Layout) (h : Handle) (r : Shm) : List Syscall :=
  if h.m_data_ptr ≠ 0 then
    [Syscall.munmap h.m_data_ptr (getMmapSize L r.hdr.blocks_count),
     Syscall.shm_unlink h.m_shmget_name]
  else []

/-- A region left under a name by an earlier user: capacity 3, holding 1, 2, 3. -/
def staleRegion : Shm := (push_all demoLayout (zeroShm 3) [1, 2, 3]).region

/-! The operations once more, with the address arithmetic of the source written out: a process
holding handle `h` sees region offset `o` at virtual address `h.m_data_ptr + o`. -/

/-- Region offset that the virtual address `addr` denotes in the mapping of `h`. -/
def Handle.toOffset (h : Handle) (addr : Nat) : Nat := addr - h.m_data_ptr

/-- The pointer computed by `List::getNode`: `m_data_ptr + offset`. -/
def Handle.getNodePtr (h : Handle) (offset : Nat) : Nat := h.m_data_ptr + offset

/-- The pointer computed by `List::getBlocks`: `m_data_ptr + sizeof(ListData)`. -/
def Handle.getBlocksPtr (L : Layout) (h : Handle) : Nat := h.m_data_ptr + L.headerSize

/-- The address of `getBlocks()[iter]`. -/
def Handle.blockPtr (L : Layout) (h : Handle) (iter : Nat) : Nat :=
  h.getBlocksPtr L + iter * L.slotSize

/-- Read of the node behind a pointer. -/
def Handle.loadNode (h : Handle) (r : Shm) (ptr : Nat) : Node := (r.cells (h.toOffset ptr)).nd

/-- Write of the node behind a pointer. -/
def Handle.storeNode (h : Handle) (r : Shm) (ptr : Nat) (nd : Node) : Shm :=
  r.setNode (h.toOffset ptr) nd

/-- Read of the tag of the block behind a pointer. -/
def Handle.loadTaken (h : Handle) (r : Shm) (ptr : Nat) : Int := (r.cells (h.toOffset ptr)).taken

/-- Write of the tag of the block behind a pointer. -/
def Handle.storeTaken (h : Handle) (r : Shm) (ptr : Nat) (v : Int) : Shm :=
  r.setTaken (h.toOffset ptr) v

/-- The loop of `List::get_free_node_offset` through handle `h`; the value returned is the
pointer difference `blocks[iter].nd - m_data_ptr`. -/
def Handle.scanFree (L : Layout) (h : Handle) (r : Shm) : Nat → Nat → Option (Shm × Nat)
  | 0, _ => none
  | k + 1, iter =>
    if h.loadTaken r (h.blockPtr L iter) = 0 then
      some (h.storeTaken r (h.blockPtr L iter) 1, h.blockPtr L iter - h.m_data_ptr)
    else Handle.scanFree L h r k (iter + 1)

/-- Allocation `List::get_free_node_offset` through handle `h`. -/
def Handle.get_free_node_offset (L : Layout) (h : Handle) (r : Shm) : Option (Shm × Nat) :=
  h.scanFree L r r.hdr.blocks_count 0

/-- Release `List::return_node` through handle `h`. -/
def Handle.return_node (h : Handle) (r : Shm) (offset : Nat) : Shm :=
  h.storeTaken r (h.getNodePtr offset) 0

/-- Insertion `List::push_back` through handle `h`. -/
def Handle.push_back (L : Layout) (h : Handle) (r : Shm) (n : Int) : Outcome :=
  if r.hdr.size = r.hdr.blocks_count then Outcome.aborted r
  else
    match h.get_free_node_offset L r with
    | none => Outcome.aborted r
    | some (r1, new_node_offset) =>
      let new_node := h.getNodePtr new_node_offset
      let r2 := h.storeNode r1 new_node ⟨0, 0, 0⟩
      let r3 := h.storeNode r2 new_node { h.loadNode r2 new_node with data := n }
      let r4 := h.storeNode r3 new_node { h.loadNode r3 new_node with next := 0 }
      let r5 := h.storeNode r4 new_node { h.loadNode r4 new_node with previous := 0 }
      let r6 :=
        if r5.hdr.head = 0 then r5.setHead new_node_offset
        else
          let r5a := h.storeNode r5 new_node
            { h.loadNode r5 new_node with previous := r5.hdr.tail }
          h.storeNode r5a (h.getNodePtr r5a.hdr.tail)
            { h.loadNode r5a (h.getNodePtr r5a.hdr.tail) with next := new_node_offset }
      let r7 := r6.setTail new_node_offset
      Outcome.done (r7.setSize (size_succ r7.hdr.size))

/-- Removal `List::pop_back` through handle `h`. -/
def Handle.pop_back (h : Handle) (r : Shm) : Shm :=
  let new_tail := (h.loadNode r (h.getNodePtr r.hdr.tail)).previous
  let r1 := h.return_node r r.hdr.tail
  let r2 :=
    if new_tail = 0 then r1.setHead 0
    else h.storeNode r1 (h.getNodePtr new_tail)
      { h.loadNode r1 (h.getNodePtr new_tail) with next := 0 }
  let r3 := r2.setTail new_tail
  r3.setSize (size_pred r3.hdr.size)

/-- Removal `List::pop_front` through handle `h`. -/
def Handle.pop_front (h : Handle) (r : Shm) : Shm :=
  let new_head := (h.loadNode r (h.getNodePtr r.hdr.head)).next
  let r1 := h.return_node r r.hdr.head
  let r2 :=
    if new_head = 0 then r1.setTail 0
    else h.storeNode r1 (h.getNodePtr new_head)
      { h.loadNode r1 (h.getNodePtr new_head) with previous := 0 }
  let r3 := r2.setHead new_head
  r3.setSize (size_pred r3.hdr.size)

/-- Assignment `getNode(offset)->next = v` through handle `h`. -/
def Handle.setNext (h : Handle) (r : Shm) (offset v : Nat) : Shm :=
  h.storeNode r (h.getNodePtr offset) { h.loadNode r (h.getNodePtr offset) with next := v }

/-- Assignment `getNode(offset)->previous = v` through handle `h`. -/
def Handle.setPrevious (h : Handle) (r : Shm) (offset v : Nat) : Shm :=
  h.storeNode r (h.getNodePtr offset)
    { h.loadNode r (h.getNodePtr offset) with previous := v }

/-- Assignment `getNode(offset)->data = v` through handle `h`. -/
def Handle.setData (h : Handle) (r : Shm) (offset : Nat) (v : Int) : Shm :=
  h.storeNode r (h.getNodePtr offset) { h.loadNode r (h.getNodePtr offset) with data := v }

/-- Exchange `List::swap_in_memory` through handle `h`. -/
def Handle.swap_in_memory (h : Handle) (r : Shm) (first second : Iterator) : Outcome :=
  if first.ne second = false then Outcome.aborted r
  else
    let first_offset := first.m_node_offset
    let second_offset := second.m_node_offset
    let first_node := h.getNodePtr first_offset
    let second_node := h.getNodePtr second_offset
    let first_next_offset := (h.loadNode r first_node).next
    let second_next_offset := (h.loadNode r second_node).next
    let first_previous_offset := (h.loadNode r first_node).previous
    let second_previous_offset := (h.loadNode r second_node).previous
    let r1 :=
      if first_next_offset ≠ 0 then h.setPrevious r first_next_offset second_offset
      else r.setTail second_offset
    let r2 :=
      if second_next_offset ≠ 0 then h.setPrevious r1 second_next_offset first_offset
      else r1.setTail first_offset
    let r3 :=
      if first_previous_offset ≠ 0 then h.setNext r2 first_previous_offset second_offset
      else r2.setHead second_offset
    let r4 :=
      if second_previous_offset ≠ 0 then h.setNext r3 second_previous_offset first_offset
      else r3.setHead first_offset
    let r5 := h.setNext (h.setNext r4 first_offset (h.loadNode r4 second_node).next)
      second_offset (h.loadNode r4 first_node).next
    let r6 := h.setData (h.setData r5 first_offset (h.loadNode r5 second_node).data)
      second_offset (h.loadNode r5 first_node).data
    Outcome.done (h.setPrevious (h.setPrevious r6 first_offset (h.loadNode r6 second_node).previous)
      second_offset (h.loadNode r6 first_node).previous)

/-- The range-for loop through handle `h`: `operator*` and `operator++` resolve the offset
with `h.getNode`. -/
def Handle.rangeFor (h : Handle) (r : Shm) : Nat → Iterator → Option (List Int)
  | 0, it => if it.ne end_ then none else some []
  | fuel + 1, it =>
    if it.ne end_ then
      (Handle.rangeFor h r fuel
        { it with m_node_offset := (h.loadNode r (h.getNodePtr it.m_node_offset)).next }).map
        (fun vs => (h.loadNode r (h.getNodePtr it.m_node_offset)).data :: vs)
    else some []

/-! Two processes inside `push_back`.  One step is one statement of the source, except that
`size++` on the plain `std::size_t` is a load followed by a store. -/

/-- Program points of a `push_back` call: the statement to execute next. -/
inductive PushPc where
  | assert_size
  | guard_acquire
  | guard_release
  | scan
  | mark
  | init
  | test_head
  | set_head
  | link_previous
  | link_next
  | set_tail
  | load_size
  | store_size
  | returned
  | aborted
  deriving DecidableEq

/-- Local state of a process inside `push_back(n)`: program point, loop counter `iter`,
`new_node_offset`, and the register holding the value of `size` read by `size++`. -/
structure PushProc where
  pc : PushPc
  n : Int
  iter : Nat
  new_node_offset : Nat
  size_reg : Nat

/-- The shared region, the holder of `listMutex` (a process number, if any) and the
processes. -/
structure World where
  shm : Shm
  mutex_owner : Option Nat
  procs : Nat → PushProc

/-- One step of a process inside `List::push_back`, on its local state `p`, the region `s` and
the mutex holder `o`.  The statement `std::unique_lock(getListData()->listMutex);` builds a
temporary guard: the mutex is acquired (the process waits while another holds it) and released
again at the end of that same statement, before the allocator runs. -/
def procStep (L : Layout) (pid : Nat) (p : PushProc) (s : Shm) (o : Option Nat) :
    PushProc × Shm × Option Nat :=
  match p.pc with
  | PushPc.assert_size =>
    if s.hdr.size = s.hdr.blocks_count then ({ p with pc := PushPc.aborted }, s, o)
    else ({ p with pc := PushPc.guard_acquire }, s, o)
  | PushPc.guard_acquire =>
    match o with
    | none => ({ p with pc := PushPc.guard_release }, s, some pid)
    | some _ => (p, s, o)
  | PushPc.guard_release => ({ p with pc := PushPc.scan }, s, none)
  | PushPc.scan =>
    if p.iter < s.hdr.blocks_count then
      if (s.cells (blockOffset L p.iter)).taken = 0 then ({ p with pc := PushPc.mark }, s, o)
      else ({ p with iter := p.iter + 1 }, s, o)
    else ({ p with pc := PushPc.aborted }, s, o)
  | PushPc.mark =>
    ({ p with pc := PushPc.init, new_node_offset := blockOffset L p.iter },
      s.setTaken (blockOffset L p.iter) 1, o)
  | PushPc.init =>
    ({ p with pc := PushPc.test_head },
      (((s.setNode p.new_node_offset ⟨0, 0, 0⟩).setData p.new_node_offset p.n).setNext
        p.new_node_offset 0).setPrevious p.new_node_offset 0, o)
  | PushPc.test_head =>
    if s.hdr.head = 0 then ({ p with pc := PushPc.set_head }, s, o)
    else ({ p with pc := PushPc.link_previous }, s, o)
  | PushPc.set_head => ({ p with pc := PushPc.set_tail }, s.setHead p.new_node_offset, o)
  | PushPc.link_previous =>
    ({ p with pc := PushPc.link_next }, s.setPrevious p.new_node_offset s.hdr.tail, o)
  | PushPc.link_next =>
    ({ p with pc := PushPc.set_tail }, s.setNext s.hdr.tail p.new_node_offset, o)
  | PushPc.set_tail => ({ p with pc := PushPc.load_size }, s.setTail p.new_node_offset, o)
  | PushPc.load_size => ({ p with pc := PushPc.store_size, size_reg := s.hdr.size }, s, o)
  | PushPc.store_size => ({ p with pc := PushPc.returned }, s.setSize (size_succ p.size_reg), o)
  | PushPc.returned => (p, s, o)
  | PushPc.aborted => (p, s, o)

/-- One step of process `pid` in the world `w`; the other processes stand still. -/
def pushStep (L : Layout) (pid : Nat) (w : World) : World :=
  ⟨(procStep L pid (w.procs pid) w.shm w.mutex_owner).2.1,
   (procStep L pid (w.procs pid) w.shm w.mutex_owner).2.2,
   fun i => if i = pid then (procStep L pid (w.procs pid) w.shm w.mutex_owner).1
     else w.procs i⟩

/-- A process taking `k` steps with no other process running. -/
def soloRun (L : Layout) (pid : Nat) : Nat → PushProc × Shm × Option Nat →
    PushProc × Shm × Option Nat
  | 0, t => t
  | k + 1, t => soloRun L pid k (procStep L pid t.1 t.2.1 t.2.2)

/-- The world after the processes have taken steps in the order given by `schedule`. -/
def runSchedule (L : Layout) : List Nat → World → World
  | [], w => w
  | pid :: rest, w => runSchedule L rest (pushStep L pid w)

/-- Process 0 entering `push_back(5)` and process 1 entering `push_back(10)` on a fresh
list of capacity 2. -/
def raceStart : World :=
  ⟨zeroShm 2, none, fun i =>
    if i = 0 then ⟨PushPc.assert_size, 5, 0, 0, 0⟩ else ⟨PushPc.assert_size, 10, 0, 0, 0⟩⟩

/-- An interleaving of the two calls in which each runs to its `return`. -/
def raceSchedule : List Nat :=
  [0, 0, 0, 0, 1, 1, 1, 1, 0, 1, 0, 0, 1, 1, 0, 0, 0, 1, 1, 1, 0, 1]

/-- The two calls one after the other. -/
def serialSchedule : List Nat :=
  [0, 0, 0, 0, 0, 0, 0, 0, 0, 0, 0, 1, 1, 1, 1, 1, 1, 1, 1, 1, 1, 1, 1, 1]

/-! ## Reading and writing the region -/

@[simp] theorem getNode_setNode (r : Shm) (o o2 : Nat) (nd : Node) :
    getNode (r.setNode o nd) o2 = if o2 = o then nd else getNode r o2 := by
  by_cases h : o2 = o <;> simp [getNode, Shm.setNode, h]

@[simp] theorem getNode_setTaken (r : Shm) (o o2 : Nat) (v : Int) :
    getNode (r.setTaken o v) o2 = getNode r o2 := by
  by_cases h : o2 = o <;> simp [getNode, Shm.setTaken, h]

@[simp] theorem getNode_setHead (r : Shm) (v o : Nat) : getNode (r.setHead v) o = getNode r o := rfl
@[simp] theorem getNode_setTail (r : Shm) (v o : Nat) : getNode (r.setTail v) o = getNode r o := rfl
@[simp] theorem getNode_setSize (r : Shm) (v o : Nat) : getNode (r.setSize v) o = getNode r o := rfl

@[simp] theorem hdr_setNode (r : Shm) (o : Nat) (nd : Node) : (r.setNode o nd).hdr = r.hdr := rfl
@[simp] theorem hdr_setTaken (r : Shm) (o : Nat) (v : Int) : (r.setTaken o v).hdr = r.hdr := rfl
@[simp] theorem hdr_setHead (r : Shm) (v : Nat) :
    (r.setHead v).hdr = { r.hdr with head := v } := rfl
@[simp] theorem hdr_setTail (r : Shm) (v : Nat) :
    (r.setTail v).hdr = { r.hdr with tail := v } := rfl
@[simp] theorem hdr_setSize (r : Shm) (v : Nat) :
    (r.setSize v).hdr = { r.hdr with size := v } := rfl

@[simp] theorem taken_setNode (r : Shm) (o o2 : Nat) (nd : Node) :
    ((r.setNode o nd).cells o2).taken = (r.cells o2).taken := by
  unfold Shm.setNode; dsimp only; split <;> rfl

@[simp] theorem taken_setTaken (r : Shm) (o o2 : Nat) (v : Int) :
    ((r.setTaken o v).cells o2).taken = if o2 = o then v else (r.cells o2).taken := by
  unfold Shm.setTaken; dsimp only; split <;> rfl

@[simp] theorem taken_setHead (r : Shm) (v o : Nat) :
    ((r.setHead v).cells o).taken = (r.cells o).taken := rfl
@[simp] theorem taken_setTail (r : Shm) (v o : Nat) :
    ((r.setTail v).cells o).taken = (r.cells o).taken := rfl
@[simp] theorem taken_setSize (r : Shm) (v o : Nat) :
    ((r.setSize v).cells o).taken = (r.cells o).taken := rfl

theorem blockOffset_inj (L : Layout) (hL : L.ok) {i j : Nat}
    (h : blockOffset L i = blockOffset L j) : i = j := by
  unfold blockOffset at h
  have h2 : i * L.slotSize = j * L.slotSize := by omega
  exact Nat.eq_of_mul_eq_mul_right hL.2 h2

theorem blockOffset_pos (L : Layout) (hL : L.ok) (i : Nat) : blockOffset L i ≠ 0 := by
  unfold blockOffset; have := hL.1; omega

/-! ## Segments -/

theorem Seg_congr (r r2 : Shm) : ∀ (l : List Nat) (p q : Nat),
    (∀ o ∈ l, getNode r2 o = getNode r o) → Seg r p l q → Seg r2 p l q
  | [], _, _, _, _ => trivial
  | o :: rest, p, q, hf, h => by
    obtain ⟨h1, h2, h3⟩ := h
    refine ⟨?_, ?_, Seg_congr r r2 rest o q (fun x hx => hf x (List.mem_cons_of_mem _ hx)) h3⟩
    · rw [hf o (List.mem_cons_self _ _)]; exact h1
    · rw [hf o (List.mem_cons_self _ _)]; exact h2

theorem head?_append_getD (l1 l2 : List Nat) (q : Nat) :
    (l1 ++ l2).head?.getD q = l1.head?.getD (l2.head?.getD q) := by
  cases l1 <;> simp

theorem getLast?_cons_getD (o : Nat) (l : List Nat) (p : Nat) :
    (o :: l).getLast?.getD p = l.getLast?.getD o := by
  rw [List.getLast?_cons]; rfl

theorem getLast?_append_getD (l1 l2 : List Nat) (p : Nat) :
    (l1 ++ l2).getLast?.getD p = l2.getLast?.getD (l1.getLast?.getD p) := by
  cases h : l2.getLast? <;> simp [h]

theorem Seg_append (r : Shm) (l1 l2 : List Nat) (p q : Nat) :
    Seg r p (l1 ++ l2) q ↔
      Seg r p l1 (l2.head?.getD q) ∧ Seg r (l1.getLast?.getD p) l2 q := by
  induction l1 generalizing p with
  | nil => simp [Seg]
  | cons o rest ih =>
    rw [List.cons_append]
    simp only [Seg]
    rw [ih o, head?_append_getD, getLast?_cons_getD]
    tauto

/-! ## Iteration over a segment -/

theorem ne_end_of_ne_zero (o h : Nat) (ho : o ≠ 0) : (Iterator.mk o h).ne end_ = true := by
  simp [Iterator.ne, Iterator.eq, end_, ho]

theorem ne_end_zero (h : Nat) : (Iterator.mk 0 h).ne end_ = false := by
  simp [Iterator.ne, Iterator.eq, end_]

theorem eq_end_iff (o h : Nat) : (Iterator.mk o h).eq end_ = true ↔ o = 0 := by
  by_cases ho : o = 0 <;> simp [Iterator.eq, end_, ho]

theorem rangeFor_seg (r : Shm) (h : Nat) (l : List Nat) (p : Nat)
    (hs : Seg r p l 0) (hz : ∀ o ∈ l, o ≠ 0) :
    rangeFor r l.length ⟨l.head?.getD 0, h⟩ = some (payloads r l) := by
  induction l generalizing p with
  | nil => simp [rangeFor, ne_end_zero, payloads]
  | cons o rest ih =>
    obtain ⟨_, h2, h3⟩ := hs
    have ho : o ≠ 0 := hz o (List.mem_cons_self _ _)
    have ih2 := ih o h3 (fun x hx => hz x (List.mem_cons_of_mem _ hx))
    simp only [List.length_cons, rangeFor, List.head?_cons, Option.getD_some,
      ne_end_of_ne_zero o h ho, if_true, Iterator.incr, h2, ih2, Option.map_some,
      Iterator.deref, payloads, List.map_cons]
    rfl

theorem rangeFor_seg_short (r : Shm) (h : Nat) (l : List Nat) (p : Nat)
    (hs : Seg r p l 0) (hz : ∀ o ∈ l, o ≠ 0) (k : Nat) (hk : k < l.length) :
    rangeFor r k ⟨l.head?.getD 0, h⟩ = none := by
  induction l generalizing p k with
  | nil => simp at hk
  | cons o rest ih =>
    obtain ⟨_, h2, h3⟩ := hs
    have ho : o ≠ 0 := hz o (List.mem_cons_self _ _)
    cases k with
    | zero => simp [rangeFor, ne_end_of_ne_zero o h ho]
    | succ k =>
      have ih2 := ih o h3 (fun x hx => hz x (List.mem_cons_of_mem _ hx)) k
        (by simpa using hk)
      simp only [rangeFor, List.head?_cons, Option.getD_some, ne_end_of_ne_zero o h ho,
        if_true, Iterator.incr, h2, ih2, Option.map_none]
      rfl

theorem advance_seg (r : Shm) (h : Nat) (l : List Nat) (p : Nat)
    (hs : Seg r p l 0) (k : Nat) (hk : k ≤ l.length) :
    advance r k ⟨l.head?.getD 0, h⟩ = ⟨(l.drop k).head?.getD 0, h⟩ := by
  induction l generalizing p k with
  | nil =>
    have : k = 0 := by simpa using hk
    subst this; rfl
  | cons o rest ih =>
    obtain ⟨_, h2, h3⟩ := hs
    cases k with
    | zero => rfl
    | succ k =>
      have ih2 := ih o h3 k (by simpa using hk)
      simp only [advance, Iterator.incr, List.head?_cons, Option.getD_some, h2, ih2,
        List.drop_succ_cons]

theorem walk_seg (r : Shm) (l : List Nat) (p : Nat)
    (hs : Seg r p l 0) (hz : ∀ o ∈ l, o ≠ 0) :
    walk r l.length (l.head?.getD 0) = l := by
  induction l generalizing p with
  | nil => rfl
  | cons o rest ih =>
    obtain ⟨_, h2, h3⟩ := hs
    have ho : o ≠ 0 := hz o (List.mem_cons_self _ _)
    have ih2 := ih o h3 (fun x hx => hz x (List.mem_cons_of_mem _ hx))
    simp only [List.length_cons, walk, List.head?_cons, Option.getD_some, ho, if_false, h2, ih2]

/-! ## The allocator -/

theorem scanFree_some (L : Layout) (r : Shm) (k iter j : Nat)
    (h1 : iter ≤ j) (h2 : j < iter + k) (h3 : (r.cells (blockOffset L j)).taken = 0) :
    ∃ i, iter ≤ i ∧ i ≤ j ∧ (r.cells (blockOffset L i)).taken = 0 ∧
      (∀ m, iter ≤ m → m < i → (r.cells (blockOffset L m)).taken ≠ 0) ∧
      scanFree L r k iter = some (r.setTaken (blockOffset L i) 1, blockOffset L i) := by
  induction k generalizing iter with
  | zero => omega
  | succ k ih =>
    by_cases hf : (r.cells (blockOffset L iter)).taken = 0
    · exact ⟨iter, le_refl _, h1, hf, fun m a b => by omega, by simp [scanFree, hf]⟩
    · have hne : iter ≠ j := fun e => hf (e ▸ h3)
      obtain ⟨i, a, b, c, d, e⟩ := ih (iter + 1) (by omega) (by omega)
      refine ⟨i, by omega, b, c, ?_, by simp [scanFree, hf, e]⟩
      intro m hm1 hm2
      by_cases hm : m = iter
      · subst hm; exact hf
      · exact d m (by omega) hm2

theorem scanFree_none (L : Layout) (r : Shm) (k iter : Nat)
    (h : ∀ j, iter ≤ j → j < iter + k → (r.cells (blockOffset L j)).taken ≠ 0) :
    scanFree L r k iter = none := by
  induction k generalizing iter with
  | zero => rfl
  | succ k ih =>
    have hf := h iter (le_refl _) (by omega)
    simp only [scanFree, hf, if_false]
    exact ih (iter + 1) (fun j a b => h j (by omega) (by omega))

theorem exists_free_block (L : Layout) (hL : L.ok) (r : Shm) (offs : List Nat)
    (hw : WF L r offs) (hlt : r.hdr.size < r.hdr.blocks_count) :
    ∃ j, j < r.hdr.blocks_count ∧ (r.cells (blockOffset L j)).taken = 0 := by
  by_contra hcon
  push_neg at hcon
  obtain ⟨_, _, hsz, _, _, _, _, htk⟩ := hw
  have hsub : (List.range r.hdr.blocks_count).map (blockOffset L) ⊆ offs := by
    intro x hx
    obtain ⟨i, hi, rfl⟩ := List.mem_map.1 hx
    have hi2 : i < r.hdr.blocks_count := List.mem_range.1 hi
    exact (htk i hi2).1 (hcon i hi2)
  have hnd : ((List.range r.hdr.blocks_count).map (blockOffset L)).Nodup :=
    (List.nodup_range _).map (fun i j e => blockOffset_inj L hL e)
  have hle := (hnd.subperm hsub).length_le
  simp only [List.length_map, List.length_range] at hle
  omega

/-! ## push_back -/

theorem push_back_region (L : Layout) (r : Shm) (n : Int) (o : Nat)
    (hne : r.hdr.size ≠ r.hdr.blocks_count)
    (ha : get_free_node_offset L r = some (r.setTaken o 1, o))
    (hto : r.hdr.head ≠ 0 → r.hdr.tail ≠ o) :
    ∃ r2, push_back L r n = Outcome.done r2 ∧
      r2.hdr = ⟨if r.hdr.head = 0 then o else r.hdr.head, o, size_succ r.hdr.size,
        r.hdr.blocks_count⟩ ∧
      (∀ x, (r2.cells x).taken = if x = o then 1 else (r.cells x).taken) ∧
      getNode r2 o = ⟨0, n, if r.hdr.head = 0 then 0 else r.hdr.tail⟩ ∧
      (∀ x, x ≠ o → getNode r2 x =
        if r.hdr.head ≠ 0 ∧ x = r.hdr.tail then { getNode r x with next := o }
        else getNode r x) := by
  by_cases hh : r.hdr.head = 0
  · refine ⟨_, by simp only [push_back, hne, if_false, ha]; rfl, ?_, ?_, ?_, ?_⟩
    · simp [hh, Shm.setData, Shm.setNext, Shm.setPrevious]
    · intro x; simp [hh, Shm.setData, Shm.setNext, Shm.setPrevious]
    · simp [hh, Shm.setData, Shm.setNext, Shm.setPrevious]
    · intro x hx; simp [hh, hx, Shm.setData, Shm.setNext, Shm.setPrevious]
  · have ht := hto hh
    refine ⟨_, by simp only [push_back, hne, if_false, ha]; rfl, ?_, ?_, ?_, ?_⟩
    · simp [hh, Shm.setData, Shm.setNext, Shm.setPrevious]
    · intro x; simp [hh, Shm.setData, Shm.setNext, Shm.setPrevious]
    · simp [hh, ht, Ne.symm ht, Shm.setData, Shm.setNext, Shm.setPrevious]
    · intro x hx
      by_cases hxt : x = r.hdr.tail
      · subst hxt; simp [hh, ht, Shm.setData, Shm.setNext, Shm.setPrevious]
      · simp [hh, hx, hxt, Shm.setData, Shm.setNext, Shm.setPrevious]

theorem nil_or_snoc (l : List Nat) : l = [] ∨ ∃ l2 t, l = l2 ++ [t] := by
  rcases List.eq_nil_or_concat l with h | ⟨l2, t, h⟩
  · exact Or.inl h
  · exact Or.inr ⟨l2, t, by rw [h, List.concat_eq_append]⟩

theorem head?_getD_irrel (l : List Nat) (h : l ≠ []) (x y : Nat) :
    l.head?.getD x = l.head?.getD y := by
  cases l with
  | nil => exact absurd rfl h
  | cons a l => rfl

theorem WF.ne_zero {L : Layout} (hL : L.ok) {r : Shm} {offs : List Nat} (hw : WF L r offs) :
    ∀ o ∈ offs, o ≠ 0 := by
  intro o ho
  obtain ⟨i, _, rfl⟩ := hw.2.2.2.2.2.2.1 o ho
  exact blockOffset_pos L hL i

theorem WF.head_eq_zero_iff {L : Layout} (hL : L.ok) {r : Shm} {offs : List Nat}
    (hw : WF L r offs) : r.hdr.head = 0 ↔ offs = [] := by
  rw [hw.1]
  cases offs with
  | nil => simp
  | cons o rest => simpa using hw.ne_zero hL o (List.mem_cons_self _ _)

theorem WF.tail_eq_zero_iff {L : Layout} (hL : L.ok) {r : Shm} {offs : List Nat}
    (hw : WF L r offs) : r.hdr.tail = 0 ↔ offs = [] := by
  rw [hw.2.1]
  rcases nil_or_snoc offs with h | ⟨l, t, h⟩
  · simp [h]
  · subst h
    simpa [List.getLast?_concat] using hw.ne_zero hL t (by simp)

theorem WF.size_eq_zero_iff {L : Layout} {r : Shm} {offs : List Nat}
    (hw : WF L r offs) : r.hdr.size = 0 ↔ offs = [] := by
  rw [hw.2.2.1]; exact List.length_eq_zero

theorem get_free_wf (L : Layout) (hL : L.ok) (r : Shm) (offs : List Nat)
    (hw : WF L r offs) (hlt : r.hdr.size < r.hdr.blocks_count) :
    ∃ i, i < r.hdr.blocks_count ∧ blockOffset L i ∉ offs ∧
      (∀ m, m < i → blockOffset L m ∈ offs) ∧
      get_free_node_offset L r = some (r.setTaken (blockOffset L i) 1, blockOffset L i) := by
  obtain ⟨j, hj, hfree⟩ := exists_free_block L hL r offs hw hlt
  obtain ⟨i, _, hij, hi0, hmin, hres⟩ :=
    scanFree_some L r r.hdr.blocks_count 0 j (Nat.zero_le _) (by omega) hfree
  have htk := hw.2.2.2.2.2.2.2
  refine ⟨i, by omega, ?_, ?_, hres⟩
  · intro hmem
    exact ((htk i (by omega)).2 hmem) hi0
  · intro m hm
    exact (htk m (by omega)).1 (hmin m (Nat.zero_le _) hm)

theorem push_back_wf (L : Layout) (hL : L.ok) (r : Shm) (offs : List Nat) (n : Int)
    (hw : WF L r offs) (hlt : r.hdr.size < r.hdr.blocks_count) :
    ∃ r2 i, i < r.hdr.blocks_count ∧ blockOffset L i ∉ offs ∧
      (∀ m, m < i → blockOffset L m ∈ offs) ∧
      push_back L r n = Outcome.done r2 ∧ WF L r2 (offs ++ [blockOffset L i]) ∧
      payloads r2 (offs ++ [blockOffset L i]) = payloads r offs ++ [n] ∧
      r2.hdr.blocks_count = r.hdr.blocks_count ∧
      (∀ x, (r2.cells x).taken = if x = blockOffset L i then 1 else (r.cells x).taken) := by
  obtain ⟨i, hi, hnot, hmin, ha⟩ := get_free_wf L hL r offs hw hlt
  have hw0 := hw
  obtain ⟨hhead, htail, hsz, hcap, hseg, hnd, hform, htk⟩ := hw
  have htl : r.hdr.head ≠ 0 → r.hdr.tail ≠ blockOffset L i := by
    intro hh e
    have hne : offs ≠ [] := fun h => hh ((hw0.head_eq_zero_iff hL).2 h)
    obtain ⟨l, t, rfl⟩ := (nil_or_snoc offs).resolve_left hne
    rw [htail] at e
    simp only [List.getLast?_concat, Option.getD_some] at e
    exact hnot (by simp [e])
  obtain ⟨r2, hpb, hhdr, htaken, hnew, hold⟩ :=
    push_back_region L r n (blockOffset L i) (by omega) ha htl
  refine ⟨r2, i, hi, hnot, hmin, hpb, ?_, ?_, by rw [hhdr], htaken⟩
  · rcases nil_or_snoc offs with h | ⟨l, t, h⟩
    · subst h
      have hh : r.hdr.head = 0 := by simpa using hhead
      have hsz0 : r.hdr.size = 0 := by simpa using hsz
      refine ⟨by simp [hhdr, hh], by simp [hhdr], by simp [hhdr, hsz0, size_succ],
        by simpa [hhdr] using hcap, ?_, by simp, ?_, ?_⟩
      · simp [Seg, hnew, hh]
      · intro o ho
        simp only [List.nil_append, List.mem_singleton] at ho
        exact ⟨i, by rw [hhdr]; exact hi, ho⟩
      · intro k hk
        rw [hhdr] at hk
        simp only [htaken, List.nil_append, List.mem_singleton]
        by_cases e : blockOffset L k = blockOffset L i
        · simp [e]
        · simp only [e, if_false, iff_false, ne_eq, not_not]
          by_contra hc
          exact absurd ((htk k hk).1 hc) (by simp)
    · subst h
      have hh : r.hdr.head ≠ 0 := by
        intro e
        exact absurd ((hw0.head_eq_zero_iff hL).1 e) (by simp)
      have ht : r.hdr.tail = t := by simpa [List.getLast?_concat] using htail
      have hto : t ≠ blockOffset L i := fun e => hnot (by simp [e])
      have htl2 : t ∉ l := by
        have := List.nodup_append.1 hnd
        intro hm
        exact this.2.2 hm (List.mem_singleton_self t)
      have hsz1 : size_succ r.hdr.size = r.hdr.size + 1 := Nat.mod_eq_of_lt (by omega)
      refine ⟨?_, by simp [hhdr], by rw [hhdr]; simp only []; rw [hsz1, hsz]; simp,
        by simpa [hhdr] using hcap, ?_, ?_, ?_, ?_⟩
      · rw [hhdr]; simp only [hh, if_false]
        rw [hhead, head?_append_getD (l ++ [t])]
        exact head?_getD_irrel _ (by simp) _ _
      · rw [Seg_append] at hseg ⊢
        rw [Seg_append]
        obtain ⟨hs1, hs2⟩ := hseg
        refine ⟨⟨?_, ?_⟩, ?_⟩
        · refine Seg_congr r r2 l 0 _ ?_ (by simpa using hs1)
          intro x hx
          have hx1 : x ≠ blockOffset L i := fun e => hnot (by simp [← e, hx])
          have hx2 : x ≠ t := fun e => htl2 (e ▸ hx)
          rw [hold x hx1]; simp [ht, hx2]
        · simp only [Seg] at hs2 ⊢
          rw [hold t hto]
          simp [hh, ht, hs2.1]
        · simp [Seg, hnew, hh, ht, List.getLast?_concat]
      · rw [List.nodup_append]
        refine ⟨hnd, by simp, ?_⟩
        intro a ha1 hb1
        simp only [List.mem_singleton] at hb1
        exact hnot (hb1 ▸ ha1)
      · intro o ho
        rw [hhdr]
        rcases List.mem_append.1 ho with h | h
        · exact hform o h
        · exact ⟨i, hi, by simpa using h⟩
      · intro k hk
        rw [hhdr] at hk
        simp only [htaken]
        by_cases e : blockOffset L k = blockOffset L i
        · simp [e]
        · simp only [e, if_false]
          rw [htk k hk]
          simp [e]
  · simp only [payloads, List.map_append, List.map_cons, List.map_nil, hnew]
    congr 1
    apply List.map_congr_left
    intro x hx
    have hx1 : x ≠ blockOffset L i := fun e => hnot (e ▸ hx)
    rw [hold x hx1]
    split <;> rfl

/-! ## pop_back and pop_front -/

theorem Seg_set_last (r r2 : Shm) (l : List Nat) (u p q q2 : Nat)
    (hs : Seg r p (l ++ [u]) q)
    (hsame : ∀ x ∈ l, getNode r2 x = getNode r x)
    (hnew : getNode r2 u = { getNode r u with next := q2 }) :
    Seg r2 p (l ++ [u]) q2 := by
  rw [Seg_append] at hs ⊢
  obtain ⟨hs1, hs2⟩ := hs
  refine ⟨Seg_congr r r2 l p _ hsame (by simpa using hs1), ?_⟩
  simp only [Seg] at hs2 ⊢
  rw [hnew]
  simp [hs2.1]

theorem Seg_set_first (r r2 : Shm) (l : List Nat) (u p q p2 : Nat)
    (hs : Seg r p (u :: l) q)
    (hsame : ∀ x ∈ l, getNode r2 x = getNode r x)
    (hnew : getNode r2 u = { getNode r u with previous := p2 }) :
    Seg r2 p2 (u :: l) q := by
  obtain ⟨_, h2, h3⟩ := hs
  refine ⟨by rw [hnew], by rw [hnew]; exact h2, Seg_congr r r2 l u q hsame h3⟩

theorem pop_back_region (r : Shm) :
    (pop_back r).hdr = ⟨if (getNode r r.hdr.tail).previous = 0 then 0 else r.hdr.head,
        (getNode r r.hdr.tail).previous, size_pred r.hdr.size,
        r.hdr.blocks_count⟩ ∧
      (∀ x, ((pop_back r).cells x).taken = if x = r.hdr.tail then 0 else (r.cells x).taken) ∧
      (∀ x, getNode (pop_back r) x =
        if (getNode r r.hdr.tail).previous ≠ 0 ∧ x = (getNode r r.hdr.tail).previous then
          { getNode r x with next := 0 }
        else getNode r x) := by
  by_cases h : (getNode r r.hdr.tail).previous = 0
  · refine ⟨by simp [pop_back, return_node, h], ?_, ?_⟩
    · intro x; simp [pop_back, return_node, h]
    · intro x; simp [pop_back, return_node, h]
  · refine ⟨by simp [pop_back, return_node, h, Shm.setNext], ?_, ?_⟩
    · intro x; simp [pop_back, return_node, h, Shm.setNext]
    · intro x
      by_cases hx : x = (getNode r r.hdr.tail).previous
      · simp [pop_back, return_node, h, Shm.setNext, hx]
      · simp [pop_back, return_node, h, Shm.setNext, hx]

theorem pop_front_region (r : Shm) :
    (pop_front r).hdr = ⟨(getNode r r.hdr.head).next,
        if (getNode r r.hdr.head).next = 0 then 0 else r.hdr.tail,
        size_pred r.hdr.size, r.hdr.blocks_count⟩ ∧
      (∀ x, ((pop_front r).cells x).taken = if x = r.hdr.head then 0 else (r.cells x).taken) ∧
      (∀ x, getNode (pop_front r) x =
        if (getNode r r.hdr.head).next ≠ 0 ∧ x = (getNode r r.hdr.head).next then
          { getNode r x with previous := 0 }
        else getNode r x) := by
  by_cases h : (getNode r r.hdr.head).next = 0
  · refine ⟨by simp [pop_front, return_node, h], ?_, ?_⟩
    · intro x; simp [pop_front, return_node, h]
    · intro x; simp [pop_front, return_node, h]
  · refine ⟨by simp [pop_front, return_node, h, Shm.setPrevious], ?_, ?_⟩
    · intro x; simp [pop_front, return_node, h, Shm.setPrevious]
    · intro x
      by_cases hx : x = (getNode r r.hdr.head).next
      · simp [pop_front, return_node, h, Shm.setPrevious, hx]
      · simp [pop_front, return_node, h, Shm.setPrevious, hx]

theorem size_pred_mod (n : Nat) (h : n + 1 < 2 ^ 64) : size_pred (n + 1) = n := by
  unfold size_pred
  have e : n + 1 + 2 ^ 64 - 1 = n + 2 ^ 64 := by omega
  rw [e, Nat.add_mod_right]
  exact Nat.mod_eq_of_lt (by omega)

theorem WF.size_le {L : Layout} {r : Shm} {offs : List Nat} (hw : WF L r offs) :
    r.hdr.size ≤ r.hdr.blocks_count := by
  by_contra hcon
  obtain ⟨_, _, hsz, _, _, hnd, hform, _⟩ := hw
  have hsub : offs ⊆ (List.range r.hdr.blocks_count).map (blockOffset L) := by
    intro x hx
    obtain ⟨i, hi, rfl⟩ := hform x hx
    exact List.mem_map.2 ⟨i, List.mem_range.2 hi, rfl⟩
  have hle := (hnd.subperm hsub).length_le
  simp only [List.length_map, List.length_range] at hle
  omega

theorem pop_back_wf (L : Layout) (hL : L.ok) (r : Shm) (l : List Nat) (t : Nat)
    (hw : WF L r (l ++ [t])) :
    WF L (pop_back r) l ∧ payloads (pop_back r) l = payloads r l ∧
      (pop_back r).hdr.tail = (getNode r t).previous ∧
      (∀ x, ((pop_back r).cells x).taken = if x = t then 0 else (r.cells x).taken) := by
  have hsl := hw.size_le
  obtain ⟨hhead, htail, hsz, hcap, hseg, hnd, hform, htk⟩ := hw
  obtain ⟨hhdr, htaken, hnode⟩ := pop_back_region r
  have ht : r.hdr.tail = t := by simpa [List.getLast?_concat] using htail
  rw [ht] at hhdr htaken hnode
  have hnd2 := List.nodup_append.1 hnd
  have htl : t ∉ l := fun hm => hnd2.2.2 hm (List.mem_singleton_self t)
  have hprev : (getNode r t).previous = l.getLast?.getD 0 := by
    rw [Seg_append] at hseg
    exact hseg.2.1
  have hsz2 : size_pred r.hdr.size = l.length := by
    rw [hsz]; simp only [List.length_append, List.length_singleton]
    apply size_pred_mod
    simp only [List.length_append, List.length_singleton] at hsz
    omega
  have hfz : ∀ o ∈ l, o ≠ 0 := by
    intro o ho
    obtain ⟨i, _, rfl⟩ := hform o (List.mem_append_left _ ho)
    exact blockOffset_pos L hL i
  have hpay : payloads (pop_back r) l = payloads r l := by
    apply List.map_congr_left
    intro x hx
    rw [hnode x]; split <;> rfl
  refine ⟨⟨?_, ?_, by rw [hhdr]; exact hsz2, by rw [hhdr]; exact hcap, ?_, hnd2.1, ?_, ?_⟩,
    hpay, by rw [hhdr], htaken⟩
  · rw [hhdr, hprev]; simp only []
    rcases nil_or_snoc l with h | ⟨l2, u, h⟩
    · subst h; simp
    · subst h
      have hu : u ≠ 0 := hfz u (by simp)
      rw [hhead]
      simp only [List.getLast?_concat, Option.getD_some, hu, if_false]
      rw [head?_append_getD (l2 ++ [u])]
      exact head?_getD_irrel _ (by simp) _ _
  · rw [hhdr, hprev]
  · rcases nil_or_snoc l with h | ⟨l2, u, h⟩
    · subst h; trivial
    · subst h
      have hu : u ≠ 0 := hfz u (by simp)
      have hpu : (getNode r t).previous = u := by simpa [List.getLast?_concat] using hprev
      have hnd3 := List.nodup_append.1 hnd2.1
      have hul : u ∉ l2 := fun hm => hnd3.2.2 hm (List.mem_singleton_self u)
      rw [Seg_append] at hseg
      refine Seg_set_last r (pop_back r) l2 u 0 _ 0 hseg.1 ?_ ?_
      · intro x hx
        have hxu : x ≠ u := fun e => hul (e ▸ hx)
        rw [hnode x, hpu]; simp [hxu]
      · rw [hnode u, hpu]; simp [hu]
  · intro o ho
    rw [hhdr]
    exact hform o (List.mem_append_left _ ho)
  · intro k hk
    rw [hhdr] at hk
    rw [htaken]
    by_cases e : blockOffset L k = t
    · simp only [e, if_true, ne_eq, not_true, false_iff]; exact htl
    · simp only [e, if_false]
      rw [htk k hk]; simp [e]

theorem pop_front_wf (L : Layout) (hL : L.ok) (r : Shm) (l : List Nat) (t : Nat)
    (hw : WF L r (t :: l)) :
    WF L (pop_front r) l ∧ payloads (pop_front r) l = payloads r l ∧
      (pop_front r).hdr.head = (getNode r t).next ∧
      (∀ x, ((pop_front r).cells x).taken = if x = t then 0 else (r.cells x).taken) := by
  have hsl := hw.size_le
  obtain ⟨hhead, htail, hsz, hcap, hseg, hnd, hform, htk⟩ := hw
  obtain ⟨hhdr, htaken, hnode⟩ := pop_front_region r
  have ht : r.hdr.head = t := by simpa using hhead
  rw [ht] at hhdr htaken hnode
  have hnd2 := List.nodup_cons.1 hnd
  have htl : t ∉ l := hnd2.1
  have hnext : (getNode r t).next = l.head?.getD 0 := hseg.2.1
  have hsz2 : size_pred r.hdr.size = l.length := by
    rw [hsz]; simp only [List.length_cons]
    apply size_pred_mod
    simp only [List.length_cons] at hsz
    omega
  have hfz : ∀ o ∈ l, o ≠ 0 := by
    intro o ho
    obtain ⟨i, _, rfl⟩ := hform o (List.mem_cons_of_mem _ ho)
    exact blockOffset_pos L hL i
  have hpay : payloads (pop_front r) l = payloads r l := by
    apply List.map_congr_left
    intro x hx
    rw [hnode x]; split <;> rfl
  refine ⟨⟨by rw [hhdr, hnext], ?_, by rw [hhdr]; exact hsz2, by rw [hhdr]; exact hcap, ?_,
    hnd2.2, ?_, ?_⟩, hpay, by rw [hhdr], htaken⟩
  · rw [hhdr, hnext]; simp only []
    cases l with
    | nil => simp
    | cons u l2 =>
      have hu : u ≠ 0 := hfz u (List.mem_cons_self _ _)
      rw [htail, getLast?_cons_getD]
      simp only [List.head?_cons, Option.getD_some, hu, if_false]
      rw [getLast?_cons_getD, getLast?_cons_getD]
  · cases l with
    | nil => trivial
    | cons u l2 =>
      have hu : u ≠ 0 := hfz u (List.mem_cons_self _ _)
      have hnu : (getNode r t).next = u := by simpa using hnext
      have hul : u ∉ l2 := (List.nodup_cons.1 hnd2.2).1
      refine Seg_set_first r (pop_front r) l2 u t 0 0 hseg.2.2 ?_ ?_
      · intro x hx
        have hxu : x ≠ u := fun e => hul (e ▸ hx)
        rw [hnode x, hnu]; simp [hxu]
      · rw [hnode u, hnu]; simp [hu]
  · intro o ho
    rw [hhdr]
    exact hform o (List.mem_cons_of_mem _ ho)
  · intro k hk
    rw [hhdr] at hk
    rw [htaken]
    by_cases e : blockOffset L k = t
    · simp only [e, if_true, ne_eq, not_true, false_iff]; exact htl
    · simp only [e, if_false]
      rw [htk k hk]; simp [e]

/-! ## swap_in_memory -/

theorem seg_at (r : Shm) (l1 l2 : List Nat) (o p q : Nat) (hs : Seg r p (l1 ++ o :: l2) q) :
    (getNode r o).previous = l1.getLast?.getD p ∧ (getNode r o).next = l2.head?.getD q := by
  rw [Seg_append] at hs
  exact ⟨hs.2.1, hs.2.2.1⟩

theorem WF.local {L : Layout} (hL : L.ok) {r : Shm} {offs : List Nat} (hw : WF L r offs) :
    Local r offs := by
  have hz := hw.ne_zero hL
  obtain ⟨hhead, htail, _, _, hseg, hnd, _, _⟩ := hw
  refine ⟨hz, ?_, ?_, ?_, ?_⟩
  · intro o ho hn
    obtain ⟨l1, l2, rfl⟩ := List.append_of_mem ho
    have h1 := (seg_at r l1 l2 o 0 0 hseg).2
    cases l2 with
    | nil => simp [h1] at hn
    | cons y l3 =>
      simp only [List.head?_cons, Option.getD_some] at h1
      have e : l1 ++ o :: y :: l3 = (l1 ++ [o]) ++ y :: l3 := by simp
      rw [e] at hseg
      have h2 := (seg_at r (l1 ++ [o]) l3 y 0 0 hseg).1
      simp only [List.getLast?_concat, Option.getD_some] at h2
      rw [h1]
      refine ⟨by simp, h2, ?_⟩
      intro e2
      have := List.nodup_append.1 hnd
      have h3 := List.nodup_cons.1 this.2.1
      exact h3.1 (by simp [e2])
  · intro o ho hn
    obtain ⟨l1, l2, rfl⟩ := List.append_of_mem ho
    have h1 := (seg_at r l1 l2 o 0 0 hseg).1
    rcases nil_or_snoc l1 with h | ⟨l0, y, h⟩
    · subst h; simp [h1] at hn
    · subst h
      simp only [List.getLast?_concat, Option.getD_some] at h1
      have e : l0 ++ [y] ++ o :: l2 = l0 ++ y :: o :: l2 := by simp
      rw [e] at hseg hnd
      have h2 := (seg_at r l0 (o :: l2) y 0 0 hseg).2
      simp only [List.head?_cons, Option.getD_some] at h2
      rw [h1]
      refine ⟨by simp, h2, ?_⟩
      intro e2
      have := List.nodup_append.1 hnd
      have h3 := List.nodup_cons.1 this.2.1
      exact h3.1 (by simp [e2])
  · intro o ho
    obtain ⟨l1, l2, rfl⟩ := List.append_of_mem ho
    have h1 := (seg_at r l1 l2 o 0 0 hseg).2
    cases l2 with
    | nil =>
      rw [htail]
      simp [h1, List.getLast?_concat]
    | cons y l3 =>
      simp only [List.head?_cons, Option.getD_some] at h1
      rw [h1, htail]
      have e : l1 ++ o :: y :: l3 = (l1 ++ [o]) ++ (y :: l3) := by simp
      have hnd2 := hnd
      rw [e, List.nodup_append] at hnd2
      have hoy : o ∉ y :: l3 := fun hm => hnd2.2.2 (by simp) hm
      constructor
      · intro h0; exact absurd h0 (hz y (by simp))
      · intro h0
        exfalso
        apply hoy
        have hlast : (l1 ++ o :: y :: l3).getLast?.getD 0 ∈ y :: l3 := by
          rw [e, getLast?_append_getD, getLast?_cons_getD]
          rcases nil_or_snoc l3 with h | ⟨l4, z, h⟩
          · subst h; simp
          · subst h; simp [List.getLast?_concat]
        rw [← h0] at hlast
        exact hlast
  · intro o ho
    obtain ⟨l1, l2, rfl⟩ := List.append_of_mem ho
    have h1 := (seg_at r l1 l2 o 0 0 hseg).1
    rcases nil_or_snoc l1 with h | ⟨l0, y, h⟩
    · subst h; rw [hhead]; simp [h1]
    · subst h
      simp only [List.getLast?_concat, Option.getD_some] at h1
      rw [h1, hhead]
      have hnd2 := hnd
      rw [List.nodup_append] at hnd2
      have hol : o ∉ l0 ++ [y] := fun hm => hnd2.2.2 hm (by simp)
      constructor
      · intro h0; exact absurd h0 (hz y (by simp))
      · intro h0
        exfalso
        apply hol
        have hfirst : (l0 ++ [y] ++ o :: l2).head?.getD 0 ∈ l0 ++ [y] := by
          rw [head?_append_getD]
          cases l0 <;> simp
        rw [← h0] at hfirst
        exact hfirst

theorem next_setNext (r : Shm) (o v x : Nat) :
    (getNode (r.setNext o v) x).next = if x = o then v else (getNode r x).next := by
  by_cases h : x = o <;> simp [Shm.setNext, h]
theorem data_setNext (r : Shm) (o v x : Nat) :
    (getNode (r.setNext o v) x).data = (getNode r x).data := by
  by_cases h : x = o <;> simp [Shm.setNext, h]
theorem previous_setNext (r : Shm) (o v x : Nat) :
    (getNode (r.setNext o v) x).previous = (getNode r x).previous := by
  by_cases h : x = o <;> simp [Shm.setNext, h]
theorem next_setPrevious (r : Shm) (o v x : Nat) :
    (getNode (r.setPrevious o v) x).next = (getNode r x).next := by
  by_cases h : x = o <;> simp [Shm.setPrevious, h]
theorem data_setPrevious (r : Shm) (o v x : Nat) :
    (getNode (r.setPrevious o v) x).data = (getNode r x).data := by
  by_cases h : x = o <;> simp [Shm.setPrevious, h]
theorem previous_setPrevious (r : Shm) (o v x : Nat) :
    (getNode (r.setPrevious o v) x).previous = if x = o then v else (getNode r x).previous := by
  by_cases h : x = o <;> simp [Shm.setPrevious, h]
theorem next_setData (r : Shm) (o : Nat) (v : Int) (x : Nat) :
    (getNode (r.setData o v) x).next = (getNode r x).next := by
  by_cases h : x = o <;> simp [Shm.setData, h]
theorem data_setData (r : Shm) (o : Nat) (v : Int) (x : Nat) :
    (getNode (r.setData o v) x).data = if x = o then v else (getNode r x).data := by
  by_cases h : x = o <;> simp [Shm.setData, h]
theorem previous_setData (r : Shm) (o : Nat) (v : Int) (x : Nat) :
    (getNode (r.setData o v) x).previous = (getNode r x).previous := by
  by_cases h : x = o <;> simp [Shm.setData, h]

theorem hdr_setNext (r : Shm) (o v : Nat) : (r.setNext o v).hdr = r.hdr := rfl
theorem hdr_setPrevious (r : Shm) (o v : Nat) : (r.setPrevious o v).hdr = r.hdr := rfl
theorem hdr_setData (r : Shm) (o : Nat) (v : Int) : (r.setData o v).hdr = r.hdr := rfl
theorem taken_setNext (r : Shm) (o v x : Nat) :
    ((r.setNext o v).cells x).taken = (r.cells x).taken := by simp [Shm.setNext]
theorem taken_setPrevious (r : Shm) (o v x : Nat) :
    ((r.setPrevious o v).cells x).taken = (r.cells x).taken := by simp [Shm.setPrevious]
theorem taken_setData (r : Shm) (o : Nat) (v : Int) (x : Nat) :
    ((r.setData o v).cells x).taken = (r.cells x).taken := by simp [Shm.setData]

theorem getNode_ite (c : Prop) [Decidable c] (s t : Shm) (x : Nat) :
    getNode (if c then s else t) x = if c then getNode s x else getNode t x := by
  split <;> rfl
theorem hdr_ite (c : Prop) [Decidable c] (s t : Shm) :
    (if c then s else t).hdr = if c then s.hdr else t.hdr := by
  split <;> rfl
theorem taken_ite (c : Prop) [Decidable c] (s t : Shm) (x : Nat) :
    ((if c then s else t).cells x).taken = if c then (s.cells x).taken else (t.cells x).taken := by
  split <;> rfl
theorem node_ite_next (c : Prop) [Decidable c] (s t : Node) :
    (if c then s else t).next = if c then s.next else t.next := by split <;> rfl
theorem node_ite_data (c : Prop) [Decidable c] (s t : Node) :
    (if c then s else t).data = if c then s.data else t.data := by split <;> rfl
theorem node_ite_previous (c : Prop) [Decidable c] (s t : Node) :
    (if c then s else t).previous = if c then s.previous else t.previous := by split <;> rfl
theorem node_eq (n : Node) (a : Nat) (d : Int) (p : Nat) (h1 : n.next = a) (h2 : n.data = d)
    (h3 : n.previous = p) : n = ⟨a, d, p⟩ := by
  cases n; simp_all

theorem exch_left (a b : Nat) : exch a b a = b := by simp [exch]
theorem exch_right (a b : Nat) : exch a b b = a := by
  by_cases h : b = a <;> simp [exch, h]
theorem exch_other (a b o : Nat) (h1 : o ≠ a) (h2 : o ≠ b) : exch a b o = o := by
  simp [exch, h1, h2]

theorem swap_done (r : Shm) (first second : Iterator)
    (hne : first.m_node_offset ≠ second.m_node_offset) :
    swap_in_memory r first second =
      Outcome.done (swap_in_memory_body r first.m_node_offset second.m_node_offset) := by
  have h : first.ne second = true := by simp [Iterator.ne, Iterator.eq, hne]
  simp only [swap_in_memory, h]; rfl

theorem Local.next_eq_iff {r : Shm} {offs : List Nat} (hl : Local r offs) (o x : Nat)
    (ho : o ∈ offs) (hx : x ∈ offs) :
    (getNode r o).next = x ↔ (getNode r x).previous = o := by
  constructor
  · intro h
    have := hl.next_mem o ho (by rw [h]; exact hl.ne_zero x hx)
    rw [h] at this; exact this.2.1
  · intro h
    have := hl.prev_mem x hx (by rw [h]; exact hl.ne_zero o ho)
    rw [h] at this; exact this.2.1

theorem swap_fields_node (s : Shm) (a b x : Nat) :
    getNode (swap_fields s a b) x =
      if x = b then getNode s a else if x = a then getNode s b else getNode s x := by
  have key : ∀ n : Node, n = ⟨n.next, n.data, n.previous⟩ := fun n => by cases n; rfl
  rw [key (getNode (swap_fields s a b) x)]
  by_cases hb : x = b
  · subst hb
    simp only [swap_fields, next_setNext, next_setPrevious, next_setData, data_setNext,
      data_setPrevious, data_setData, previous_setNext, previous_setPrevious, previous_setData,
      if_true]
  · by_cases ha : x = a
    · subst ha
      simp only [swap_fields, next_setNext, next_setPrevious, next_setData, data_setNext,
        data_setPrevious, data_setData, previous_setNext, previous_setPrevious,
        previous_setData, if_true, hb, if_false]
    · simp only [swap_fields, next_setNext, next_setPrevious, next_setData, data_setNext,
        data_setPrevious, data_setData, previous_setNext, previous_setPrevious,
        previous_setData, ha, hb, if_false]

theorem swap_fields_exch (s : Shm) (a b y : Nat) (hne : a ≠ b) :
    getNode (swap_fields s a b) (exch a b y) = getNode s y := by
  rw [swap_fields_node]
  by_cases h1 : y = a
  · subst h1; rw [exch_left]; simp
  · by_cases h2 : y = b
    · subst h2; rw [exch_right]; simp [hne]
    · rw [exch_other a b y h1 h2]; simp [h1, h2]

theorem swap_fields_hdr (s : Shm) (a b : Nat) : (swap_fields s a b).hdr = s.hdr := rfl

theorem swap_fields_taken (s : Shm) (a b x : Nat) :
    ((swap_fields s a b).cells x).taken = (s.cells x).taken := by
  simp only [swap_fields, taken_setNext, taken_setPrevious, taken_setData]

theorem swap_relink_next (r : Shm) (a b x : Nat) :
    (getNode (swap_relink r a b) x).next =
      if (getNode r b).previous ≠ 0 ∧ x = (getNode r b).previous then a
      else if (getNode r a).previous ≠ 0 ∧ x = (getNode r a).previous then b
      else (getNode r x).next := by
  simp only [swap_relink, next_setNext, next_setPrevious, getNode_ite, node_ite_next,
    getNode_setHead, getNode_setTail, ite_self]
  split_ifs <;> simp_all

theorem swap_relink_previous (r : Shm) (a b x : Nat) :
    (getNode (swap_relink r a b) x).previous =
      if (getNode r b).next ≠ 0 ∧ x = (getNode r b).next then a
      else if (getNode r a).next ≠ 0 ∧ x = (getNode r a).next then b
      else (getNode r x).previous := by
  simp only [swap_relink, previous_setNext, previous_setPrevious, getNode_ite,
    node_ite_previous, getNode_setHead, getNode_setTail, ite_self]
  split_ifs <;> simp_all

theorem swap_relink_data (r : Shm) (a b x : Nat) :
    (getNode (swap_relink r a b) x).data = (getNode r x).data := by
  simp only [swap_relink, data_setNext, data_setPrevious, getNode_ite, node_ite_data,
    getNode_setHead, getNode_setTail, ite_self]

theorem swap_relink_taken (r : Shm) (a b x : Nat) :
    ((swap_relink r a b).cells x).taken = (r.cells x).taken := by
  simp only [swap_relink, taken_ite, taken_setNext, taken_setPrevious, taken_setHead,
    taken_setTail, ite_self]

theorem swap_relink_hdr (r : Shm) (a b : Nat) :
    (swap_relink r a b).hdr =
      ⟨if (getNode r b).previous = 0 then a
        else if (getNode r a).previous = 0 then b else r.hdr.head,
       if (getNode r b).next = 0 then a
        else if (getNode r a).next = 0 then b else r.hdr.tail,
       r.hdr.size, r.hdr.blocks_count⟩ := by
  simp only [swap_relink, hdr_ite, hdr_setNext, hdr_setPrevious, hdr_setHead, hdr_setTail]
  split_ifs <;> simp_all

theorem swap_image (r : Shm) (offs : List Nat) (hl : Local r offs) (a b : Nat)
    (ha : a ∈ offs) (hb : b ∈ offs) (hne : a ≠ b) (o : Nat) (ho : o ∈ offs) :
    getNode (swap_in_memory_body r a b) (exch a b o) =
      ⟨exch a b (getNode r o).next, (getNode r o).data, exch a b (getNode r o).previous⟩ := by
  have zo := hl.ne_zero o ho
  have e3 := hl.next_eq_iff o a ho ha
  have e4 := hl.next_eq_iff o b ho hb
  have e5 := hl.next_eq_iff a o ha ho
  have e6 := hl.next_eq_iff b o hb ho
  clear hl ha hb ho
  rw [swap_in_memory_body, swap_fields_exch _ a b o hne]
  apply node_eq
  · rw [swap_relink_next]
    clear e5 e6
    generalize (getNode r a).previous = fp at *
    generalize (getNode r b).previous = sp at *
    generalize (getNode r o).next = nx at *
    unfold exch
    split_ifs <;> omega
  · rw [swap_relink_data]
  · rw [swap_relink_previous]
    clear e3 e4
    generalize (getNode r a).next = fn at *
    generalize (getNode r b).next = sn at *
    generalize (getNode r o).previous = pv at *
    unfold exch
    split_ifs <;> omega

theorem swap_hdr (r : Shm) (offs : List Nat) (hl : Local r offs) (a b : Nat)
    (ha : a ∈ offs) (hb : b ∈ offs) :
    (swap_in_memory_body r a b).hdr =
      ⟨exch a b r.hdr.head, exch a b r.hdr.tail, r.hdr.size, r.hdr.blocks_count⟩ := by
  have h1 := hl.prev_zero a ha
  have h2 := hl.prev_zero b hb
  have h3 := hl.next_zero a ha
  have h4 := hl.next_zero b hb
  rw [swap_in_memory_body, swap_fields_hdr, swap_relink_hdr]
  generalize (getNode r a).next = fn at *
  generalize (getNode r b).next = sn at *
  generalize (getNode r a).previous = fp at *
  generalize (getNode r b).previous = sp at *
  generalize r.hdr.head = hd at *
  generalize r.hdr.tail = tl at *
  have e1 : (if sp = 0 then a else if fp = 0 then b else hd) = exch a b hd := by
    unfold exch; split_ifs <;> omega
  have e2 : (if sn = 0 then a else if fn = 0 then b else tl) = exch a b tl := by
    unfold exch; split_ifs <;> omega
  rw [e1, e2]

theorem swap_taken (r : Shm) (a b x : Nat) :
    ((swap_in_memory_body r a b).cells x).taken = (r.cells x).taken := by
  rw [swap_in_memory_body, swap_fields_taken, swap_relink_taken]

theorem exch_invol (a b o : Nat) : exch a b (exch a b o) = o := by
  unfold exch; split_ifs <;> omega

theorem exch_inj (a b : Nat) : Function.Injective (exch a b) := fun x y h => by
  have := congrArg (exch a b) h
  rwa [exch_invol, exch_invol] at this

theorem exch_zero (a b : Nat) (ha : a ≠ 0) (hb : b ≠ 0) : exch a b 0 = 0 :=
  exch_other a b 0 (Ne.symm ha) (Ne.symm hb)

theorem exch_mem (a b : Nat) (offs : List Nat) (ha : a ∈ offs) (hb : b ∈ offs) (o : Nat)
    (ho : o ∈ offs) : exch a b o ∈ offs := by
  unfold exch; split_ifs <;> assumption

theorem mem_map_exch (a b : Nat) (offs : List Nat) (ha : a ∈ offs) (hb : b ∈ offs) (o : Nat) :
    o ∈ offs.map (exch a b) ↔ o ∈ offs := by
  constructor
  · intro h
    obtain ⟨x, hx, rfl⟩ := List.mem_map.1 h
    exact exch_mem a b offs ha hb x hx
  · intro h
    exact List.mem_map.2 ⟨exch a b o, exch_mem a b offs ha hb o h, exch_invol a b o⟩

theorem head?_map_getD (f : Nat → Nat) (l : List Nat) (q : Nat) :
    (l.map f).head?.getD (f q) = f (l.head?.getD q) := by
  cases l <;> rfl

theorem getLast?_map_getD (f : Nat → Nat) (l : List Nat) (q : Nat) :
    (l.map f).getLast?.getD (f q) = f (l.getLast?.getD q) := by
  rcases nil_or_snoc l with h | ⟨l2, t, h⟩
  · subst h; rfl
  · subst h; simp [List.getLast?_concat]

theorem Seg_map (r r2 : Shm) (f : Nat → Nat) (l : List Nat) (p q : Nat)
    (hs : Seg r p l q)
    (him : ∀ o ∈ l, getNode r2 (f o) =
      ⟨f (getNode r o).next, (getNode r o).data, f (getNode r o).previous⟩) :
    Seg r2 (f p) (l.map f) (f q) := by
  induction l generalizing p with
  | nil => trivial
  | cons o rest ih =>
    obtain ⟨h1, h2, h3⟩ := hs
    have ho := him o (List.mem_cons_self _ _)
    refine ⟨by rw [ho, h1], ?_, ih o h3 (fun x hx => him x (List.mem_cons_of_mem _ hx))⟩
    rw [ho, h2, head?_map_getD]

theorem swap_wf (L : Layout) (hL : L.ok) (r : Shm) (offs : List Nat) (a b : Nat)
    (hw : WF L r offs) (ha : a ∈ offs) (hb : b ∈ offs) (hne : a ≠ b) :
    WF L (swap_in_memory_body r a b) (offs.map (exch a b)) ∧
      payloads (swap_in_memory_body r a b) (offs.map (exch a b)) = payloads r offs := by
  have hl := hw.local hL
  have za := hl.ne_zero a ha
  have zb := hl.ne_zero b hb
  have hz := exch_zero a b za zb
  have him := swap_image r offs hl a b ha hb hne
  have hhdr := swap_hdr r offs hl a b ha hb
  obtain ⟨hhead, htail, hsz, hcap, hseg, hnd, hform, htk⟩ := hw
  refine ⟨⟨?_, ?_, ?_, ?_, ?_, ?_, ?_, ?_⟩, ?_⟩
  · rw [hhdr]; simp only []
    rw [hhead, ← head?_map_getD (exch a b) offs 0, hz]
  · rw [hhdr]; simp only []
    rw [htail, ← getLast?_map_getD (exch a b) offs 0, hz]
  · rw [hhdr]; simp only [List.length_map]; exact hsz
  · rw [hhdr]; exact hcap
  · have := Seg_map r (swap_in_memory_body r a b) (exch a b) offs 0 0 hseg him
    rwa [hz] at this
  · exact hnd.map (exch_inj a b)
  · intro o ho
    rw [hhdr]
    exact hform o ((mem_map_exch a b offs ha hb o).1 ho)
  · intro k hk
    rw [hhdr] at hk
    rw [swap_taken, mem_map_exch a b offs ha hb]
    exact htk k hk
  · unfold payloads
    rw [List.map_map]
    apply List.map_congr_left
    intro x hx
    simp only [Function.comp, him x hx]

/-! ## Reachable states are well-formed -/

theorem WF.offsets_eq {L : Layout} (hL : L.ok) {r : Shm} {offs : List Nat} (hw : WF L r offs) :
    offsets r = offs := by
  unfold offsets
  rw [hw.1, hw.2.2.1]
  exact walk_seg r offs 0 hw.2.2.2.2.1 (hw.ne_zero hL)

theorem fresh_wf (L : Layout) (c : Nat) (hc : c < 2 ^ 64) (r : Shm) (hf : IsFresh L c r) :
    WF L r [] := by
  obtain ⟨h1, h2, h3, h4, h5⟩ := hf
  refine ⟨by simpa using h1, by simpa using h2, by simpa using h3, by rw [h4]; exact hc,
    trivial, List.nodup_nil, by simp, ?_⟩
  intro i hi
  rw [h4] at hi
  simp [h5 i hi]

theorem reachable_wf (L : Layout) (hL : L.ok) (c : Nat) (hc : c < 2 ^ 64) (r : Shm)
    (hr : Reachable L c r) : ∃ offs, WF L r offs ∧ r.hdr.blocks_count = c := by
  induction hr with
  | fresh r hf => exact ⟨[], fresh_wf L c hc r hf, hf.2.2.2.1⟩
  | push r n _ hlt ih =>
    obtain ⟨offs, hw, hcap⟩ := ih
    obtain ⟨r2, i, _, _, _, hpb, hw2, _, hc2, _⟩ := push_back_wf L hL r offs n hw hlt
    rw [hpb]
    exact ⟨_, hw2, by simp only [Outcome.region]; rw [hc2, hcap]⟩
  | pop_back r _ hne ih =>
    obtain ⟨offs, hw, hcap⟩ := ih
    have hne2 : offs ≠ [] := fun h => hne (hw.size_eq_zero_iff.2 h)
    obtain ⟨l, t, rfl⟩ := (nil_or_snoc offs).resolve_left hne2
    have h := pop_back_wf L hL r l t hw
    exact ⟨l, h.1, by rw [(pop_back_region r).1]; exact hcap⟩
  | pop_front r _ hne ih =>
    obtain ⟨offs, hw, hcap⟩ := ih
    have hne2 : offs ≠ [] := fun h => hne (hw.size_eq_zero_iff.2 h)
    cases offs with
    | nil => exact absurd rfl hne2
    | cons t l =>
      have h := pop_front_wf L hL r l t hw
      exact ⟨l, h.1, by rw [(pop_front_region r).1]; exact hcap⟩
  | swap r first second _ ha hb hne ih =>
    obtain ⟨offs, hw, hcap⟩ := ih
    rw [hw.offsets_eq hL] at ha hb
    rw [swap_done r first second hne]
    have h := swap_wf L hL r offs _ _ hw ha hb hne
    refine ⟨_, h.1, ?_⟩
    simp only [Outcome.region]
    rw [swap_hdr r offs (hw.local hL) _ _ ha hb]; exact hcap

/-! ## Sequences of operations -/

theorem push_all_wf (L : Layout) (hL : L.ok) (vs : List Int) (r : Shm) (offs : List Nat)
    (hw : WF L r offs) (hn : offs.length + vs.length ≤ r.hdr.blocks_count) :
    ∃ r2 offs2, push_all L r vs = Outcome.done r2 ∧ WF L r2 (offs ++ offs2) ∧
      payloads r2 (offs ++ offs2) = payloads r offs ++ vs ∧ offs2.length = vs.length ∧
      r2.hdr.blocks_count = r.hdr.blocks_count := by
  induction vs generalizing r offs with
  | nil => exact ⟨r, [], rfl, by simpa using hw, by simp, rfl, rfl⟩
  | cons v vs ih =>
    have hlt : r.hdr.size < r.hdr.blocks_count := by
      rw [hw.2.2.1]; simp only [List.length_cons] at hn; omega
    obtain ⟨r1, i, _, _, _, hpb, hw1, hp1, hc1, _⟩ := push_back_wf L hL r offs v hw hlt
    have hn1 : (offs ++ [blockOffset L i]).length + vs.length ≤ r1.hdr.blocks_count := by
      rw [hc1, List.length_append, List.length_singleton]
      rw [List.length_cons] at hn
      omega
    obtain ⟨r2, offs2, hpa, hw2, hp2, hl2, hc2⟩ := ih r1 (offs ++ [blockOffset L i]) hw1 hn1
    refine ⟨r2, blockOffset L i :: offs2, ?_, ?_, ?_, by simp [hl2], by rw [hc2, hc1]⟩
    · simp only [push_all, hpb]; exact hpa
    · simpa using hw2
    · have e : offs ++ blockOffset L i :: offs2 = offs ++ [blockOffset L i] ++ offs2 := by simp
      rw [e, hp2, hp1]; simp

theorem WF.rangeFor_eq {L : Layout} (hL : L.ok) {r : Shm} {offs : List Nat} (hw : WF L r offs)
    (this : Nat) : rangeFor r offs.length (begin this r) = some (payloads r offs) := by
  have h := rangeFor_seg r this offs 0 hw.2.2.2.2.1 (hw.ne_zero hL)
  rwa [← hw.1] at h

theorem WF.rangeFor_short {L : Layout} (hL : L.ok) {r : Shm} {offs : List Nat}
    (hw : WF L r offs) (this k : Nat) (hk : k < offs.length) :
    rangeFor r k (begin this r) = none := by
  have h := rangeFor_seg_short r this offs 0 hw.2.2.2.2.1 (hw.ne_zero hL) k hk
  rwa [← hw.1] at h

theorem WF.advance_eq {L : Layout} {r : Shm} {offs : List Nat} (hw : WF L r offs)
    (this k : Nat) (hk : k ≤ offs.length) :
    advance r k (begin this r) = ⟨(offs.drop k).head?.getD 0, this⟩ := by
  have h := advance_seg r this offs 0 hw.2.2.2.2.1 k hk
  rwa [← hw.1] at h

theorem drain_back_wf (L : Layout) (hL : L.ok) (offs : List Nat) (r : Shm) (hw : WF L r offs)
    (fuel : Nat) (hfuel : offs.length ≤ fuel) :
    drain_back fuel r = (payloads r offs).reverse := by
  induction fuel generalizing r offs with
  | zero =>
    have : offs = [] := List.length_eq_zero.1 (by omega)
    subst this; rfl
  | succ fuel ih =>
    rcases nil_or_snoc offs with h | ⟨l, t, h⟩
    · subst h
      have hs : r.hdr.size = 0 := by simpa using hw.2.2.1
      simp [drain_back, hs, payloads]
    · subst h
      have hs : r.hdr.size ≠ 0 := by rw [hw.2.2.1]; simp
      have ht : r.hdr.tail = t := by simpa [List.getLast?_concat] using hw.2.1
      have hp := pop_back_wf L hL r l t hw
      have hlen : l.length ≤ fuel := by
        simp only [List.length_append, List.length_singleton] at hfuel; omega
      simp only [drain_back, hs, if_false, ht, ih l (pop_back r) hp.1 hlen, hp.2.1]
      simp [payloads]

theorem map_exch_of_not_mem (a b : Nat) (l : List Nat) (ha : a ∉ l) (hb : b ∉ l) :
    l.map (exch a b) = l := by
  conv_rhs => rw [← List.map_id l]
  apply List.map_congr_left
  intro x hx
  exact exch_other a b x (fun e => ha (e ▸ hx)) (fun e => hb (e ▸ hx))

theorem swap_frame (r : Shm) (offs : List Nat) (hl : Local r offs) (a b : Nat)
    (ha : a ∈ offs) (hb : b ∈ offs) (o : Nat) (ho : o ∉ offs) :
    getNode (swap_in_memory_body r a b) o = getNode r o := by
  have hoa : o ≠ a := fun e => ho (e ▸ ha)
  have hob : o ≠ b := fun e => ho (e ▸ hb)
  have h1 : ¬((getNode r b).previous ≠ 0 ∧ o = (getNode r b).previous) := fun h =>
    ho (h.2 ▸ (hl.prev_mem b hb h.1).1)
  have h2 : ¬((getNode r a).previous ≠ 0 ∧ o = (getNode r a).previous) := fun h =>
    ho (h.2 ▸ (hl.prev_mem a ha h.1).1)
  have h3 : ¬((getNode r b).next ≠ 0 ∧ o = (getNode r b).next) := fun h =>
    ho (h.2 ▸ (hl.next_mem b hb h.1).1)
  have h4 : ¬((getNode r a).next ≠ 0 ∧ o = (getNode r a).next) := fun h =>
    ho (h.2 ▸ (hl.next_mem a ha h.1).1)
  rw [swap_in_memory_body, swap_fields_node]
  simp only [hoa, hob, if_false]
  have key : ∀ n : Node, n = ⟨n.next, n.data, n.previous⟩ := fun n => by cases n; rfl
  rw [key (getNode (swap_relink r a b) o), swap_relink_next, swap_relink_data,
    swap_relink_previous]
  simp only [h1, h2, h3, h4, if_false]

/-! ## The `int` counter of the allocator loop -/

theorem INT_MAX_lt : INT_MAX < 2 ^ 64 := by decide

/-- While the counter cannot pass `INT_MAX`, the loop with the `int` counter and the loop
counted in the natural numbers are the same function. -/
theorem scanFreeInt_eq_scanFree (L : Layout) (r : Shm) (k iter : Nat)
    (h : iter + k ≤ INT_MAX) : scanFreeInt L r k iter = scanFree L r k iter := by
  induction k generalizing iter with
  | zero => rfl
  | succ k ih =>
    have hlt : iter < INT_MAX := by omega
    simp only [scanFreeInt, scanFree, hlt, if_true]
    rw [ih (iter + 1) (by omega)]

/-- For a capacity of at most `INT_MAX` the allocator of the source, counter of type `int`
included, is `get_free_node_offset`. -/
theorem scanFreeInt_eq_get_free_node_offset (L : Layout) (r : Shm)
    (h : r.hdr.blocks_count ≤ INT_MAX) :
    scanFreeInt L r r.hdr.blocks_count 0 = get_free_node_offset L r :=
  scanFreeInt_eq_scanFree L r r.hdr.blocks_count 0 (by omega)

/-- With block `INT_MAX` and all blocks before it taken, the `int` counter overflows and the
loop ends at `assert(0)`, whatever the capacity and whatever the later blocks hold. -/
theorem scanFreeInt_overflow (L : Layout) (r : Shm) (k iter : Nat) (hi : iter ≤ INT_MAX)
    (ht : ∀ i, iter ≤ i → i ≤ INT_MAX → (r.cells (blockOffset L i)).taken ≠ 0) :
    scanFreeInt L r k iter = none := by
  induction k generalizing iter with
  | zero => rfl
  | succ k ih =>
    simp only [scanFreeInt, ht iter (le_refl _) hi, if_false]
    by_cases hlt : iter < INT_MAX
    · simp only [hlt, if_true]
      exact ih (iter + 1) hlt (fun i h1 h2 => ht i (by omega) h2)
    · simp only [hlt, if_false]

/-! ## The claims -/

theorem eq_end_false_iff (o h : Nat) : (Iterator.mk o h).eq end_ = false ↔ o ≠ 0 := by
  by_cases ho : o = 0 <;> simp [Iterator.eq, end_, ho]

/-- C1: on a fresh list of capacity `c ≤ INT_MAX` (the range in which the `int` counter of the
allocator loop cannot overflow), `push_back` of `n ≤ c` values in order succeeds, and
the loop from `begin()` to `end()` then yields exactly these values in push order: it ends
after exactly `n` advances (not earlier), the iterator reached after `k < n` advances is not
`end()` and dereferences to the `k`-th value, and the one reached after `n` advances is
`end()`.  On every region of this capacity the allocator loop with its `int` counter returns
what `get_free_node_offset` returns, so this holds of the pushes as the source runs them. -/
theorem C1_push_back_then_iterate (L : Layout) (hL : L.ok) (c : Nat) (hc : c ≤ INT_MAX)
    (r : Shm) (hf : IsFresh L c r) (vs : List Int) (hn : vs.length ≤ c) (this : Nat) :
    (∃ r2, push_all L r vs = Outcome.done r2 ∧
      rangeFor r2 vs.length (begin this r2) = some vs ∧
      (∀ k, k < vs.length → rangeFor r2 k (begin this r2) = none) ∧
      (advance r2 vs.length (begin this r2)).eq end_ = true ∧
      (∀ k, k < vs.length → (advance r2 k (begin this r2)).eq end_ = false ∧
        vs[k]? = some ((advance r2 k (begin this r2)).deref r2))) ∧
    (∀ s : Shm, s.hdr.blocks_count = c →
      scanFreeInt L s s.hdr.blocks_count 0 = get_free_node_offset L s) := by
  refine ⟨?_, fun s hs => scanFreeInt_eq_get_free_node_offset L s (hs ▸ hc)⟩
  have hw0 := fresh_wf L c (lt_of_le_of_lt hc INT_MAX_lt) r hf
  obtain ⟨r2, offs, hpa, hw, hp, hlen, _⟩ := push_all_wf L hL vs r [] hw0 (by
    rw [hf.2.2.2.1]; simpa using hn)
  simp only [List.nil_append, payloads, List.map_nil] at hw hp
  refine ⟨r2, hpa, ?_, ?_, ?_, ?_⟩
  · rw [← hlen, hw.rangeFor_eq hL this]; exact congrArg some hp
  · intro k hk
    exact hw.rangeFor_short hL this k (by omega)
  · rw [hw.advance_eq this vs.length (by omega), eq_end_iff, ← hlen]
    simp
  · intro k hk
    have hk2 : k < offs.length := by omega
    rw [hw.advance_eq this k (by omega), eq_end_false_iff, List.head?_drop,
      List.getElem?_eq_getElem hk2]
    refine ⟨hw.ne_zero hL _ (List.getElem_mem _), ?_⟩
    simp only [Option.getD_some, Iterator.deref]
    rw [← hp, List.getElem?_map, List.getElem?_eq_getElem hk2]
    rfl

/-- C1 at the list of `main`: capacity 40 and the values 5, 10, 15. -/
theorem C1_push_back_then_iterate_witness :
    demoLayout.ok ∧ 40 ≤ INT_MAX ∧ IsFresh demoLayout 40 (zeroShm 40) ∧
    ([5, 10, 15] : List Int).length ≤ 40 ∧
    (∃ r2, push_all demoLayout (zeroShm 40) [5, 10, 15] = Outcome.done r2 ∧
      rangeFor r2 ([5, 10, 15] : List Int).length (begin 1 r2) = some [5, 10, 15] ∧
      (∀ k, k < ([5, 10, 15] : List Int).length → rangeFor r2 k (begin 1 r2) = none) ∧
      (advance r2 ([5, 10, 15] : List Int).length (begin 1 r2)).eq end_ = true ∧
      (∀ k, k < ([5, 10, 15] : List Int).length → (advance r2 k (begin 1 r2)).eq end_ = false ∧
        ([5, 10, 15] : List Int)[k]? = some ((advance r2 k (begin 1 r2)).deref r2))) ∧
    (∀ s : Shm, s.hdr.blocks_count = 40 →
      scanFreeInt demoLayout s s.hdr.blocks_count 0 = get_free_node_offset demoLayout s) :=
  ⟨by decide, by decide, by decide, by decide,
    C1_push_back_then_iterate demoLayout (by decide) 40 (by decide) (zeroShm 40) (by decide)
      [5, 10, 15] (by decide) 1⟩

theorem map_exch_adjacent (a b : Nat) (pre post : List Nat)
    (hnd : (pre ++ a :: b :: post).Nodup) :
    (pre ++ a :: b :: post).map (exch a b) = pre ++ b :: a :: post ∧
      (pre ++ b :: a :: post).map (exch a b) = pre ++ a :: b :: post ∧ a ≠ b := by
  have h1 := List.nodup_append.1 hnd
  have h2 := List.nodup_cons.1 h1.2.1
  have h3 := List.nodup_cons.1 h2.2
  have hab : a ≠ b := fun e => h2.1 (by simp [e])
  have ha1 : a ∉ pre := fun hm => h1.2.2 hm (by simp)
  have hb1 : b ∉ pre := fun hm => h1.2.2 hm (by simp)
  have ha2 : a ∉ post := fun hm => h2.1 (by simp [hm])
  have hb2 : b ∉ post := h3.1
  refine ⟨?_, ?_, hab⟩
  · simp only [List.map_append, List.map_cons, exch_left, exch_right,
      map_exch_of_not_mem a b pre ha1 hb1, map_exch_of_not_mem a b post ha2 hb2]
  · simp only [List.map_append, List.map_cons, exch_left, exch_right,
      map_exch_of_not_mem a b pre ha1 hb1, map_exch_of_not_mem a b post ha2 hb2]

theorem exch_comm (a b o : Nat) : exch b a o = exch a b o := by
  unfold exch; split_ifs <;> omega

theorem swap_result (L : Layout) (hL : L.ok) (r : Shm) (offs : List Nat)
    (first second : Iterator) (hw : WF L r offs) (ha : first.m_node_offset ∈ offs)
    (hb : second.m_node_offset ∈ offs) (hne : first.m_node_offset ≠ second.m_node_offset)
    (this : Nat) :
    ∃ r2, swap_in_memory r first second = Outcome.done r2 ∧
      WF L r2 (offs.map (exch first.m_node_offset second.m_node_offset)) ∧
      payloads r2 (offs.map (exch first.m_node_offset second.m_node_offset)) =
        payloads r offs ∧
      rangeFor r2 offs.length (begin this r2) = some (payloads r offs) ∧
      r2.hdr = ⟨exch first.m_node_offset second.m_node_offset r.hdr.head,
        exch first.m_node_offset second.m_node_offset r.hdr.tail, r.hdr.size,
        r.hdr.blocks_count⟩ ∧
      (∀ x, (r2.cells x).taken = (r.cells x).taken) ∧
      (∀ o ∈ offs, getNode r2 (exch first.m_node_offset second.m_node_offset o) =
        ⟨exch first.m_node_offset second.m_node_offset (getNode r o).next, (getNode r o).data,
         exch first.m_node_offset second.m_node_offset (getNode r o).previous⟩) ∧
      (∀ o, o ∉ offs → getNode r2 o = getNode r o) := by
  have h := swap_wf L hL r offs _ _ hw ha hb hne
  have hl := hw.local hL
  refine ⟨_, swap_done r first second hne, h.1, h.2, ?_, swap_hdr r offs hl _ _ ha hb,
    swap_taken r _ _, swap_image r offs hl _ _ ha hb hne, swap_frame r offs hl _ _ ha hb⟩
  have h2 := h.1.rangeFor_eq hL this
  rwa [List.length_map, h.2] at h2

/-- C2 fails as stated: on the list of `main` (capacity 40, values 5, 10, 15, well-formed with
its nodes at offsets 72, 100, 128) the call `swap_in_memory(begin(), ++begin())` returns
normally, and iteration afterwards yields 5, 10, 15, not 10, 5, 15. -/
theorem C2_counterexample :
    WF demoLayout demoList [72, 100, 128] ∧
    rangeFor demoList 3 (begin 1 demoList) = some [5, 10, 15] ∧
    begin 1 demoList = ⟨72, 1⟩ ∧ (begin 1 demoList).incr demoList = ⟨100, 1⟩ ∧
    (swap_in_memory demoList (begin 1 demoList) ((begin 1 demoList).incr demoList)).isDone
      = true ∧
    rangeFor demoSwapped 3 (begin 1 demoSwapped) = some [5, 10, 15] ∧
    rangeFor demoSwapped 3 (begin 1 demoSwapped) ≠ some [10, 5, 15] := by
  decide

/-- C2, amended: in a well-formed list in which node `a` is directly followed by node `b`,
`swap_in_memory` on the two (in either argument order) returns normally and leaves a
well-formed list in which the two offsets have changed places in the chain and the payloads
have moved with the places, so that iteration yields the original payload sequence unchanged;
for the list of `main` iteration still yields 5, 10, 15 after the swap. -/
theorem C2_adjacent_swap_keeps_iteration (L : Layout) (hL : L.ok) (r : Shm)
    (pre post : List Nat) (a b h1 h2 this : Nat) (hw : WF L r (pre ++ a :: b :: post)) :
    (∃ r2, swap_in_memory r ⟨a, h1⟩ ⟨b, h2⟩ = Outcome.done r2 ∧
      WF L r2 (pre ++ b :: a :: post) ∧
      payloads r2 (pre ++ b :: a :: post) = payloads r (pre ++ a :: b :: post) ∧
      rangeFor r2 (pre ++ a :: b :: post).length (begin this r2) =
        some (payloads r (pre ++ a :: b :: post))) ∧
    (∃ r2, swap_in_memory r ⟨b, h2⟩ ⟨a, h1⟩ = Outcome.done r2 ∧
      WF L r2 (pre ++ b :: a :: post) ∧
      payloads r2 (pre ++ b :: a :: post) = payloads r (pre ++ a :: b :: post) ∧
      rangeFor r2 (pre ++ a :: b :: post).length (begin this r2) =
        some (payloads r (pre ++ a :: b :: post))) ∧
    rangeFor demoSwapped 3 (begin 1 demoSwapped) = some [5, 10, 15] := by
  obtain ⟨hm1, _, hab⟩ := map_exch_adjacent a b pre post hw.2.2.2.2.2.1
  have hm2 : (pre ++ a :: b :: post).map (exch b a) = pre ++ b :: a :: post := by
    rw [← hm1]; exact List.map_congr_left (fun x _ => exch_comm a b x)
  refine ⟨?_, ?_, by decide⟩
  · obtain ⟨r2, hd, hw2, hp, hr, _⟩ := swap_result L hL r _ ⟨a, h1⟩ ⟨b, h2⟩ hw (by simp)
      (by simp) hab this
    simp only [hm1] at hw2 hp
    exact ⟨r2, hd, hw2, hp, hr⟩
  · obtain ⟨r2, hd, hw2, hp, hr, _⟩ := swap_result L hL r _ ⟨b, h2⟩ ⟨a, h1⟩ hw (by simp)
      (by simp) (Ne.symm hab) this
    simp only [hm2] at hw2 hp
    exact ⟨r2, hd, hw2, hp, hr⟩

/-- C2 (amended) at the list of `main`, swapping its first two nodes. -/
theorem C2_adjacent_swap_keeps_iteration_witness :
    demoLayout.ok ∧ WF demoLayout demoList ([] ++ 72 :: 100 :: [128]) ∧
    ((∃ r2, swap_in_memory demoList ⟨72, 1⟩ ⟨100, 1⟩ = Outcome.done r2 ∧
      WF demoLayout r2 ([] ++ 100 :: 72 :: [128]) ∧
      payloads r2 ([] ++ 100 :: 72 :: [128]) = payloads demoList ([] ++ 72 :: 100 :: [128]) ∧
      rangeFor r2 ([] ++ 72 :: 100 :: [128]).length (begin 1 r2) =
        some (payloads demoList ([] ++ 72 :: 100 :: [128]))) ∧
    (∃ r2, swap_in_memory demoList ⟨100, 1⟩ ⟨72, 1⟩ = Outcome.done r2 ∧
      WF demoLayout r2 ([] ++ 100 :: 72 :: [128]) ∧
      payloads r2 ([] ++ 100 :: 72 :: [128]) = payloads demoList ([] ++ 72 :: 100 :: [128]) ∧
      rangeFor r2 ([] ++ 72 :: 100 :: [128]).length (begin 1 r2) =
        some (payloads demoList ([] ++ 72 :: 100 :: [128]))) ∧
    rangeFor demoSwapped 3 (begin 1 demoSwapped) = some [5, 10, 15]) :=
  ⟨by decide, by decide,
    C2_adjacent_swap_keeps_iteration demoLayout (by decide) demoList [] [128] 72 100 1 1 1
      (by decide)⟩

theorem reachDemo_reachable : Reachable demoLayout 3 reachDemo :=
  Reachable.pop_back _
    (Reachable.swap _ ⟨72, 1⟩ ⟨100, 1⟩
      (Reachable.push _ 10
        (Reachable.push _ 5 (Reachable.fresh _ (by decide)) (by decide)) (by decide))
      (by decide) (by decide) (by decide))
    (by decide)

theorem scanFree_form (L : Layout) (r r1 : Shm) (k iter o : Nat)
    (h : scanFree L r k iter = some (r1, o)) : ∃ i, o = blockOffset L i := by
  induction k generalizing iter with
  | zero => simp [scanFree] at h
  | succ k ih =>
    by_cases hf : (r.cells (blockOffset L iter)).taken = 0
    · simp only [scanFree, hf, if_true, Option.some.injEq, Prod.mk.injEq] at h
      exact ⟨iter, h.2.symm⟩
    · simp only [scanFree, hf, if_false] at h
      exact ih (iter + 1) h

/-- C3: in every state reachable from a fresh list of capacity `c` (a `std::size_t`) by
`push_back` below capacity, `pop_back` and `pop_front` on a non-empty list and
`swap_in_memory` on two different nodes of the chain, `0 ≤ size ≤ capacity` holds and the
recorded capacity is still `c`. -/
theorem C3_size_within_capacity (L : Layout) (hL : L.ok) (c : Nat) (hc : c < 2 ^ 64) (r : Shm)
    (hr : Reachable L c r) :
    0 ≤ r.hdr.size ∧ r.hdr.size ≤ r.hdr.blocks_count ∧ r.hdr.blocks_count = c := by
  obtain ⟨offs, hw, hcap⟩ := reachable_wf L hL c hc r hr
  exact ⟨Nat.zero_le _, hw.size_le, hcap⟩

/-- C3 at a state reached by two pushes, a swap and a pop on a capacity-3 list. -/
theorem C3_size_within_capacity_witness :
    demoLayout.ok ∧ 3 < 2 ^ 64 ∧ Reachable demoLayout 3 reachDemo ∧
    0 ≤ reachDemo.hdr.size ∧ reachDemo.hdr.size ≤ reachDemo.hdr.blocks_count ∧
      reachDemo.hdr.blocks_count = 3 :=
  ⟨by decide, by decide, reachDemo_reachable,
    C3_size_within_capacity demoLayout (by decide) 3 (by decide) reachDemo reachDemo_reachable⟩

/-- C4: for a capacity `c ≤ INT_MAX` (the range in which the `int` counter of the allocator
loop cannot overflow), in every reachable state `push_back` stops at an assertion exactly when
`size == capacity` (and then the region is as before the call); otherwise it returns normally,
the allocator having found a free block, and `size` has grown by one.  In particular `c`
consecutive calls on a fresh list of capacity `c` all return normally and one more call stops
at the assertion with the region unchanged.  On every region of this capacity the allocator
loop with its `int` counter returns what `get_free_node_offset` returns. -/
theorem C4_push_back_fails_iff_full (L : Layout) (hL : L.ok) (c : Nat) (hc : c ≤ INT_MAX)
    (r : Shm) (hr : Reachable L c r) (n : Int) :
    ((push_back L r n).isDone = false ↔ r.hdr.size = r.hdr.blocks_count) ∧
    (r.hdr.size = r.hdr.blocks_count → push_back L r n = Outcome.aborted r) ∧
    (r.hdr.size ≠ r.hdr.blocks_count →
      ∃ r2, push_back L r n = Outcome.done r2 ∧ r2.hdr.size = r.hdr.size + 1) ∧
    (∀ (r0 : Shm) (vs : List Int), IsFresh L c r0 → vs.length = c →
      ∃ r2, push_all L r0 vs = Outcome.done r2 ∧ r2.hdr.size = c ∧
        push_back L r2 n = Outcome.aborted r2) ∧
    (∀ s : Shm, s.hdr.blocks_count = c →
      scanFreeInt L s s.hdr.blocks_count 0 = get_free_node_offset L s) := by
  have hint : ∀ s : Shm, s.hdr.blocks_count = c →
      scanFreeInt L s s.hdr.blocks_count 0 = get_free_node_offset L s :=
    fun s hs => scanFreeInt_eq_get_free_node_offset L s (hs ▸ hc)
  have hc := lt_of_le_of_lt hc INT_MAX_lt
  obtain ⟨offs, hw, hcap⟩ := reachable_wf L hL c hc r hr
  have hfull : r.hdr.size = r.hdr.blocks_count → push_back L r n = Outcome.aborted r := by
    intro h; simp only [push_back, h, if_true]
  have hfree : r.hdr.size ≠ r.hdr.blocks_count →
      ∃ r2, push_back L r n = Outcome.done r2 ∧ r2.hdr.size = r.hdr.size + 1 := by
    intro h
    have hlt : r.hdr.size < r.hdr.blocks_count := lt_of_le_of_ne hw.size_le h
    obtain ⟨r2, i, _, _, _, hpb, hw2, _, _, _⟩ := push_back_wf L hL r offs n hw hlt
    refine ⟨r2, hpb, ?_⟩
    rw [hw2.2.2.1, hw.2.2.1]; simp
  refine ⟨?_, hfull, hfree, ?_, hint⟩
  · constructor
    · intro h
      by_contra hne
      obtain ⟨r2, hpb, _⟩ := hfree hne
      rw [hpb] at h
      exact absurd h (by simp [Outcome.isDone])
    · intro h; rw [hfull h]; rfl
  · intro r0 vs hf hlen
    have hw0 := fresh_wf L c hc r0 hf
    obtain ⟨r2, offs2, hpa, hw2, _, hl2, hc2⟩ := push_all_wf L hL vs r0 [] hw0 (by
      rw [hf.2.2.2.1]; simp [hlen])
    have hsz : r2.hdr.size = c := by
      rw [hw2.2.2.1]; simp [hl2, hlen]
    refine ⟨r2, hpa, hsz, ?_⟩
    have : r2.hdr.size = r2.hdr.blocks_count := by rw [hsz, hc2, hf.2.2.2.1]
    simp only [push_back, this, if_true]

/-- C4 at the reachable state `reachDemo` of a capacity-3 list. -/
theorem C4_push_back_fails_iff_full_witness :
    demoLayout.ok ∧ 3 ≤ INT_MAX ∧ Reachable demoLayout 3 reachDemo ∧
    (((push_back demoLayout reachDemo 7).isDone = false ↔
      reachDemo.hdr.size = reachDemo.hdr.blocks_count) ∧
    (reachDemo.hdr.size = reachDemo.hdr.blocks_count →
      push_back demoLayout reachDemo 7 = Outcome.aborted reachDemo) ∧
    (reachDemo.hdr.size ≠ reachDemo.hdr.blocks_count →
      ∃ r2, push_back demoLayout reachDemo 7 = Outcome.done r2 ∧
        r2.hdr.size = reachDemo.hdr.size + 1) ∧
    (∀ (r0 : Shm) (vs : List Int), IsFresh demoLayout 3 r0 → vs.length = 3 →
      ∃ r2, push_all demoLayout r0 vs = Outcome.done r2 ∧ r2.hdr.size = 3 ∧
        push_back demoLayout r2 7 = Outcome.aborted r2) ∧
    (∀ s : Shm, s.hdr.blocks_count = 3 →
      scanFreeInt demoLayout s s.hdr.blocks_count 0 = get_free_node_offset demoLayout s)) :=
  ⟨by decide, by decide, reachDemo_reachable,
    C4_push_back_fails_iff_full demoLayout (by decide) 3 (by decide) reachDemo
      reachDemo_reachable 7⟩

/-- C5: in every reachable state `head == 0` exactly when `size == 0`, `tail == 0` exactly
when `size == 0`, the chain from `head` has `size` nodes, and every node on it lies at an
offset that is at least the header size and hence not 0; every offset the allocator returns
is at least the header size, which is positive. -/
theorem C5_sentinel_invariant (L : Layout) (hL : L.ok) (c : Nat) (hc : c < 2 ^ 64) (r : Shm)
    (hr : Reachable L c r) :
    (r.hdr.head = 0 ↔ r.hdr.size = 0) ∧ (r.hdr.tail = 0 ↔ r.hdr.size = 0) ∧
    (offsets r).length = r.hdr.size ∧
    (∀ o ∈ offsets r, L.headerSize ≤ o ∧ o ≠ 0) ∧
    (∀ r1 o, get_free_node_offset L r = some (r1, o) → L.headerSize ≤ o ∧ o ≠ 0) ∧
    0 < L.headerSize := by
  obtain ⟨offs, hw, _⟩ := reachable_wf L hL c hc r hr
  refine ⟨?_, ?_, ?_, ?_, ?_, hL.1⟩
  · rw [hw.head_eq_zero_iff hL, hw.size_eq_zero_iff]
  · rw [hw.tail_eq_zero_iff hL, hw.size_eq_zero_iff]
  · rw [hw.offsets_eq hL, hw.2.2.1]
  · intro o ho
    rw [hw.offsets_eq hL] at ho
    obtain ⟨i, _, rfl⟩ := hw.2.2.2.2.2.2.1 o ho
    exact ⟨Nat.le_add_right _ _, blockOffset_pos L hL i⟩
  · intro r1 o h
    obtain ⟨i, rfl⟩ := scanFree_form L r r1 _ _ o h
    exact ⟨Nat.le_add_right _ _, blockOffset_pos L hL i⟩

/-- C5 at the reachable state `reachDemo` of a capacity-3 list. -/
theorem C5_sentinel_invariant_witness :
    demoLayout.ok ∧ 3 < 2 ^ 64 ∧ Reachable demoLayout 3 reachDemo ∧
    ((reachDemo.hdr.head = 0 ↔ reachDemo.hdr.size = 0) ∧
    (reachDemo.hdr.tail = 0 ↔ reachDemo.hdr.size = 0) ∧
    (offsets reachDemo).length = reachDemo.hdr.size ∧
    (∀ o ∈ offsets reachDemo, demoLayout.headerSize ≤ o ∧ o ≠ 0) ∧
    (∀ r1 o, get_free_node_offset demoLayout reachDemo = some (r1, o) →
      demoLayout.headerSize ≤ o ∧ o ≠ 0) ∧
    0 < demoLayout.headerSize) :=
  ⟨by decide, by decide, reachDemo_reachable,
    C5_sentinel_invariant demoLayout (by decide) 3 (by decide) reachDemo reachDemo_reachable⟩

theorem WF.tail_mem {L : Layout} {r : Shm} {offs : List Nat} (hw : WF L r offs)
    (hne : offs ≠ []) : r.hdr.tail ∈ offs := by
  obtain ⟨l, t, rfl⟩ := (nil_or_snoc offs).resolve_left hne
  rw [hw.2.1]; simp [List.getLast?_concat]

theorem WF.head_mem {L : Layout} {r : Shm} {offs : List Nat} (hw : WF L r offs)
    (hne : offs ≠ []) : r.hdr.head ∈ offs := by
  cases offs with
  | nil => exact absurd rfl hne
  | cons a l => rw [hw.1]; simp

theorem WF.tail_next {L : Layout} (hL : L.ok) {r : Shm} {offs : List Nat} (hw : WF L r offs)
    (hne : r.hdr.tail ≠ 0) : (getNode r r.hdr.tail).next = 0 := by
  have hne2 : offs ≠ [] := fun h => hne ((hw.tail_eq_zero_iff hL).2 h)
  exact ((hw.local hL).next_zero _ (hw.tail_mem hne2)).2 rfl

theorem WF.head_previous {L : Layout} (hL : L.ok) {r : Shm} {offs : List Nat}
    (hw : WF L r offs) (hne : r.hdr.head ≠ 0) : (getNode r r.hdr.head).previous = 0 := by
  have hne2 : offs ≠ [] := fun h => hne ((hw.head_eq_zero_iff hL).2 h)
  exact ((hw.local hL).prev_zero _ (hw.head_mem hne2)).2 rfl

/-- C6: on a well-formed list whose chain ends in node `t` and whose payload sequence is `xs`
followed by `x`, `pop_back` leaves a well-formed list on the remaining nodes whose payload
sequence (also as seen by iteration) is `xs`; `size` drops by one, the block of `t` is tagged
free and no other tag changes, `tail` becomes the `previous` of `t`, the new tail (if any) has
`next == 0`, and `head` and `tail` are 0 when the list has become empty.  Hence draining the
list from the back (read the tail payload, `pop_back`) yields the payloads in reverse: after
`push_back` of `vs` on a fresh list it yields `vs` reversed. -/
theorem C6_pop_back (L : Layout) (hL : L.ok) (r : Shm) (l : List Nat) (t : Nat)
    (xs : List Int) (x : Int) (this : Nat) (hw : WF L r (l ++ [t]))
    (hp : payloads r (l ++ [t]) = xs ++ [x]) :
    WF L (pop_back r) l ∧ payloads (pop_back r) l = xs ∧
    rangeFor (pop_back r) l.length (begin this (pop_back r)) = some xs ∧
    (pop_back r).hdr.size + 1 = r.hdr.size ∧
    ((pop_back r).cells t).taken = 0 ∧
    (∀ o, o ≠ t → ((pop_back r).cells o).taken = (r.cells o).taken) ∧
    (pop_back r).hdr.tail = (getNode r t).previous ∧
    ((pop_back r).hdr.tail ≠ 0 → (getNode (pop_back r) (pop_back r).hdr.tail).next = 0) ∧
    (l = [] → (pop_back r).hdr.head = 0 ∧ (pop_back r).hdr.tail = 0) ∧
    (∀ fuel, l.length + 1 ≤ fuel → drain_back fuel r = (xs ++ [x]).reverse) ∧
    (∀ (c : Nat) (r0 : Shm) (vs : List Int), c < 2 ^ 64 → IsFresh L c r0 → vs.length ≤ c →
      ∃ r2, push_all L r0 vs = Outcome.done r2 ∧ drain_back vs.length r2 = vs.reverse) := by
  obtain ⟨hw2, hp2, htl, htk⟩ := pop_back_wf L hL r l t hw
  have hxs : payloads r l = xs := by
    have : payloads r l ++ [(getNode r t).data] = xs ++ [x] := by
      rw [← hp]; simp [payloads]
    exact (List.append_inj' this rfl).1
  refine ⟨hw2, by rw [hp2, hxs], ?_, ?_, ?_, ?_, htl, hw2.tail_next hL, ?_, ?_, ?_⟩
  · rw [hw2.rangeFor_eq hL this, hp2, hxs]
  · rw [hw2.2.2.1, hw.2.2.1]; simp
  · rw [htk]; simp
  · intro o ho; rw [htk]; simp [ho]
  · intro h; subst h
    exact ⟨by simpa using hw2.1, by simpa using hw2.2.1⟩
  · intro fuel hfuel
    rw [← hp]
    exact drain_back_wf L hL (l ++ [t]) r hw fuel (by simpa using hfuel)
  · intro c r0 vs hc hf hn
    have hw0 := fresh_wf L c hc r0 hf
    obtain ⟨r2, offs2, hpa, hw3, hp3, hl3, _⟩ := push_all_wf L hL vs r0 [] hw0 (by
      rw [hf.2.2.2.1]; simpa using hn)
    refine ⟨r2, hpa, ?_⟩
    have := drain_back_wf L hL _ r2 hw3 vs.length (by simp [hl3])
    rw [this, hp3]; simp [payloads]

/-- C6 at the list of `main`: removing the node holding 15 leaves 5, 10. -/
theorem C6_pop_back_witness :
    demoLayout.ok ∧ WF demoLayout demoList ([72, 100] ++ [128]) ∧
    payloads demoList ([72, 100] ++ [128]) = [5, 10] ++ [15] ∧
    (WF demoLayout (pop_back demoList) [72, 100] ∧ payloads (pop_back demoList) [72, 100] = [5, 10] ∧
    rangeFor (pop_back demoList) [72, 100].length (begin 1 (pop_back demoList)) = some [5, 10] ∧
    (pop_back demoList).hdr.size + 1 = demoList.hdr.size ∧
    ((pop_back demoList).cells 128).taken = 0 ∧
    (∀ o, o ≠ 128 → ((pop_back demoList).cells o).taken = (demoList.cells o).taken) ∧
    (pop_back demoList).hdr.tail = (getNode demoList 128).previous ∧
    ((pop_back demoList).hdr.tail ≠ 0 →
      (getNode (pop_back demoList) (pop_back demoList).hdr.tail).next = 0) ∧
    (([72, 100] : List Nat) = [] →
      (pop_back demoList).hdr.head = 0 ∧ (pop_back demoList).hdr.tail = 0) ∧
    (∀ fuel, [72, 100].length + 1 ≤ fuel →
      drain_back fuel demoList = (([5, 10] : List Int) ++ [15]).reverse) ∧
    (∀ (c : Nat) (r0 : Shm) (vs : List Int), c < 2 ^ 64 → IsFresh demoLayout c r0 →
      vs.length ≤ c →
      ∃ r2, push_all demoLayout r0 vs = Outcome.done r2 ∧
        drain_back vs.length r2 = vs.reverse)) :=
  ⟨by decide, by decide, by decide,
    C6_pop_back demoLayout (by decide) demoList [72, 100] 128 [5, 10] 15 1 (by decide)
      (by decide)⟩

/-- C7: on a well-formed list whose chain starts with node `t` and whose payload sequence is
`x` followed by `xs`, `pop_front` leaves a well-formed list on the remaining nodes whose
payload sequence (also as seen by iteration) is `xs`; `size` drops by one, the block of `t` is
tagged free and no other tag changes, `head` becomes the `next` of `t`, the new head (if any)
has `previous == 0`, and `head` and `tail` are 0 when the list has become empty. -/
theorem C7_pop_front (L : Layout) (hL : L.ok) (r : Shm) (l : List Nat) (t : Nat)
    (xs : List Int) (x : Int) (this : Nat) (hw : WF L r (t :: l))
    (hp : payloads r (t :: l) = x :: xs) :
    WF L (pop_front r) l ∧ payloads (pop_front r) l = xs ∧
    rangeFor (pop_front r) l.length (begin this (pop_front r)) = some xs ∧
    (pop_front r).hdr.size + 1 = r.hdr.size ∧
    ((pop_front r).cells t).taken = 0 ∧
    (∀ o, o ≠ t → ((pop_front r).cells o).taken = (r.cells o).taken) ∧
    (pop_front r).hdr.head = (getNode r t).next ∧
    ((pop_front r).hdr.head ≠ 0 →
      (getNode (pop_front r) (pop_front r).hdr.head).previous = 0) ∧
    (l = [] → (pop_front r).hdr.tail = 0 ∧ (pop_front r).hdr.head = 0) := by
  obtain ⟨hw2, hp2, hhd, htk⟩ := pop_front_wf L hL r l t hw
  have hxs : payloads r l = xs := by
    have : (getNode r t).data :: payloads r l = x :: xs := by
      rw [← hp]; simp [payloads]
    exact (List.cons.inj this).2
  refine ⟨hw2, by rw [hp2, hxs], ?_, ?_, ?_, ?_, hhd, hw2.head_previous hL, ?_⟩
  · rw [hw2.rangeFor_eq hL this, hp2, hxs]
  · rw [hw2.2.2.1, hw.2.2.1]; simp
  · rw [htk]; simp
  · intro o ho; rw [htk]; simp [ho]
  · intro h; subst h
    exact ⟨by simpa using hw2.2.1, by simpa using hw2.1⟩

/-- C7 at the list of `main`: removing the node holding 5 leaves 10, 15. -/
theorem C7_pop_front_witness :
    demoLayout.ok ∧ WF demoLayout demoList (72 :: [100, 128]) ∧
    payloads demoList (72 :: [100, 128]) = 5 :: [10, 15] ∧
    (WF demoLayout (pop_front demoList) [100, 128] ∧
    payloads (pop_front demoList) [100, 128] = [10, 15] ∧
    rangeFor (pop_front demoList) [100, 128].length (begin 1 (pop_front demoList)) =
      some [10, 15] ∧
    (pop_front demoList).hdr.size + 1 = demoList.hdr.size ∧
    ((pop_front demoList).cells 72).taken = 0 ∧
    (∀ o, o ≠ 72 → ((pop_front demoList).cells o).taken = (demoList.cells o).taken) ∧
    (pop_front demoList).hdr.head = (getNode demoList 72).next ∧
    ((pop_front demoList).hdr.head ≠ 0 →
      (getNode (pop_front demoList) (pop_front demoList).hdr.head).previous = 0) ∧
    (([100, 128] : List Nat) = [] →
      (pop_front demoList).hdr.tail = 0 ∧ (pop_front demoList).hdr.head = 0)) :=
  ⟨by decide, by decide, by decide,
    C7_pop_front demoLayout (by decide) demoList [100, 128] 72 [10, 15] 5 1 (by decide)
      (by decide)⟩

/-- C8: on a well-formed list, `swap_in_memory` on two iterators at different nodes of the
chain (adjacent or not) returns normally; the payloads reachable from `head` are the same
multiset (indeed the same sequence), `size` and the number of nodes on the chain are
unchanged, the list is still well-formed, and every block keeps its taken/free tag. -/
theorem C8_swap_preserves_contents (L : Layout) (hL : L.ok) (r : Shm) (offs : List Nat)
    (first second : Iterator) (hw : WF L r offs) (ha : first.m_node_offset ∈ offs)
    (hb : second.m_node_offset ∈ offs) (hne : first.m_node_offset ≠ second.m_node_offset) :
    ∃ r2, swap_in_memory r first second = Outcome.done r2 ∧
      (payloads r2 (offsets r2) : Multiset Int) = (payloads r (offsets r) : Multiset Int) ∧
      r2.hdr.size = r.hdr.size ∧ (offsets r2).length = (offsets r).length ∧
      WF L r2 (offsets r2) ∧ (offsets r2).Perm (offsets r) ∧
      (∀ x, (r2.cells x).taken = (r.cells x).taken) := by
  obtain ⟨r2, hd, hw2, hp, _, hhdr, htk, _, _⟩ :=
    swap_result L hL r offs first second hw ha hb hne 0
  have ho2 := hw2.offsets_eq hL
  have ho := hw.offsets_eq hL
  refine ⟨r2, hd, ?_, by rw [hhdr], ?_, ?_, ?_, htk⟩
  · rw [ho2, ho, hp]
  · rw [ho2, ho, List.length_map]
  · rw [ho2]; exact hw2
  · rw [ho2, ho]
    have hnd2 := hw2.2.2.2.2.2.1
    exact (List.perm_ext_iff_of_nodup hnd2 hw.2.2.2.2.2.1).2
      (fun o => mem_map_exch _ _ offs ha hb o)

/-- C8 at the list of `main`, swapping its first and last node. -/
theorem C8_swap_preserves_contents_witness :
    demoLayout.ok ∧ WF demoLayout demoList [72, 100, 128] ∧
    (72 : Nat) ∈ [72, 100, 128] ∧ (128 : Nat) ∈ [72, 100, 128] ∧ (72 : Nat) ≠ 128 ∧
    ∃ r2, swap_in_memory demoList ⟨72, 1⟩ ⟨128, 1⟩ = Outcome.done r2 ∧
      (payloads r2 (offsets r2) : Multiset Int) =
        (payloads demoList (offsets demoList) : Multiset Int) ∧
      r2.hdr.size = demoList.hdr.size ∧ (offsets r2).length = (offsets demoList).length ∧
      WF demoLayout r2 (offsets r2) ∧ (offsets r2).Perm (offsets demoList) ∧
      (∀ x, (r2.cells x).taken = (demoList.cells x).taken) :=
  ⟨by decide, by decide, by decide, by decide, by decide,
    C8_swap_preserves_contents demoLayout (by decide) demoList [72, 100, 128] ⟨72, 1⟩ ⟨128, 1⟩
      (by decide) (by decide) (by decide) (by decide)⟩

theorem WF.head_ne_tail {L : Layout} {r : Shm} {offs : List Nat} (hw : WF L r offs)
    (h2 : 2 ≤ offs.length) : r.hdr.head ≠ r.hdr.tail := by
  obtain ⟨hhead, htail, _, _, _, hnd, _, _⟩ := hw
  cases offs with
  | nil => simp at h2
  | cons a rest =>
    rcases nil_or_snoc rest with h | ⟨l, t, h⟩
    · subst h; simp at h2
    · subst h
      rw [hhead, htail, getLast?_cons_getD]
      simp only [List.head?_cons, Option.getD_some, List.getLast?_concat]
      intro e
      exact (List.nodup_cons.1 hnd).1 (by simp [e])

theorem swap_ends (L : Layout) (hL : L.ok) (r : Shm) (offs : List Nat) (a b h1 h2 : Nat)
    (hw : WF L r offs) (ha : a ∈ offs) (hb : b ∈ offs) (hne : a ≠ b)
    (hfst : (getNode r a).previous = 0 ∧ r.hdr.head = a)
    (hlst : (getNode r b).next = 0 ∧ r.hdr.tail = b) :
    (∃ r2, swap_in_memory r ⟨a, h1⟩ ⟨b, h2⟩ = Outcome.done r2 ∧
      r2.hdr.head = b ∧ r2.hdr.tail = a ∧
      (getNode r2 r2.hdr.head).previous = 0 ∧ (getNode r2 r2.hdr.tail).next = 0) ∧
    (∃ r2, swap_in_memory r ⟨b, h2⟩ ⟨a, h1⟩ = Outcome.done r2 ∧
      r2.hdr.head = b ∧ r2.hdr.tail = a ∧
      (getNode r2 r2.hdr.head).previous = 0 ∧ (getNode r2 r2.hdr.tail).next = 0) := by
  have hl := hw.local hL
  have za := hl.ne_zero a ha
  have zb := hl.ne_zero b hb
  constructor
  · obtain ⟨r2, hd, _, _, _, hhdr, _, him, _⟩ :=
      swap_result L hL r offs ⟨a, h1⟩ ⟨b, h2⟩ hw ha hb hne 0
    simp only at hhdr him
    have i1 := him a ha
    have i2 := him b hb
    rw [exch_left, hfst.1, exch_zero a b za zb] at i1
    rw [exch_right, hlst.1, exch_zero a b za zb] at i2
    refine ⟨r2, hd, ?_, ?_, ?_, ?_⟩
    · rw [hhdr]; simp only []; rw [hfst.2, exch_left]
    · rw [hhdr]; simp only []; rw [hlst.2, exch_right]
    · rw [hhdr]; simp only []; rw [hfst.2, exch_left, i1]
    · rw [hhdr]; simp only []; rw [hlst.2, exch_right, i2]
  · obtain ⟨r2, hd, _, _, _, hhdr, _, him, _⟩ :=
      swap_result L hL r offs ⟨b, h2⟩ ⟨a, h1⟩ hw hb ha (Ne.symm hne) 0
    simp only at hhdr him
    have i1 := him a ha
    have i2 := him b hb
    rw [exch_right, hfst.1, exch_zero b a zb za] at i1
    rw [exch_left, hlst.1, exch_zero b a zb za] at i2
    refine ⟨r2, hd, ?_, ?_, ?_, ?_⟩
    · rw [hhdr]; simp only []; rw [hfst.2, exch_right]
    · rw [hhdr]; simp only []; rw [hlst.2, exch_left]
    · rw [hhdr]; simp only []; rw [hfst.2, exch_right, i1]
    · rw [hhdr]; simp only []; rw [hlst.2, exch_left, i2]

/-- C9: on a well-formed list with at least two nodes, head node at offset `a` and tail node
at offset `b`, `swap_in_memory` on iterators at `a` and `b`, in either argument order, returns
normally with `head == b` and `tail == a`; the node now at `head` has `previous == 0` and the
node now at `tail` has `next == 0`. -/
theorem C9_swap_endpoints (L : Layout) (hL : L.ok) (r : Shm) (offs : List Nat)
    (a b h1 h2 : Nat) (hw : WF L r offs) (hlen : 2 ≤ offs.length) (hhead : r.hdr.head = a)
    (htail : r.hdr.tail = b) :
    (∃ r2, swap_in_memory r ⟨a, h1⟩ ⟨b, h2⟩ = Outcome.done r2 ∧
      r2.hdr.head = b ∧ r2.hdr.tail = a ∧
      (getNode r2 r2.hdr.head).previous = 0 ∧ (getNode r2 r2.hdr.tail).next = 0) ∧
    (∃ r2, swap_in_memory r ⟨b, h2⟩ ⟨a, h1⟩ = Outcome.done r2 ∧
      r2.hdr.head = b ∧ r2.hdr.tail = a ∧
      (getNode r2 r2.hdr.head).previous = 0 ∧ (getNode r2 r2.hdr.tail).next = 0) := by
  have hne0 : offs ≠ [] := fun h => by subst h; simp at hlen
  have ha : a ∈ offs := hhead ▸ hw.head_mem hne0
  have hb : b ∈ offs := htail ▸ hw.tail_mem hne0
  have hne : a ≠ b := by
    rw [← hhead, ← htail]; exact hw.head_ne_tail hlen
  have hl := hw.local hL
  have hpa : (getNode r a).previous = 0 := (hl.prev_zero a ha).2 hhead.symm
  have hnb : (getNode r b).next = 0 := (hl.next_zero b hb).2 htail.symm
  exact swap_ends L hL r offs a b h1 h2 hw ha hb hne ⟨hpa, hhead⟩ ⟨hnb, htail⟩

/-- C9 at the list of `main`: head node at 72, tail node at 128. -/
theorem C9_swap_endpoints_witness :
    demoLayout.ok ∧ WF demoLayout demoList [72, 100, 128] ∧ 2 ≤ [72, 100, 128].length ∧
    demoList.hdr.head = 72 ∧ demoList.hdr.tail = 128 ∧
    ((∃ r2, swap_in_memory demoList ⟨72, 1⟩ ⟨128, 1⟩ = Outcome.done r2 ∧
      r2.hdr.head = 128 ∧ r2.hdr.tail = 72 ∧
      (getNode r2 r2.hdr.head).previous = 0 ∧ (getNode r2 r2.hdr.tail).next = 0) ∧
    (∃ r2, swap_in_memory demoList ⟨128, 1⟩ ⟨72, 1⟩ = Outcome.done r2 ∧
      r2.hdr.head = 128 ∧ r2.hdr.tail = 72 ∧
      (getNode r2 r2.hdr.head).previous = 0 ∧ (getNode r2 r2.hdr.tail).next = 0)) :=
  ⟨by decide, by decide, by decide, by decide, by decide,
    C9_swap_endpoints demoLayout (by decide) demoList [72, 100, 128] 72 128 1 1 (by decide)
      (by decide) (by decide) (by decide)⟩

theorem getLast?_getD_mem (l : List Nat) (h : l ≠ []) (x : Nat) : l.getLast?.getD x ∈ l := by
  obtain ⟨l2, t, rfl⟩ := (nil_or_snoc l).resolve_left h
  simp [List.getLast?_concat]

theorem head?_getD_mem (l : List Nat) (h : l ≠ []) (x : Nat) : l.head?.getD x ∈ l := by
  cases l with
  | nil => exact absurd rfl h
  | cons a l => simp

theorem nodup_parts (pre mid post : List Nat) (a b : Nat)
    (hnd : (pre ++ a :: mid ++ b :: post).Nodup) (x : Nat)
    (hx : x ∈ pre ∨ x ∈ mid ∨ x ∈ post) : x ≠ a ∧ x ≠ b ∧ a ≠ b := by
  have e : pre ++ a :: mid ++ b :: post = pre ++ (a :: (mid ++ b :: post)) := by simp
  rw [e] at hnd
  have h1 := List.nodup_append.1 hnd
  have h2 := List.nodup_cons.1 h1.2.1
  have h3 := List.nodup_append.1 h2.2
  have h4 := List.nodup_cons.1 h3.2.1
  have hab : a ≠ b := fun e => h2.1 (by simp [e])
  refine ⟨?_, ?_, hab⟩
  · rintro rfl
    rcases hx with h | h | h
    · exact h1.2.2 h (by simp)
    · exact h2.1 (by simp [h])
    · exact h2.1 (by simp [h])
  · rintro rfl
    rcases hx with h | h | h
    · exact h1.2.2 h (by simp)
    · exact h3.2.2 h (by simp)
    · exact h4.1 h

/-- C10 fails as stated: in the full capacity-5 list holding 1, 2, 3, 4, 5 (nodes at offsets
72, 100, 128, 156, 184) the nodes at 100 and 156 are interior and not adjacent; after
`swap_in_memory` on them the node at 72, which is neither of the two, has a different `next`
(156 instead of 100), and the node at 128 has a different `next` and `previous`. -/
theorem C10_counterexample :
    WF demoLayout fiveList [72, 100, 128, 156, 184] ∧
    (swap_in_memory fiveList ⟨100, 1⟩ ⟨156, 1⟩).isDone = true ∧
    (getNode fiveList 72).next = 100 ∧ (getNode fiveSwapped 72).next = 156 ∧
    (getNode fiveSwapped 72).next ≠ (getNode fiveList 72).next ∧
    (getNode fiveSwapped 128).next ≠ (getNode fiveList 128).next ∧
    (getNode fiveSwapped 128).previous ≠ (getNode fiveList 128).previous := by
  decide

/-- C10, amended: on a well-formed list with two interior, non-adjacent nodes `a` and `b`,
`swap_in_memory` on them returns normally, and for every node of the chain other than the two
the new `next` and `previous` are the old ones with the offsets `a` and `b` exchanged (the
payload is kept): a link that did not point to `a` or `b` is unchanged, so nodes that are not
neighbours of `a` or `b` keep both links, while the four neighbours, which are other nodes,
now point to the other of the two.  Blocks off the chain are untouched. -/
theorem C10_swap_other_nodes_links (L : Layout) (hL : L.ok) (r : Shm)
    (pre mid post : List Nat) (a b h1 h2 : Nat)
    (hw : WF L r (pre ++ a :: mid ++ b :: post))
    (hpre : pre ≠ []) (hmid : mid ≠ []) (hpost : post ≠ []) :
    ∃ r2, swap_in_memory r ⟨a, h1⟩ ⟨b, h2⟩ = Outcome.done r2 ∧
      (∀ o ∈ pre ++ a :: mid ++ b :: post, o ≠ a → o ≠ b →
        (getNode r2 o).next = exch a b (getNode r o).next ∧
        (getNode r2 o).previous = exch a b (getNode r o).previous ∧
        (getNode r2 o).data = (getNode r o).data ∧
        ((getNode r o).next ≠ a → (getNode r o).next ≠ b →
          (getNode r2 o).next = (getNode r o).next) ∧
        ((getNode r o).previous ≠ a → (getNode r o).previous ≠ b →
          (getNode r2 o).previous = (getNode r o).previous)) ∧
      (∀ o, o ∉ pre ++ a :: mid ++ b :: post → getNode r2 o = getNode r o) ∧
      ((getNode r a).previous ≠ a ∧ (getNode r a).previous ≠ b ∧
        (getNode r (getNode r a).previous).next = a ∧
        (getNode r2 (getNode r a).previous).next = b) ∧
      ((getNode r a).next ≠ a ∧ (getNode r a).next ≠ b ∧
        (getNode r (getNode r a).next).previous = a ∧
        (getNode r2 (getNode r a).next).previous = b) ∧
      ((getNode r b).previous ≠ a ∧ (getNode r b).previous ≠ b ∧
        (getNode r (getNode r b).previous).next = b ∧
        (getNode r2 (getNode r b).previous).next = a) ∧
      ((getNode r b).next ≠ a ∧ (getNode r b).next ≠ b ∧
        (getNode r (getNode r b).next).previous = b ∧
        (getNode r2 (getNode r b).next).previous = a) := by
  have hnd := hw.2.2.2.2.2.1
  have hseg := hw.2.2.2.2.1
  have hl := hw.local hL
  have hz := hw.ne_zero hL
  have parts := nodup_parts pre mid post a b hnd
  have hab : a ≠ b := (parts _ (Or.inl (getLast?_getD_mem pre hpre 0))).2.2
  have ha : a ∈ pre ++ a :: mid ++ b :: post := by simp
  have hb : b ∈ pre ++ a :: mid ++ b :: post := by simp
  obtain ⟨r2, hd, _, _, _, _, _, him, hfr⟩ :=
    swap_result L hL r _ ⟨a, h1⟩ ⟨b, h2⟩ hw ha hb hab 0
  simp only at him
  have hother : ∀ o ∈ pre ++ a :: mid ++ b :: post, o ≠ a → o ≠ b →
      getNode r2 o = ⟨exch a b (getNode r o).next, (getNode r o).data,
        exch a b (getNode r o).previous⟩ := by
    intro o ho h1 h2
    have := him o ho
    rwa [exch_other a b o h1 h2] at this
  have e1 : pre ++ a :: mid ++ b :: post = pre ++ a :: (mid ++ b :: post) := by simp
  have e2 : pre ++ a :: mid ++ b :: post = (pre ++ a :: mid) ++ b :: post := by simp
  have sa := seg_at r pre (mid ++ b :: post) a 0 0 (e1 ▸ hseg)
  have sb := seg_at r (pre ++ a :: mid) post b 0 0 (e2 ▸ hseg)
  rw [head?_append_getD] at sa
  rw [getLast?_append_getD, getLast?_cons_getD] at sb
  have mpa : (getNode r a).previous ∈ pre := sa.1 ▸ getLast?_getD_mem pre hpre 0
  have mna : (getNode r a).next ∈ mid := sa.2 ▸ head?_getD_mem mid hmid _
  have mpb : (getNode r b).previous ∈ mid := sb.1 ▸ getLast?_getD_mem mid hmid _
  have mnb : (getNode r b).next ∈ post := sb.2 ▸ head?_getD_mem post hpost 0
  have opa : (getNode r a).previous ∈ pre ++ a :: mid ++ b :: post := by simp [mpa]
  have ona : (getNode r a).next ∈ pre ++ a :: mid ++ b :: post := by simp [mna]
  have opb : (getNode r b).previous ∈ pre ++ a :: mid ++ b :: post := by simp [mpb]
  have onb : (getNode r b).next ∈ pre ++ a :: mid ++ b :: post := by simp [mnb]
  have dpa := parts _ (Or.inl mpa)
  have dna := parts _ (Or.inr (Or.inl mna))
  have dpb := parts _ (Or.inr (Or.inl mpb))
  have dnb := parts _ (Or.inr (Or.inr mnb))
  have lpa := (hl.prev_mem a ha (hz _ opa)).2.1
  have lna := (hl.next_mem a ha (hz _ ona)).2.1
  have lpb := (hl.prev_mem b hb (hz _ opb)).2.1
  have lnb := (hl.next_mem b hb (hz _ onb)).2.1
  refine ⟨r2, hd, ?_, hfr, ⟨dpa.1, dpa.2.1, lpa, ?_⟩, ⟨dna.1, dna.2.1, lna, ?_⟩,
    ⟨dpb.1, dpb.2.1, lpb, ?_⟩, ⟨dnb.1, dnb.2.1, lnb, ?_⟩⟩
  · intro o ho h1 h2
    rw [hother o ho h1 h2]
    refine ⟨rfl, rfl, rfl, ?_, ?_⟩
    · intro n1 n2; exact exch_other a b _ n1 n2
    · intro n1 n2; exact exch_other a b _ n1 n2
  · rw [hother _ opa dpa.1 dpa.2.1]; simp only []; rw [lpa, exch_left]
  · rw [hother _ ona dna.1 dna.2.1]; simp only []; rw [lna, exch_left]
  · rw [hother _ opb dpb.1 dpb.2.1]; simp only []; rw [lpb, exch_right]
  · rw [hother _ onb dnb.1 dnb.2.1]; simp only []; rw [lnb, exch_right]

/-- C10 (amended) at the capacity-5 list 1, 2, 3, 4, 5 with the nodes at 100 and 156. -/
theorem C10_swap_other_nodes_links_witness :
    demoLayout.ok ∧ WF demoLayout fiveList ([72] ++ 100 :: [128] ++ 156 :: [184]) ∧
    ([72] : List Nat) ≠ [] ∧ ([128] : List Nat) ≠ [] ∧ ([184] : List Nat) ≠ [] ∧
    ∃ r2, swap_in_memory fiveList ⟨100, 1⟩ ⟨156, 1⟩ = Outcome.done r2 ∧
      (∀ o ∈ [72] ++ 100 :: [128] ++ 156 :: [184], o ≠ 100 → o ≠ 156 →
        (getNode r2 o).next = exch 100 156 (getNode fiveList o).next ∧
        (getNode r2 o).previous = exch 100 156 (getNode fiveList o).previous ∧
        (getNode r2 o).data = (getNode fiveList o).data ∧
        ((getNode fiveList o).next ≠ 100 → (getNode fiveList o).next ≠ 156 →
          (getNode r2 o).next = (getNode fiveList o).next) ∧
        ((getNode fiveList o).previous ≠ 100 → (getNode fiveList o).previous ≠ 156 →
          (getNode r2 o).previous = (getNode fiveList o).previous)) ∧
      (∀ o, o ∉ [72] ++ 100 :: [128] ++ 156 :: [184] → getNode r2 o = getNode fiveList o) ∧
      ((getNode fiveList 100).previous ≠ 100 ∧ (getNode fiveList 100).previous ≠ 156 ∧
        (getNode fiveList (getNode fiveList 100).previous).next = 100 ∧
        (getNode r2 (getNode fiveList 100).previous).next = 156) ∧
      ((getNode fiveList 100).next ≠ 100 ∧ (getNode fiveList 100).next ≠ 156 ∧
        (getNode fiveList (getNode fiveList 100).next).previous = 100 ∧
        (getNode r2 (getNode fiveList 100).next).previous = 156) ∧
      ((getNode fiveList 156).previous ≠ 100 ∧ (getNode fiveList 156).previous ≠ 156 ∧
        (getNode fiveList (getNode fiveList 156).previous).next = 156 ∧
        (getNode r2 (getNode fiveList 156).previous).next = 100) ∧
      ((getNode fiveList 156).next ≠ 100 ∧ (getNode fiveList 156).next ≠ 156 ∧
        (getNode fiveList (getNode fiveList 156).next).previous = 156 ∧
        (getNode r2 (getNode fiveList 156).next).previous = 100) :=
  ⟨by decide, by decide, by decide, by decide, by decide,
    C10_swap_other_nodes_links demoLayout (by decide) fiveList [72] [128] [184] 100 156 1 1
      (by decide) (by decide) (by decide) (by decide)⟩

/-- C14: two iterators compare equal exactly when their offsets are equal and, if that offset
is not 0, their handles are equal; an iterator at offset 0 equals `end()` whatever its handle;
`operator!=` is the negation of `operator==`; the relation is reflexive, symmetric and
transitive; and `begin() == end()` exactly when `head == 0`. -/
theorem C14_iterator_equality (a b c : Iterator) (this : Nat) (r : Shm) :
    (a.eq b = true ↔
      a.m_node_offset = b.m_node_offset ∧ (a.m_node_offset ≠ 0 → a.m_list = b.m_list)) ∧
    (a.m_node_offset = 0 → a.eq end_ = true) ∧
    a.ne b = !(a.eq b) ∧
    a.eq a = true ∧
    (a.eq b = true → b.eq a = true) ∧
    (a.eq b = true → b.eq c = true → a.eq c = true) ∧
    ((begin this r).eq end_ = true ↔ r.hdr.head = 0) := by
  obtain ⟨ao, al⟩ := a
  obtain ⟨bo, bl⟩ := b
  obtain ⟨co, cl⟩ := c
  refine ⟨?_, ?_, rfl, ?_, ?_, ?_, ?_⟩
  · by_cases h : ao = 0 <;> simp [Iterator.eq, h]
  · intro h; simp only at h; subst h; simp [Iterator.eq, end_]
  · by_cases h : ao = 0 <;> simp [Iterator.eq, h]
  · simp only [Iterator.eq, Bool.and_eq_true, Bool.or_eq_true, beq_iff_eq]
    rintro ⟨h1, h2⟩
    subst h1
    exact ⟨rfl, h2.imp id Eq.symm⟩
  · simp only [Iterator.eq, Bool.and_eq_true, Bool.or_eq_true, beq_iff_eq]
    rintro ⟨h1, h2⟩ ⟨h3, h4⟩
    subst h1; subst h3
    refine ⟨rfl, ?_⟩
    rcases h2 with h2 | h2
    · exact Or.inl h2
    · rcases h4 with h4 | h4
      · exact Or.inl h4
      · exact Or.inr (h2.trans h4)
  · exact eq_end_iff _ _

/-- C12: `swap_in_memory` stops at its assertion, with the region as before the call, whenever
the two iterators compare equal under `operator==`; whenever they compare unequal it returns
normally; and two iterators of the same handle at different offsets compare unequal. -/
theorem C12_swap_asserts_distinct (r : Shm) (first second : Iterator) :
    (first.eq second = true → swap_in_memory r first second = Outcome.aborted r) ∧
    (first.eq second = false →
      swap_in_memory r first second =
        Outcome.done (swap_in_memory_body r first.m_node_offset second.m_node_offset)) ∧
    ((swap_in_memory r first second).isDone = false ↔ first.eq second = true) ∧
    (first.m_list = second.m_list → first.m_node_offset ≠ second.m_node_offset →
      first.eq second = false ∧ (swap_in_memory r first second).isDone = true) := by
  have h1 : first.eq second = true → swap_in_memory r first second = Outcome.aborted r := by
    intro h; simp [swap_in_memory, Iterator.ne, h]
  have h2 : first.eq second = false → swap_in_memory r first second =
      Outcome.done (swap_in_memory_body r first.m_node_offset second.m_node_offset) := by
    intro h; simp [swap_in_memory, Iterator.ne, h]
  refine ⟨h1, h2, ?_, ?_⟩
  · cases h : first.eq second
    · rw [h2 h]; simp [Outcome.isDone]
    · rw [h1 h]; simp [Outcome.isDone]
  · intro _ hne
    have h : first.eq second = false := by simp [Iterator.eq, hne]
    exact ⟨h, by rw [h2 h]; rfl⟩

/-- C12 on the list of `main`: equal iterators abort, the first two nodes do not. -/
theorem C12_swap_asserts_distinct_witness :
    swap_in_memory demoList ⟨72, 1⟩ ⟨72, 1⟩ = Outcome.aborted demoList ∧
    swap_in_memory demoList ⟨0, 1⟩ ⟨0, 2⟩ = Outcome.aborted demoList ∧
    (swap_in_memory demoList ⟨72, 1⟩ ⟨100, 1⟩).isDone = true :=
  ⟨(C12_swap_asserts_distinct demoList ⟨72, 1⟩ ⟨72, 1⟩).1 (by decide),
   (C12_swap_asserts_distinct demoList ⟨0, 1⟩ ⟨0, 2⟩).1 (by decide),
   ((C12_swap_asserts_distinct demoList ⟨72, 1⟩ ⟨100, 1⟩).2.2.2 rfl (by decide)).2⟩

/-- C11 (what the code does): `pop_back` and `pop_front` contain no assertion, so they return
normally also when `size == 0`; the decrement then wraps `size` to `2 ^ 64 - 1`, which is not
the old value, and the capacity bound `size ≤ blocks_count` is lost for every capacity a
`std::size_t` below its maximum can hold. -/
theorem C11_pop_on_empty_returns (r : Shm) (h : r.hdr.size = 0) :
    (pop_back r).hdr.size = 2 ^ 64 - 1 ∧ (pop_front r).hdr.size = 2 ^ 64 - 1 ∧
    (pop_back r).hdr.size ≠ r.hdr.size ∧ (pop_front r).hdr.size ≠ r.hdr.size ∧
    (r.hdr.blocks_count < 2 ^ 64 - 1 →
      ¬ (pop_back r).hdr.size ≤ (pop_back r).hdr.blocks_count ∧
      ¬ (pop_front r).hdr.size ≤ (pop_front r).hdr.blocks_count) := by
  have hb := (pop_back_region r).1
  have hf := (pop_front_region r).1
  have e : size_pred 0 = 2 ^ 64 - 1 := by unfold size_pred; norm_num
  rw [h, e] at hb hf
  refine ⟨by rw [hb], by rw [hf], by rw [hb, h]; norm_num, by rw [hf, h]; norm_num, ?_⟩
  intro hc
  rw [hb, hf]
  simp only []
  omega

/-- C11 at a freshly created, empty list of capacity 3. -/
theorem C11_pop_on_empty_returns_witness :
    (zeroShm 3).hdr.size = 0 ∧
    ((pop_back (zeroShm 3)).hdr.size = 2 ^ 64 - 1 ∧
    (pop_front (zeroShm 3)).hdr.size = 2 ^ 64 - 1 ∧
    (pop_back (zeroShm 3)).hdr.size ≠ (zeroShm 3).hdr.size ∧
    (pop_front (zeroShm 3)).hdr.size ≠ (zeroShm 3).hdr.size ∧
    ((zeroShm 3).hdr.blocks_count < 2 ^ 64 - 1 →
      ¬ (pop_back (zeroShm 3)).hdr.size ≤ (pop_back (zeroShm 3)).hdr.blocks_count ∧
      ¬ (pop_front (zeroShm 3)).hdr.size ≤ (pop_front (zeroShm 3)).hdr.blocks_count)) :=
  ⟨rfl, C11_pop_on_empty_returns (zeroShm 3) rfl⟩

theorem WF.full_mem {L : Layout} {r : Shm} {offs : List Nat} (hw : WF L r offs)
    (hfull : r.hdr.size = r.hdr.blocks_count) (i : Nat) (hi : i < r.hdr.blocks_count) :
    blockOffset L i ∈ offs := by
  obtain ⟨_, _, hsz, _, _, hnd, hform, _⟩ := hw
  have hsub : offs ⊆ (List.range r.hdr.blocks_count).map (blockOffset L) := by
    intro x hx
    obtain ⟨k, hk, rfl⟩ := hform x hx
    exact List.mem_map.2 ⟨k, List.mem_range.2 hk, rfl⟩
  have hperm := (hnd.subperm hsub).perm_of_length_le (by
    simp only [List.length_map, List.length_range]; omega)
  exact hperm.symm.subset (List.mem_map.2 ⟨i, List.mem_range.2 hi, rfl⟩)

/-- C18: the allocator is first-fit by ascending offset, for every capacity of at most `INT_MAX`
(the range in which the `int` counter of its loop cannot overflow).  If some block
`j < capacity` is free, `get_free_node_offset` returns `headerSize + i * slotSize` for the least free index `i`, tags
that block taken and changes no other tag, no node and no header field; `return_node(offset)`
tags exactly the block at `offset` free.  A block just released is therefore found by the next
allocation unless a lower one is free, and on a full list `pop_back` followed by `push_back`
places the new node at the offset of the node just removed.  Each allocation is stated both
of `get_free_node_offset` and of the loop with its `int` counter, `scanFreeInt`. -/
theorem C18_first_fit_allocator (L : Layout) (hL : L.ok) (r0 : Shm)
    (hc0 : r0.hdr.blocks_count ≤ INT_MAX) (j : Nat)
    (hj : j < r0.hdr.blocks_count) (hfree : (r0.cells (blockOffset L j)).taken = 0)
    (r : Shm) (hc : r.hdr.blocks_count ≤ INT_MAX)
    (l : List Nat) (t : Nat) (n : Int) (hw : WF L r (l ++ [t]))
    (hfull : r.hdr.size = r.hdr.blocks_count) :
    (∃ i r1, i ≤ j ∧ (r0.cells (blockOffset L i)).taken = 0 ∧
      (∀ m, m < i → (r0.cells (blockOffset L m)).taken ≠ 0) ∧
      get_free_node_offset L r0 = some (r1, L.headerSize + i * L.slotSize) ∧
      scanFreeInt L r0 r0.hdr.blocks_count 0 = some (r1, L.headerSize + i * L.slotSize) ∧
      (∀ x, (r1.cells x).taken =
        if x = L.headerSize + i * L.slotSize then 1 else (r0.cells x).taken) ∧
      (∀ x, getNode r1 x = getNode r0 x) ∧ r1.hdr = r0.hdr) ∧
    (∀ (s : Shm) (offset x : Nat),
      ((return_node s offset).cells x).taken = (if x = offset then 0 else (s.cells x).taken) ∧
      getNode (return_node s offset) x = getNode s x ∧ (return_node s offset).hdr = s.hdr) ∧
    (∀ (s : Shm) (k : Nat), s.hdr.blocks_count ≤ INT_MAX → k < s.hdr.blocks_count →
      ∃ i s1, i ≤ k ∧ (∀ m, m < i → (s.cells (blockOffset L m)).taken ≠ 0) ∧
        get_free_node_offset L (return_node s (blockOffset L k)) = some (s1, blockOffset L i) ∧
        scanFreeInt L (return_node s (blockOffset L k)) s.hdr.blocks_count 0 =
          some (s1, blockOffset L i)) ∧
    ((∃ r2, push_back L (pop_back r) n = Outcome.done r2 ∧ r2.hdr.tail = t ∧
      WF L r2 (l ++ [t]) ∧ (getNode r2 t).data = n ∧ payloads r2 l = payloads r l) ∧
      scanFreeInt L (pop_back r) (pop_back r).hdr.blocks_count 0 =
        some ((pop_back r).setTaken t 1, t)) := by
  refine ⟨?_, ?_, ?_, ?_⟩
  · obtain ⟨i, _, hij, hi0, hmin, hres⟩ :=
      scanFree_some L r0 r0.hdr.blocks_count 0 j (Nat.zero_le _) (by omega) hfree
    refine ⟨i, r0.setTaken (blockOffset L i) 1, hij, hi0,
      fun m hm => hmin m (Nat.zero_le _) hm, hres,
      (scanFreeInt_eq_get_free_node_offset L r0 hc0).trans hres, ?_, ?_, rfl⟩
    · intro x; rw [taken_setTaken]; rfl
    · intro x; rw [getNode_setTaken]
  · intro s offset x
    exact ⟨by rw [return_node, taken_setTaken], by rw [return_node, getNode_setTaken], rfl⟩
  · intro s k hs hk
    have hk0 : ((return_node s (blockOffset L k)).cells (blockOffset L k)).taken = 0 := by
      rw [return_node, taken_setTaken]; simp
    obtain ⟨i, _, hik, _, hmin, hres⟩ :=
      scanFree_some L (return_node s (blockOffset L k)) s.hdr.blocks_count 0 k
        (Nat.zero_le _) (by omega) hk0
    refine ⟨i, _, hik, ?_, hres, (scanFreeInt_eq_scanFree L _ _ 0 (by omega)).trans hres⟩
    intro m hm
    have h1 := hmin m (Nat.zero_le _) hm
    rw [return_node, taken_setTaken] at h1
    have hne : blockOffset L m ≠ blockOffset L k := fun e => by
      have := blockOffset_inj L hL e; omega
    simpa [hne] using h1
  · obtain ⟨hw1, hp1, _, _⟩ := pop_back_wf L hL r l t hw
    have hcap : (pop_back r).hdr.blocks_count = r.hdr.blocks_count := by
      rw [(pop_back_region r).1]
    have hlt : (pop_back r).hdr.size < (pop_back r).hdr.blocks_count := by
      rw [hcap, hw1.2.2.1, ← hfull, hw.2.2.1]; simp
    have hscan : scanFreeInt L (pop_back r) (pop_back r).hdr.blocks_count 0 =
        some ((pop_back r).setTaken t 1, t) := by
      obtain ⟨i, hi, hnot, _, ha⟩ := get_free_wf L hL (pop_back r) l hw1 hlt
      have hmem := hw.full_mem hfull i (hcap ▸ hi)
      have hit : blockOffset L i = t := by
        rcases List.mem_append.1 hmem with h | h
        · exact absurd h hnot
        · simpa using h
      rw [hit] at ha
      exact (scanFreeInt_eq_get_free_node_offset L (pop_back r) (hcap ▸ hc)).trans ha
    obtain ⟨r2, i, hi, hnot, _, hpb, hw2, hp2, _, _⟩ :=
      push_back_wf L hL (pop_back r) l n hw1 hlt
    have hmem := hw.full_mem hfull i (hcap ▸ hi)
    have hit : blockOffset L i = t := by
      rcases List.mem_append.1 hmem with h | h
      · exact absurd h hnot
      · simpa using h
    rw [hit] at hw2 hp2
    refine ⟨⟨r2, hpb, ?_, hw2, ?_, ?_⟩, hscan⟩
    · rw [hw2.2.1]; simp [List.getLast?_concat]
    · have := congrArg (fun v => v.getLast?) hp2
      simpa [payloads, List.getLast?_concat] using this
    · have h3 : payloads r2 l ++ [(getNode r2 t).data] = payloads (pop_back r) l ++ [n] := by
        rw [← hp2]; simp [payloads]
      rw [← hp1]
      exact (List.append_inj' h3 rfl).1

/-- C18 on the list of `main` (block 3 free) and on the full capacity-5 list. -/
theorem C18_first_fit_allocator_witness :
    demoLayout.ok ∧ demoList.hdr.blocks_count ≤ INT_MAX ∧ 3 < demoList.hdr.blocks_count ∧
    (demoList.cells (blockOffset demoLayout 3)).taken = 0 ∧
    fiveList.hdr.blocks_count ≤ INT_MAX ∧
    WF demoLayout fiveList ([72, 100, 128, 156] ++ [184]) ∧
    fiveList.hdr.size = fiveList.hdr.blocks_count ∧
    (∃ r2, push_back demoLayout (pop_back fiveList) 9 = Outcome.done r2 ∧ r2.hdr.tail = 184 ∧
      WF demoLayout r2 ([72, 100, 128, 156] ++ [184]) ∧ (getNode r2 184).data = 9 ∧
      payloads r2 [72, 100, 128, 156] = payloads fiveList [72, 100, 128, 156]) ∧
    scanFreeInt demoLayout (pop_back fiveList) (pop_back fiveList).hdr.blocks_count 0 =
      some ((pop_back fiveList).setTaken 184 1, 184) :=
  ⟨by decide, by decide, by decide, by decide, by decide, by decide, by decide,
    (C18_first_fit_allocator demoLayout (by decide) demoList (by decide) 3 (by decide)
      (by decide) fiveList (by decide) [72, 100, 128, 156] 184 9 (by decide) (by decide)).2.2.2⟩

theorem swap_positions (L : Layout) (hL : L.ok) (r : Shm) (offs : List Nat)
    (a b h1 h2 this : Nat) (hw : WF L r offs) (ha : a ∈ offs) (hb : b ∈ offs) (hne : a ≠ b) :
    ∃ r2, swap_in_memory r ⟨a, h1⟩ ⟨b, h2⟩ = Outcome.done r2 ∧
      rangeFor r offs.length (begin this r) = some (payloads r offs) ∧
      rangeFor r2 offs.length (begin this r2) = some (payloads r offs) ∧
      offsets r = offs ∧ offsets r2 = offs.map (exch a b) ∧
      (∀ (k o : Nat), offs[k]? = some o → (offsets r2)[k]? = some (exch a b o) ∧
        (getNode r2 (exch a b o)).data = (getNode r o).data) ∧
      (∀ o ∈ offs, o ≠ a → o ≠ b →
        (getNode r2 o).data = (getNode r o).data ∧
        (∀ k : Nat, offs[k]? = some o → (offsets r2)[k]? = some o) ∧
        (getNode r2 o).next = exch a b (getNode r o).next ∧
        (getNode r2 o).previous = exch a b (getNode r o).previous) := by
  obtain ⟨r2, hd, hw2, _, hr, _, _, him, _⟩ :=
    swap_result L hL r offs ⟨a, h1⟩ ⟨b, h2⟩ hw ha hb hne this
  simp only at hw2 him
  have ho2 := hw2.offsets_eq hL
  have hidx : ∀ (k o : Nat), offs[k]? = some o → (offsets r2)[k]? = some (exch a b o) := by
    intro k o hk
    rw [ho2, List.getElem?_map, hk]; rfl
  refine ⟨r2, hd, hw.rangeFor_eq hL this, hr, hw.offsets_eq hL, ho2, ?_, ?_⟩
  · intro k o hk
    refine ⟨hidx k o hk, ?_⟩
    rw [him o (List.getElem?_mem hk)]
  · intro o ho hoa hob
    have h := him o ho
    rw [exch_other a b o hoa hob] at h
    refine ⟨by rw [h], ?_, by rw [h], by rw [h]⟩
    intro k hk
    have := hidx k o hk
    rwa [exch_other a b o hoa hob] at this

/-- C19: on a well-formed list, `swap_in_memory` on iterators at two different nodes `a` and
`b` of the chain (adjacent or not, in either argument order) returns normally; iteration
yields the same payload sequence as before; the offsets visited from `head` are the old ones
with `a` and `b` exchanged, the payload at each position staying where it was; and every node
other than the two keeps its payload and its position, its `next` and `previous` being the old
ones with `a` and `b` exchanged. -/
theorem C19_swap_exchanges_offsets (L : Layout) (hL : L.ok) (r : Shm) (offs : List Nat)
    (a b h1 h2 this : Nat) (hw : WF L r offs) (ha : a ∈ offs) (hb : b ∈ offs) (hne : a ≠ b) :
    (∃ r2, swap_in_memory r ⟨a, h1⟩ ⟨b, h2⟩ = Outcome.done r2 ∧
      rangeFor r offs.length (begin this r) = some (payloads r offs) ∧
      rangeFor r2 offs.length (begin this r2) = some (payloads r offs) ∧
      offsets r = offs ∧ offsets r2 = offs.map (exch a b) ∧
      (∀ (k o : Nat), offs[k]? = some o → (offsets r2)[k]? = some (exch a b o) ∧
        (getNode r2 (exch a b o)).data = (getNode r o).data) ∧
      (∀ o ∈ offs, o ≠ a → o ≠ b →
        (getNode r2 o).data = (getNode r o).data ∧
        (∀ k : Nat, offs[k]? = some o → (offsets r2)[k]? = some o) ∧
        (getNode r2 o).next = exch a b (getNode r o).next ∧
        (getNode r2 o).previous = exch a b (getNode r o).previous)) ∧
    (∃ r2, swap_in_memory r ⟨b, h2⟩ ⟨a, h1⟩ = Outcome.done r2 ∧
      rangeFor r offs.length (begin this r) = some (payloads r offs) ∧
      rangeFor r2 offs.length (begin this r2) = some (payloads r offs) ∧
      offsets r = offs ∧ offsets r2 = offs.map (exch a b) ∧
      (∀ (k o : Nat), offs[k]? = some o → (offsets r2)[k]? = some (exch a b o) ∧
        (getNode r2 (exch a b o)).data = (getNode r o).data) ∧
      (∀ o ∈ offs, o ≠ a → o ≠ b →
        (getNode r2 o).data = (getNode r o).data ∧
        (∀ k : Nat, offs[k]? = some o → (offsets r2)[k]? = some o) ∧
        (getNode r2 o).next = exch a b (getNode r o).next ∧
        (getNode r2 o).previous = exch a b (getNode r o).previous)) := by
  refine ⟨swap_positions L hL r offs a b h1 h2 this hw ha hb hne, ?_⟩
  have h := swap_positions L hL r offs b a h2 h1 this hw hb ha (Ne.symm hne)
  have e : exch b a = exch a b := funext (exch_comm a b)
  rw [e] at h
  obtain ⟨r2, c1, c2, c3, c4, c5, c6, c7⟩ := h
  exact ⟨r2, c1, c2, c3, c4, c5, c6, fun o ho hoa hob => c7 o ho hob hoa⟩

/-- C19 on the capacity-5 list 1, 2, 3, 4, 5, swapping the nodes at 100 and 184. -/
theorem C19_swap_exchanges_offsets_witness :
    demoLayout.ok ∧ WF demoLayout fiveList [72, 100, 128, 156, 184] ∧
    ∃ r2, swap_in_memory fiveList ⟨100, 1⟩ ⟨184, 1⟩ = Outcome.done r2 ∧
      rangeFor fiveList [72, 100, 128, 156, 184].length (begin 1 fiveList) =
        some (payloads fiveList [72, 100, 128, 156, 184]) ∧
      rangeFor r2 [72, 100, 128, 156, 184].length (begin 1 r2) =
        some (payloads fiveList [72, 100, 128, 156, 184]) ∧
      offsets fiveList = [72, 100, 128, 156, 184] ∧
      offsets r2 = [72, 100, 128, 156, 184].map (exch 100 184) ∧
      (∀ (k o : Nat), [72, 100, 128, 156, 184][k]? = some o →
        (offsets r2)[k]? = some (exch 100 184 o) ∧
        (getNode r2 (exch 100 184 o)).data = (getNode fiveList o).data) ∧
      (∀ o ∈ [72, 100, 128, 156, 184], o ≠ 100 → o ≠ 184 →
        (getNode r2 o).data = (getNode fiveList o).data ∧
        (∀ k : Nat, [72, 100, 128, 156, 184][k]? = some o → (offsets r2)[k]? = some o) ∧
        (getNode r2 o).next = exch 100 184 (getNode fiveList o).next ∧
        (getNode r2 o).previous = exch 100 184 (getNode fiveList o).previous) :=
  ⟨by decide, by decide,
    (C19_swap_exchanges_offsets demoLayout (by decide) fiveList [72, 100, 128, 156, 184]
      100 184 1 1 1 (by decide) (by decide) (by decide) (by decide)).1⟩

theorem Seg_index (r : Shm) (l : List Nat) (p q : Nat) (hs : Seg r p l q) (k : Nat)
    (a b : Nat) (ha : l[k]? = some a) (hb : l[k + 1]? = some b) :
    (getNode r a).next = b ∧ (getNode r b).previous = a := by
  induction l generalizing p k with
  | nil => simp at ha
  | cons o rest ih =>
    obtain ⟨_, h2, h3⟩ := hs
    cases k with
    | zero =>
      simp only [List.getElem?_cons_zero, Option.some.injEq] at ha
      subst ha
      cases rest with
      | nil => simp at hb
      | cons y rest2 =>
        simp only [zero_add, List.getElem?_cons_succ, List.getElem?_cons_zero,
          Option.some.injEq] at hb
        subst hb
        exact ⟨by simpa using h2, h3.1⟩
    | succ k =>
      simp only [List.getElem?_cons_succ] at ha hb
      exact ih o h3 k ha hb

theorem WF.countTaken_eq {L : Layout} (hL : L.ok) {r : Shm} {offs : List Nat}
    (hw : WF L r offs) : countTaken L r = r.hdr.size := by
  obtain ⟨_, _, hsz, _, _, hnd, hform, htk⟩ := hw
  unfold countTaken
  rw [hsz, ← List.length_map
    ((List.range r.hdr.blocks_count).filter
      (fun i => decide ((r.cells (blockOffset L i)).taken ≠ 0))) (blockOffset L)]
  apply List.Perm.length_eq
  have hnd1 : (((List.range r.hdr.blocks_count).filter
      (fun i => decide ((r.cells (blockOffset L i)).taken ≠ 0))).map (blockOffset L)).Nodup :=
    ((List.nodup_range _).filter _).map (fun i j e => blockOffset_inj L hL e)
  refine (List.perm_ext_iff_of_nodup hnd1 hnd).2 ?_
  intro x
  simp only [List.mem_map, List.mem_filter, List.mem_range, decide_eq_true_eq]
  constructor
  · rintro ⟨i, ⟨hi, ht⟩, rfl⟩
    exact (htk i hi).1 ht
  · intro hx
    obtain ⟨i, hi, rfl⟩ := hform x hx
    exact ⟨i, ⟨hi, (htk i hi).2 hx⟩, rfl⟩

/-- C20: in every state reachable from a fresh list by `push_back` below capacity, `pop_back`
and `pop_front` on a non-empty list and `swap_in_memory` on two different nodes of the chain,
following `next` from `head` visits exactly `size` pairwise distinct offsets, starting at
`head` and ending at `tail`, whose `next` is 0; the `previous` of `head` is 0 and consecutive
visited nodes point at each other; every visited offset is `headerSize + i * slotSize` with
`i < capacity`; a block is tagged taken exactly when it is visited, and the number of taken
blocks is `size`. -/
theorem C20_representation_invariant (L : Layout) (hL : L.ok) (c : Nat) (hc : c < 2 ^ 64)
    (r : Shm) (hr : Reachable L c r) :
    (offsets r).length = r.hdr.size ∧ (offsets r).Nodup ∧
    (offsets r).head?.getD 0 = r.hdr.head ∧ (offsets r).getLast?.getD 0 = r.hdr.tail ∧
    (r.hdr.tail ≠ 0 → (getNode r r.hdr.tail).next = 0) ∧
    (r.hdr.head ≠ 0 → (getNode r r.hdr.head).previous = 0) ∧
    (∀ (k a b : Nat), (offsets r)[k]? = some a → (offsets r)[k + 1]? = some b →
      (getNode r a).next = b ∧ (getNode r b).previous = a) ∧
    (∀ o ∈ offsets r, ∃ i, i < c ∧ o = L.headerSize + i * L.slotSize) ∧
    (∀ i, i < c →
      ((r.cells (L.headerSize + i * L.slotSize)).taken ≠ 0 ↔
        L.headerSize + i * L.slotSize ∈ offsets r)) ∧
    countTaken L r = r.hdr.size ∧ r.hdr.blocks_count = c := by
  obtain ⟨offs, hw, hcap⟩ := reachable_wf L hL c hc r hr
  rw [hw.offsets_eq hL]
  refine ⟨hw.2.2.1.symm, hw.2.2.2.2.2.1, hw.1.symm, hw.2.1.symm, hw.tail_next hL,
    hw.head_previous hL, ?_, ?_, ?_, hw.countTaken_eq hL, hcap⟩
  · intro k a b ha hb
    exact Seg_index r offs 0 0 hw.2.2.2.2.1 k a b ha hb
  · intro o ho
    obtain ⟨i, hi, e⟩ := hw.2.2.2.2.2.2.1 o ho
    exact ⟨i, hcap ▸ hi, e⟩
  · intro i hi
    exact hw.2.2.2.2.2.2.2 i (hcap ▸ hi)

/-- C20 at the reachable state `reachDemo` of a capacity-3 list. -/
theorem C20_representation_invariant_witness :
    demoLayout.ok ∧ 3 < 2 ^ 64 ∧ Reachable demoLayout 3 reachDemo ∧
    ((offsets reachDemo).length = reachDemo.hdr.size ∧ (offsets reachDemo).Nodup ∧
    (offsets reachDemo).head?.getD 0 = reachDemo.hdr.head ∧
    (offsets reachDemo).getLast?.getD 0 = reachDemo.hdr.tail ∧
    (reachDemo.hdr.tail ≠ 0 → (getNode reachDemo reachDemo.hdr.tail).next = 0) ∧
    (reachDemo.hdr.head ≠ 0 → (getNode reachDemo reachDemo.hdr.head).previous = 0) ∧
    (∀ (k a b : Nat), (offsets reachDemo)[k]? = some a → (offsets reachDemo)[k + 1]? = some b →
      (getNode reachDemo a).next = b ∧ (getNode reachDemo b).previous = a) ∧
    (∀ o ∈ offsets reachDemo,
      ∃ i, i < 3 ∧ o = demoLayout.headerSize + i * demoLayout.slotSize) ∧
    (∀ i, i < 3 →
      ((reachDemo.cells (demoLayout.headerSize + i * demoLayout.slotSize)).taken ≠ 0 ↔
        demoLayout.headerSize + i * demoLayout.slotSize ∈ offsets reachDemo)) ∧
    countTaken demoLayout reachDemo = reachDemo.hdr.size ∧ reachDemo.hdr.blocks_count = 3) :=
  ⟨by decide, by decide, reachDemo_reachable,
    C20_representation_invariant demoLayout (by decide) 3 (by decide) reachDemo
      reachDemo_reachable⟩

/-- C13 (what the code does): `newList` sets `head`, `tail` and `size` to 0 and records the
capacity, so `begin() == end()`, but it never writes a block: every tag is what the region
held before, and the result is a fresh list exactly when the first `c` tags were already 0.
Over a region left by an earlier user of the name with three nodes in its three blocks, the
new list has `size == 0` with all three blocks still tagged taken, and the first `push_back`
stops at the allocator's `assert(0)`. -/
theorem C13_newList_keeps_block_tags :
    (∀ (L : Layout) (name : String) (c ptr : Nat) (prev : Shm),
      (newList name c ptr prev).2.hdr = ⟨0, 0, 0, c⟩ ∧
      (begin ptr (newList name c ptr prev).2).eq end_ = true ∧
      (∀ x, (newList name c ptr prev).2.cells x = prev.cells x) ∧
      (IsFresh L c (newList name c ptr prev).2 ↔
        ∀ i, i < c → (prev.cells (blockOffset L i)).taken = 0)) ∧
    (WF demoLayout staleRegion [72, 100, 128] ∧
      (newList "someName" 3 4096 staleRegion).2.hdr = ⟨0, 0, 0, 3⟩ ∧
      ((newList "someName" 3 4096 staleRegion).2.cells 72).taken = 1 ∧
      ((newList "someName" 3 4096 staleRegion).2.cells 100).taken = 1 ∧
      ((newList "someName" 3 4096 staleRegion).2.cells 128).taken = 1 ∧
      ¬ IsFresh demoLayout 3 (newList "someName" 3 4096 staleRegion).2 ∧
      get_free_node_offset demoLayout (newList "someName" 3 4096 staleRegion).2 = none ∧
      (push_back demoLayout (newList "someName" 3 4096 staleRegion).2 7).isDone = false) := by
  refine ⟨?_, ?_⟩
  · intro L name c ptr prev
    refine ⟨rfl, rfl, fun _ => rfl, ?_⟩
    simp [IsFresh, newList]
  · refine ⟨by decide, rfl, by decide, by decide, by decide, by decide, ?_, by decide⟩
    exact scanFree_none demoLayout _ 3 0 (by decide)

/-- C16 fails as stated: destroying the handle that `useList("someName", 40)` returned for a
mapping at address 4096 calls `shm_unlink("/someName")`. -/
theorem C16_counterexample :
    (useList "someName" 40 4096 demoList).1.m_data_ptr = 4096 ∧
    Handle.destructor demoLayout (useList "someName" 40 4096 demoList).1 demoList =
      [Syscall.munmap 4096 (72 + 28 * 40), Syscall.shm_unlink "/someName"] ∧
    Syscall.shm_unlink "/someName" ∈
      Handle.destructor demoLayout (useList "someName" 40 4096 demoList).1 demoList := by
  decide

/-- C16, amended: the destructor of every handle that holds a mapping (`m_data_ptr` not null),
whether `useList` or `newList` returned it or it was move-constructed from such a handle,
unmaps the view and unlinks the shared name; the destructor of a moved-from handle makes no
system call. -/
theorem C16_destructor_unlinks (L : Layout) (name : String) (size ptr : Nat) (r prev : Shm)
    (hptr : ptr ≠ 0) :
    Handle.destructor L (useList name size ptr r).1 r =
      [Syscall.munmap ptr (getMmapSize L r.hdr.blocks_count),
       Syscall.shm_unlink ("/" ++ name)] ∧
    Handle.destructor L (newList name size ptr prev).1 (newList name size ptr prev).2 =
      [Syscall.munmap ptr (getMmapSize L size), Syscall.shm_unlink ("/" ++ name)] ∧
    Handle.destructor L (Handle.moveFrom (useList name size ptr r).1).1 r =
      [Syscall.munmap ptr (getMmapSize L r.hdr.blocks_count),
       Syscall.shm_unlink ("/" ++ name)] ∧
    Handle.destructor L (Handle.moveFrom (useList name size ptr r).1).2 r = [] ∧
    Handle.destructor L (Handle.moveFrom (newList name size ptr prev).1).2 r = [] := by
  simp [Handle.destructor, useList, newList, Handle.moveFrom, hptr]

/-- C16 (amended) for the handles of `main`: name `someName`, capacity 40, mapped at 4096. -/
theorem C16_destructor_unlinks_witness :
    (4096 : Nat) ≠ 0 ∧
    Handle.destructor demoLayout (useList "someName" 40 4096 demoList).1 demoList =
      [Syscall.munmap 4096 (getMmapSize demoLayout demoList.hdr.blocks_count),
       Syscall.shm_unlink ("/" ++ "someName")] ∧
    Handle.destructor demoLayout (Handle.moveFrom (useList "someName" 40 4096 demoList).1).2
      demoList = [] :=
  ⟨by decide,
   (C16_destructor_unlinks demoLayout "someName" 40 4096 demoList (zeroShm 40) (by decide)).1,
   (C16_destructor_unlinks demoLayout "someName" 40 4096 demoList (zeroShm 40)
     (by decide)).2.2.2.1⟩

theorem Handle.toOffset_getNodePtr (h : Handle) (offset : Nat) :
    h.toOffset (h.getNodePtr offset) = offset := by
  simp [Handle.toOffset, Handle.getNodePtr]

theorem Handle.toOffset_blockPtr (L : Layout) (h : Handle) (iter : Nat) :
    h.toOffset (h.blockPtr L iter) = blockOffset L iter := by
  simp only [Handle.toOffset, Handle.blockPtr, Handle.getBlocksPtr, blockOffset]
  omega

theorem Handle.blockPtr_sub (L : Layout) (h : Handle) (iter : Nat) :
    h.blockPtr L iter - h.m_data_ptr = blockOffset L iter :=
  Handle.toOffset_blockPtr L h iter

theorem Handle.loadNode_eq (h : Handle) (r : Shm) (offset : Nat) :
    h.loadNode r (h.getNodePtr offset) = getNode r offset := by
  simp only [Handle.loadNode, Handle.toOffset_getNodePtr, getNode]

theorem Handle.storeNode_eq (h : Handle) (r : Shm) (offset : Nat) (nd : Node) :
    h.storeNode r (h.getNodePtr offset) nd = r.setNode offset nd := by
  simp only [Handle.storeNode, Handle.toOffset_getNodePtr]

theorem Handle.setNext_eq (h : Handle) (r : Shm) (offset v : Nat) :
    h.setNext r offset v = r.setNext offset v := by
  simp only [Handle.setNext, Handle.loadNode_eq, Handle.storeNode_eq, Shm.setNext]

theorem Handle.setPrevious_eq (h : Handle) (r : Shm) (offset v : Nat) :
    h.setPrevious r offset v = r.setPrevious offset v := by
  simp only [Handle.setPrevious, Handle.loadNode_eq, Handle.storeNode_eq, Shm.setPrevious]

theorem Handle.setData_eq (h : Handle) (r : Shm) (offset : Nat) (v : Int) :
    h.setData r offset v = r.setData offset v := by
  simp only [Handle.setData, Handle.loadNode_eq, Handle.storeNode_eq, Shm.setData]

theorem Handle.scanFree_eq (L : Layout) (h : Handle) (r : Shm) (k iter : Nat) :
    h.scanFree L r k iter = ShmList.scanFree L r k iter := by
  induction k generalizing iter with
  | zero => rfl
  | succ k ih =>
    simp only [Handle.scanFree, ShmList.scanFree, Handle.loadTaken, Handle.storeTaken,
      Handle.toOffset_blockPtr, Handle.blockPtr_sub, ih]

theorem Handle.get_free_node_offset_eq (L : Layout) (h : Handle) (r : Shm) :
    h.get_free_node_offset L r = ShmList.get_free_node_offset L r :=
  Handle.scanFree_eq L h r _ _

theorem Handle.return_node_eq (h : Handle) (r : Shm) (offset : Nat) :
    h.return_node r offset = ShmList.return_node r offset := by
  simp only [Handle.return_node, Handle.storeTaken, Handle.toOffset_getNodePtr,
    ShmList.return_node]

theorem Handle.push_back_eq (L : Layout) (h : Handle) (r : Shm) (n : Int) :
    h.push_back L r n = ShmList.push_back L r n := by
  simp only [Handle.push_back, ShmList.push_back, Handle.get_free_node_offset_eq,
    Handle.loadNode_eq, Handle.storeNode_eq, Shm.setData, Shm.setNext, Shm.setPrevious]

theorem Handle.pop_back_eq (h : Handle) (r : Shm) : h.pop_back r = ShmList.pop_back r := by
  simp only [Handle.pop_back, ShmList.pop_back, Handle.return_node_eq, Handle.loadNode_eq,
    Handle.storeNode_eq, Shm.setNext]

theorem Handle.pop_front_eq (h : Handle) (r : Shm) : h.pop_front r = ShmList.pop_front r := by
  simp only [Handle.pop_front, ShmList.pop_front, Handle.return_node_eq, Handle.loadNode_eq,
    Handle.storeNode_eq, Shm.setPrevious]

theorem Handle.swap_in_memory_eq (h : Handle) (r : Shm) (first second : Iterator) :
    h.swap_in_memory r first second = ShmList.swap_in_memory r first second := by
  simp only [Handle.swap_in_memory, ShmList.swap_in_memory, swap_in_memory_body, swap_fields,
    swap_relink, Handle.loadNode_eq, Handle.setNext_eq, Handle.setPrevious_eq,
    Handle.setData_eq]

theorem Handle.rangeFor_plain (h : Handle) (r : Shm) (fuel : Nat) (it : Iterator) :
    h.rangeFor r fuel it = ShmList.rangeFor r fuel it := by
  induction fuel generalizing it with
  | zero => rfl
  | succ fuel ih =>
    simp only [Handle.rangeFor, ShmList.rangeFor, Handle.loadNode_eq, ih, Iterator.incr,
      Iterator.deref]

theorem rangeFor_handle_irrel (r : Shm) (fuel o l1 l2 : Nat) :
    rangeFor r fuel ⟨o, l1⟩ = rangeFor r fuel ⟨o, l2⟩ := by
  induction fuel generalizing o with
  | zero =>
    by_cases ho : o = 0
    · subst ho; simp [rangeFor, ne_end_zero]
    · simp [rangeFor, ne_end_of_ne_zero o _ ho]
  | succ fuel ih =>
    by_cases ho : o = 0
    · subst ho; simp [rangeFor, ne_end_zero]
    · simp only [rangeFor, ne_end_of_ne_zero o _ ho, if_true, Iterator.incr, Iterator.deref]
      rw [ih]

theorem swap_in_memory_handle_irrel (r : Shm) (a b l1 l2 : Nat) :
    swap_in_memory r ⟨a, l1⟩ ⟨b, l1⟩ = swap_in_memory r ⟨a, l2⟩ ⟨b, l2⟩ := by
  by_cases h : a = b <;> simp [swap_in_memory, Iterator.ne, Iterator.eq, h]

/-- C15: for every region content and any two handles `h1`, `h2` (any two base addresses),
iteration from `begin()` through either handle yields the same payloads, the allocator returns
the same offset, and `push_back`, `pop_back`, `pop_front` and `swap_in_memory` leave the
same region whichever handle performs them: each equals the operation written on offsets
alone, in which no base address occurs. -/
theorem C15_base_address_independence (L : Layout) (h1 h2 : Handle) (this1 this2 : Nat)
    (r : Shm) (n : Int) (fuel a b : Nat) :
    (h1.rangeFor r fuel (begin this1 r) = h2.rangeFor r fuel (begin this2 r) ∧
      h1.rangeFor r fuel (begin this1 r) = rangeFor r fuel (begin this1 r)) ∧
    (h1.get_free_node_offset L r = h2.get_free_node_offset L r ∧
      h1.get_free_node_offset L r = get_free_node_offset L r) ∧
    (h1.push_back L r n = h2.push_back L r n ∧ h1.push_back L r n = push_back L r n) ∧
    (h1.pop_back r = h2.pop_back r ∧ h1.pop_back r = pop_back r) ∧
    (h1.pop_front r = h2.pop_front r ∧ h1.pop_front r = pop_front r) ∧
    (h1.swap_in_memory r ⟨a, this1⟩ ⟨b, this1⟩ = h2.swap_in_memory r ⟨a, this2⟩ ⟨b, this2⟩ ∧
      h1.swap_in_memory r ⟨a, this1⟩ ⟨b, this1⟩ = swap_in_memory r ⟨a, this1⟩ ⟨b, this1⟩) ∧
    (∀ offset, h1.loadNode r (h1.getNodePtr offset) = h2.loadNode r (h2.getNodePtr offset)) := by
  refine ⟨⟨?_, Handle.rangeFor_plain h1 r fuel _⟩, ⟨?_, Handle.get_free_node_offset_eq L h1 r⟩,
    ⟨?_, Handle.push_back_eq L h1 r n⟩, ⟨?_, Handle.pop_back_eq h1 r⟩,
    ⟨?_, Handle.pop_front_eq h1 r⟩, ⟨?_, Handle.swap_in_memory_eq h1 r _ _⟩, ?_⟩
  · rw [Handle.rangeFor_plain, Handle.rangeFor_plain]
    exact rangeFor_handle_irrel r fuel _ this1 this2
  · rw [Handle.get_free_node_offset_eq, Handle.get_free_node_offset_eq]
  · rw [Handle.push_back_eq, Handle.push_back_eq]
  · rw [Handle.pop_back_eq, Handle.pop_back_eq]
  · rw [Handle.pop_front_eq, Handle.pop_front_eq]
  · rw [Handle.swap_in_memory_eq, Handle.swap_in_memory_eq]
    exact swap_in_memory_handle_irrel r a b this1 this2
  · intro offset
    rw [Handle.loadNode_eq, Handle.loadNode_eq]

/-! ## A process running alone executes `push_back` -/

theorem soloRun_add (L : Layout) (pid a b : Nat) (t : PushProc × Shm × Option Nat) :
    soloRun L pid (a + b) t = soloRun L pid b (soloRun L pid a t) := by
  induction a generalizing t with
  | zero => simp [soloRun]
  | succ a ih =>
    have e : a + 1 + b = (a + b) + 1 := by omega
    rw [e]
    simp only [soloRun]
    exact ih _

theorem runSchedule_solo (L : Layout) (pid k : Nat) (w : World) :
    ((runSchedule L (List.replicate k pid) w).procs pid,
      (runSchedule L (List.replicate k pid) w).shm,
      (runSchedule L (List.replicate k pid) w).mutex_owner) =
    soloRun L pid k (w.procs pid, w.shm, w.mutex_owner) := by
  induction k generalizing w with
  | zero => rfl
  | succ k ih =>
    simp only [List.replicate_succ, runSchedule, soloRun]
    rw [ih]
    simp [pushStep]

theorem scan_solo (L : Layout) (pid : Nat) (k : Nat) (p : PushProc) (s : Shm)
    (o : Option Nat) (hpc : p.pc = PushPc.scan) (hk : p.iter + k = s.hdr.blocks_count) :
    (scanFree L s k p.iter = none →
      ∃ m, soloRun L pid m (p, s, o) =
        ({ p with pc := PushPc.aborted, iter := s.hdr.blocks_count }, s, o)) ∧
    (∀ r1 off, scanFree L s k p.iter = some (r1, off) →
      ∃ m j, soloRun L pid m (p, s, o) = ({ p with pc := PushPc.mark, iter := j }, s, o) ∧
        off = blockOffset L j ∧ r1 = s.setTaken off 1) := by
  induction k generalizing p with
  | zero =>
    refine ⟨fun _ => ⟨1, ?_⟩, fun r1 off h => by simp [scanFree] at h⟩
    have hlt : ¬ p.iter < s.hdr.blocks_count := by omega
    have e : p.iter = s.hdr.blocks_count := by omega
    simp only [soloRun, procStep, hpc, hlt, if_false]
    rw [← e]
  | succ k ih =>
    have hlt : p.iter < s.hdr.blocks_count := by omega
    by_cases hf : (s.cells (blockOffset L p.iter)).taken = 0
    · refine ⟨fun h => by simp [scanFree, hf] at h, fun r1 off h => ?_⟩
      simp only [scanFree, hf, if_true, Option.some.injEq, Prod.mk.injEq] at h
      refine ⟨1, p.iter, ?_, h.2.symm, ?_⟩
      · simp only [soloRun, procStep, hpc, hlt, hf, if_true]
      · rw [← h.1, h.2]
    · have ih2 := ih { p with iter := p.iter + 1 } hpc (by simp only []; omega)
      have hstep : soloRun L pid 1 (p, s, o) = ({ p with iter := p.iter + 1 }, s, o) := by
        simp only [soloRun, procStep, hpc, hlt, hf, if_true, if_false]
      constructor
      · intro h
        simp only [scanFree, hf, if_false] at h
        obtain ⟨m, hm⟩ := ih2.1 h
        exact ⟨1 + m, by rw [soloRun_add, hstep, hm]⟩
      · intro r1 off h
        simp only [scanFree, hf, if_false] at h
        obtain ⟨m, j, hm, h1, h2⟩ := ih2.2 r1 off h
        exact ⟨1 + m, j, by rw [soloRun_add, hstep, hm], h1, h2⟩

theorem solo_refines_push_back (L : Layout) (pid : Nat) (r : Shm) (n : Int) :
    ∃ k, (soloRun L pid k (⟨PushPc.assert_size, n, 0, 0, 0⟩, r, none)).2.1 =
        (push_back L r n).region ∧
      (soloRun L pid k (⟨PushPc.assert_size, n, 0, 0, 0⟩, r, none)).2.2 = none ∧
      (soloRun L pid k (⟨PushPc.assert_size, n, 0, 0, 0⟩, r, none)).1.pc =
        (if (push_back L r n).isDone then PushPc.returned else PushPc.aborted) := by
  by_cases hfull : r.hdr.size = r.hdr.blocks_count
  · refine ⟨1, ?_, ?_, ?_⟩ <;>
      simp [soloRun, procStep, hfull, push_back, Outcome.region, Outcome.isDone]
  · have h3 : soloRun L pid 3 (⟨PushPc.assert_size, n, 0, 0, 0⟩, r, none) =
        (⟨PushPc.scan, n, 0, 0, 0⟩, r, none) := by
      simp only [soloRun, procStep, hfull, if_false]
    have hscan := scan_solo L pid r.hdr.blocks_count ⟨PushPc.scan, n, 0, 0, 0⟩ r none rfl
      (by simp)
    cases hg : scanFree L r r.hdr.blocks_count 0 with
    | none =>
      obtain ⟨m, hm⟩ := hscan.1 hg
      refine ⟨3 + m, ?_, ?_, ?_⟩ <;> rw [soloRun_add, h3, hm] <;>
        simp [push_back, hfull, get_free_node_offset, hg, Outcome.region, Outcome.isDone]
    | some res =>
      obtain ⟨r1, off⟩ := res
      obtain ⟨m, j, hm, hoff, hr1⟩ := hscan.2 r1 off hg
      have hpb : push_back L r n = Outcome.done
          (let r5 := (((r1.setNode off ⟨0, 0, 0⟩).setData off n).setNext off 0).setPrevious
            off 0
           let r6 := if r5.hdr.head = 0 then r5.setHead off
             else (r5.setPrevious off r5.hdr.tail).setNext
               (r5.setPrevious off r5.hdr.tail).hdr.tail off
           (r6.setTail off).setSize (size_succ (r6.setTail off).hdr.size)) := by
        simp only [push_back, hfull, if_false, get_free_node_offset, hg]
      subst hoff
      subst hr1
      by_cases hh : r.hdr.head = 0
      · refine ⟨3 + (m + 7), ?_, ?_, ?_⟩ <;> rw [soloRun_add, h3, soloRun_add, hm] <;>
          simp [hpb, soloRun, procStep, hh, Outcome.region, Outcome.isDone, Shm.setData,
            Shm.setNext, Shm.setPrevious]
      · refine ⟨3 + (m + 9), ?_, ?_, ?_⟩ <;> rw [soloRun_add, h3, soloRun_add, hm] <;>
          simp [hpb, soloRun, procStep, hh, Outcome.region, Outcome.isDone, Shm.setData,
            Shm.setNext, Shm.setPrevious]

/-- C17 (what the code does): a `push_back` call that runs alone behaves as `push_back`, but
the guard built by `std::unique_lock(getListData()->listMutex);` is released by the very next
step, so the mutex is free while the allocator and the header updates run.  Two `push_back`
calls on a fresh capacity-2 list, run one after the other, leave `size == 2` and two nodes;
interleaved as in `raceSchedule` both calls still return normally, but both take the block
at offset 72 and both store `size = 1`: two successful pushes, one node, `size == 1`. -/
theorem C17_unlocked_push_back_loses_update :
    (∀ (L : Layout) (pid : Nat) (r : Shm) (n : Int) (others : Nat → PushProc),
      ∃ k,
        (runSchedule L (List.replicate k pid)
          ⟨r, none, fun i => if i = pid then ⟨PushPc.assert_size, n, 0, 0, 0⟩
            else others i⟩).shm = (push_back L r n).region ∧
        ((runSchedule L (List.replicate k pid)
          ⟨r, none, fun i => if i = pid then ⟨PushPc.assert_size, n, 0, 0, 0⟩
            else others i⟩).procs pid).pc =
          (if (push_back L r n).isDone then PushPc.returned else PushPc.aborted)) ∧
    (∀ (L : Layout) (pid : Nat) (w : World), (w.procs pid).pc = PushPc.guard_release →
      (pushStep L pid w).mutex_owner = none ∧
      ((pushStep L pid w).procs pid).pc = PushPc.scan ∧ (pushStep L pid w).shm = w.shm) ∧
    ((runSchedule demoLayout [0, 0] raceStart).mutex_owner = some 0 ∧
      (runSchedule demoLayout [0, 0, 0] raceStart).mutex_owner = none ∧
      ((runSchedule demoLayout [0, 0, 0] raceStart).procs 0).pc = PushPc.scan) ∧
    (((runSchedule demoLayout serialSchedule raceStart).procs 0).pc = PushPc.returned ∧
      ((runSchedule demoLayout serialSchedule raceStart).procs 1).pc = PushPc.returned ∧
      (runSchedule demoLayout serialSchedule raceStart).shm.hdr.size = 2 ∧
      countTaken demoLayout (runSchedule demoLayout serialSchedule raceStart).shm = 2 ∧
      rangeFor (runSchedule demoLayout serialSchedule raceStart).shm 2
        (begin 1 (runSchedule demoLayout serialSchedule raceStart).shm) = some [5, 10]) ∧
    (((runSchedule demoLayout raceSchedule raceStart).procs 0).pc = PushPc.returned ∧
      ((runSchedule demoLayout raceSchedule raceStart).procs 1).pc = PushPc.returned ∧
      ((runSchedule demoLayout raceSchedule raceStart).procs 0).new_node_offset = 72 ∧
      ((runSchedule demoLayout raceSchedule raceStart).procs 1).new_node_offset = 72 ∧
      (runSchedule demoLayout raceSchedule raceStart).shm.hdr.size = 1 ∧
      countTaken demoLayout (runSchedule demoLayout raceSchedule raceStart).shm = 1 ∧
      rangeFor (runSchedule demoLayout raceSchedule raceStart).shm 1
        (begin 1 (runSchedule demoLayout raceSchedule raceStart).shm) = some [10]) := by
  refine ⟨?_, ?_, by decide, by decide, by decide⟩
  · intro L pid r n others
    obtain ⟨k, h1, _, h3⟩ := solo_refines_push_back L pid r n
    have h := runSchedule_solo L pid k
      ⟨r, none, fun i => if i = pid then ⟨PushPc.assert_size, n, 0, 0, 0⟩ else others i⟩
    simp only [if_true] at h
    refine ⟨k, ?_, ?_⟩
    · rw [← h1, ← h]
    · rw [← h3, ← h]
  · intro L pid w h
    simp [pushStep, procStep, h]

end ShmList
